import Mathlib

/-!
# pg-progress: pipelines, planner estimates and the progress estimate

A shallow embedding of `progress_util.c`, `progress_pipeline.c` and the
estimation part of `progress.c`.

Modelling conventions.

* A `PlanState` is an immutable tree node.  Its `addr` stands for the pointer
  value of the node: two nodes are the same C object exactly when their
  addresses agree.
* The per-node annotation record `ProgressInstr`, reached in C through
  `PROGRESS_INSTR(node)`, lives in a heap `Instrs` indexed by the node address.
  Every C function that writes annotations takes the heap and returns the new
  heap.
* C `int` is `Nat`: the only integers are pipeline ids and counters that are
  incremented at most once per node; the start value of the (uninitialised)
  raw id counter is a parameter.
* C `double` is `Dbl`: an exact rational or one of the IEEE specials
  `+inf`, `-inf`, `NaN`.  Rounding, overflow and the sign of zero are not
  modelled; division by zero yields the IEEE special it yields in C.  Where the
  rounding of single operations matters, the operations `ieee_add`, `ieee_mul`
  and `ieee_div` round to the nearest `double`.
* `Assert` is modelled twice.  In a build with assertions a failed assertion
  aborts the backend: the function returns `none`, for a pass that does not
  reach its end.  In the default build `Assert` expands to nothing: the
  functions with the suffix `_noassert`.
* `palloc` is modelled in `find_pipelines_checked`: a request above
  `MaxAllocSize` raises an ERROR.
-/

set_option autoImplicit false

/-! ## Doubles -/

/-- C `double`: an exact rational value or an IEEE special value. -/
inductive Dbl where
  | fin (q : ℚ)
  | pinf
  | ninf
  | nan
deriving DecidableEq

namespace Dbl

/-- The infinity of the given sign (`true` = negative). -/
def inf (neg : Bool) : Dbl := if neg then ninf else pinf

/-- C `x + y` on doubles. -/
def add : Dbl → Dbl → Dbl
  | nan, _ => nan
  | _, nan => nan
  | fin a, fin b => fin (a + b)
  | pinf, ninf => nan
  | ninf, pinf => nan
  | pinf, _ => pinf
  | _, pinf => pinf
  | ninf, _ => ninf
  | _, ninf => ninf

/-- Product of an infinity with a finite value. -/
def mulInf (neg : Bool) (a : ℚ) : Dbl :=
  if a = 0 then nan else inf (if a < 0 then !neg else neg)

/-- C `x * y` on doubles. -/
def mul : Dbl → Dbl → Dbl
  | nan, _ => nan
  | _, nan => nan
  | fin a, fin b => fin (a * b)
  | pinf, fin b => mulInf false b
  | ninf, fin b => mulInf true b
  | fin a, pinf => mulInf false a
  | fin a, ninf => mulInf true a
  | pinf, pinf => pinf
  | ninf, ninf => pinf
  | pinf, ninf => ninf
  | ninf, pinf => ninf

/-- C `x / y` on doubles; a zero divisor gives an infinity or NaN, never a trap. -/
def div : Dbl → Dbl → Dbl
  | nan, _ => nan
  | _, nan => nan
  | fin a, fin b =>
    if b = 0 then (if 0 < a then pinf else if a < 0 then ninf else nan)
    else fin (a / b)
  | fin _, pinf => fin 0
  | fin _, ninf => fin 0
  | pinf, fin b => if b < 0 then ninf else pinf
  | ninf, fin b => if b < 0 then pinf else ninf
  | pinf, pinf => nan
  | pinf, ninf => nan
  | ninf, pinf => nan
  | ninf, ninf => nan

/-- C `x < y` on doubles (false when either side is NaN). -/
def lt : Dbl → Dbl → Bool
  | fin a, fin b => decide (a < b)
  | fin _, pinf => true
  | ninf, fin _ => true
  | ninf, pinf => true
  | _, _ => false

/-- C `x == y` on doubles (false when either side is NaN). -/
def eq : Dbl → Dbl → Bool
  | fin a, fin b => decide (a = b)
  | pinf, pinf => true
  | ninf, ninf => true
  | _, _ => false

/-- The `Min(x, y)` of PostgreSQL's `c.h`: `((x) < (y) ? (x) : (y))`. -/
def Min (x y : Dbl) : Dbl := if lt x y then x else y

/-- The `Max(x, y)` of PostgreSQL's `c.h`: `((x) > (y) ? (x) : (y))`. -/
def Max (x y : Dbl) : Dbl := if lt y x then x else y

/-- Conversion of a C `int` to `double`. -/
def ofNat (n : Nat) : Dbl := fin (n : ℚ)

instance : Add Dbl := ⟨add⟩
instance : Mul Dbl := ⟨mul⟩
instance : Div Dbl := ⟨div⟩

end Dbl

/-! ## Plan state trees and annotations -/

/-- The node kinds of `plan_node_name`; a plan node and its state node share the kind. -/
inductive NodeTag where
  | Result | ModifyTable | Append | MergeAppend | RecursiveUnion
  | BitmapAnd | BitmapOr | Scan | SeqScan | IndexScan | IndexOnlyScan
  | BitmapIndexScan | BitmapHeapScan | TidScan | SubqueryScan | FunctionScan
  | ValuesScan | CteScan | WorkTableScan | ForeignScan | Join | NestLoop
  | MergeJoin | HashJoin | Material | Sort | Group | Agg | WindowAgg | Unique
  | Hash | SetOp | LockRows | Limit
deriving DecidableEq, Repr

/-- The annotation record of `progress_util.h`. -/
structure ProgressInstr where
  pipeline_id : Nat
  is_driver : Bool
  tup_estimated : Dbl
  loops_estimated : Dbl
  finished : Bool
deriving DecidableEq

/-- The scalar fields of a plan state node that the extension reads:
its address, kind, `plan->plan_rows`, `instrument->ntuples`,
`instrument->tuplecount` and, for a hash node, `hashtable->totalTuples`
(`none` when `hashtable == NULL`). -/
structure NodeInfo where
  addr : Nat
  tag : NodeTag
  plan_rows : Dbl
  ntuples : Dbl
  tuplecount : Dbl
  hashtable : Option Dbl

/-- A plan state node with its child slots: the plan states of `initPlan` and
`subPlan`, the outer (`lefttree`) and inner (`righttree`) child, and the
kind-specific children `special` (`mt_plans`, `appendplans`, `mergeplans`,
`bitmapplans`, or the one `subplan` of a subquery scan).  The `SubPlanState`
nodes between a node and the plan states of its `initPlan` and `subPlan` lists
are left out. -/
inductive PlanState where
  | mk (info : NodeInfo) (initPlan subPlan : List PlanState)
      (lefttree righttree : Option PlanState) (special : List PlanState)

namespace PlanState

def info : PlanState → NodeInfo
  | mk i _ _ _ _ _ => i

def initPlan : PlanState → List PlanState
  | mk _ ip _ _ _ _ => ip

def subPlan : PlanState → List PlanState
  | mk _ _ sp _ _ _ => sp

def lefttree : PlanState → Option PlanState
  | mk _ _ _ l _ _ => l

def righttree : PlanState → Option PlanState
  | mk _ _ _ _ r _ => r

def special : PlanState → List PlanState
  | mk _ _ _ _ _ ex => ex

def addr (n : PlanState) : Nat := n.info.addr

def tag (n : PlanState) : NodeTag := n.info.tag

def plan_rows (n : PlanState) : Dbl := n.info.plan_rows

end PlanState

/-- The `switch (nodeTag(plan))` of `plan_state_walker_common`: the kinds whose
kind-specific children are walked. -/
def hasSpecial : NodeTag → Bool
  | .ModifyTable | .Append | .MergeAppend | .BitmapAnd | .BitmapOr
  | .SubqueryScan => true
  | _ => false

/-- The kind-specific children that the walker resolves for a node. -/
def extraChildren (tag : NodeTag) (special : List PlanState) : List PlanState :=
  if hasSpecial tag then special else []

/-- The `children` list built by `plan_state_walker_common`. -/
def PlanState.children (n : PlanState) : List PlanState :=
  n.initPlan ++ n.subPlan ++ n.lefttree.toList ++ n.righttree.toList
    ++ extraChildren n.tag n.special

/-- The heap of annotation records, indexed by node address. -/
abbrev Instrs := Nat → ProgressInstr

/-- The macro `PROGRESS_INSTR(node)`. -/
def PROGRESS_INSTR (s : Instrs) (node : PlanState) : ProgressInstr := s node.addr

/-- A write through `PROGRESS_INSTR(node)`. -/
def Instrs.modify (s : Instrs) (node : PlanState)
    (f : ProgressInstr → ProgressInstr) : Instrs :=
  fun a => if a = node.addr then f (s a) else s a

/-! ## The tree walker (`progress_util.c`) -/

mutual
/-- The function `plan_state_walker_common`: the visitor is called on the node,
with the resolved `children` list, before (`postorder = false`) or after
(`postorder = true`) the recursion into the children.  The C code recurses in
one `foreach` over `children`; the recursion here goes through the child slots
in the order in which `children` lists them (`plan_state_walker_common_eq`
states it as the one loop). -/
def plan_state_walker_common {σ : Type} (walker : PlanState → List PlanState → σ → σ)
    (postorder : Bool) : PlanState → σ → σ
  | .mk info ip sp l r ex, ctx =>
    let node := PlanState.mk info ip sp l r ex
    let ctx1 := if postorder then ctx else walker node node.children ctx
    let ctx2 := walk_list walker postorder ip ctx1
    let ctx3 := walk_list walker postorder sp ctx2
    let ctx4 := walk_opt walker postorder l ctx3
    let ctx5 := walk_opt walker postorder r ctx4
    let ctx6 := if hasSpecial info.tag then walk_list walker postorder ex ctx5 else ctx5
    if postorder then walker node node.children ctx6 else ctx6
/-- The `foreach` over a list slot of the children. -/
def walk_list {σ : Type} (walker : PlanState → List PlanState → σ → σ)
    (postorder : Bool) : List PlanState → σ → σ
  | [], ctx => ctx
  | c :: cs, ctx => walk_list walker postorder cs (plan_state_walker_common walker postorder c ctx)
/-- The step of the `foreach` for an optional child slot. -/
def walk_opt {σ : Type} (walker : PlanState → List PlanState → σ → σ)
    (postorder : Bool) : Option PlanState → σ → σ
  | none, ctx => ctx
  | some c, ctx => plan_state_walker_common walker postorder c ctx
end

/-- The function `plan_state_walker`: the post-order walk. -/
def plan_state_walker {σ : Type} (node : PlanState)
    (walker : PlanState → List PlanState → σ → σ) (context : σ) : σ :=
  plan_state_walker_common walker true node context

/-- The function `plan_state_walker_preorder`: the pre-order walk. -/
def plan_state_walker_preorder {σ : Type} (node : PlanState)
    (walker : PlanState → List PlanState → σ → σ) (context : σ) : σ :=
  plan_state_walker_common walker false node context

/-! ## Pipelines (`progress_pipeline.c`) -/

structure ChangePipelineContext where
  from_id : Nat
  to_id : Nat

/-- The renumbering context: the `pipeline_ids` array and the `seen` bitmap set. -/
structure RenumberPipelinesContext where
  pipeline_ids : Nat → Nat
  seen : Finset Nat

structure ProgressState where
  no_pipelines : Nat
deriving DecidableEq

def change_pipeline_id_walker (node : PlanState) (_children : List PlanState)
    (st : Instrs × ChangePipelineContext) : Instrs × ChangePipelineContext :=
  if (PROGRESS_INSTR st.1 node).pipeline_id = st.2.from_id then
    (st.1.modify node (fun i => { i with pipeline_id := st.2.to_id }), st.2)
  else st

def unmark_driver_nodes_walker (node : PlanState) (_children : List PlanState)
    (st : Instrs × Nat) : Instrs × Nat :=
  if (PROGRESS_INSTR st.1 node).pipeline_id = st.2 then
    (st.1.modify node (fun i => { i with is_driver := false }), st.2)
  else st

def change_pipeline_id (node : PlanState) (pipeline_id : Nat) (s : Instrs) : Instrs :=
  let ctx : ChangePipelineContext :=
    { from_id := (PROGRESS_INSTR s node).pipeline_id, to_id := pipeline_id }
  (plan_state_walker node change_pipeline_id_walker (s, ctx)).1

def unmark_driver_nodes (node : PlanState) (s : Instrs) : Instrs :=
  let pipeline_id := (PROGRESS_INSTR s node).pipeline_id
  (plan_state_walker node unmark_driver_nodes_walker (s, pipeline_id)).1

/-- The rule `mark_NestLoop`.  A missing outer or inner child is a NULL
dereference in C; the model leaves the heap unchanged there. -/
def mark_NestLoop (node : PlanState) (_children : List PlanState)
    (st : Instrs × Nat) : Instrs × Nat :=
  match node.lefttree, node.righttree with
  | some outer, some inner =>
    let s1 := st.1.modify node
      (fun i => { i with pipeline_id := (PROGRESS_INSTR st.1 outer).pipeline_id })
    let s2 := change_pipeline_id inner (PROGRESS_INSTR s1 node).pipeline_id s1
    let s3 := unmark_driver_nodes inner s2
    (s3, st.2)
  | _, _ => st

/-- The rule `mark_MergeJoin`, with the same convention for a missing child. -/
def mark_MergeJoin (node : PlanState) (_children : List PlanState)
    (st : Instrs × Nat) : Instrs × Nat :=
  match node.lefttree, node.righttree with
  | some outer, some inner =>
    let s1 := st.1.modify node
      (fun i => { i with pipeline_id := (PROGRESS_INSTR st.1 outer).pipeline_id })
    let s2 := change_pipeline_id inner (PROGRESS_INSTR s1 node).pipeline_id s1
    (s2, st.2)
  | _, _ => st

/-- The rule `mark_HashJoin`, with the same convention for a missing outer child. -/
def mark_HashJoin (node : PlanState) (_children : List PlanState)
    (st : Instrs × Nat) : Instrs × Nat :=
  match node.lefttree with
  | some outer =>
    (st.1.modify node
      (fun i => { i with pipeline_id := (PROGRESS_INSTR st.1 outer).pipeline_id }), st.2)
  | none => st

/-- The rule `mark_Hash`, with the same convention for a missing outer child. -/
def mark_Hash (node : PlanState) (_children : List PlanState)
    (st : Instrs × Nat) : Instrs × Nat :=
  match node.lefttree with
  | some outer =>
    (st.1.modify node
      (fun i => { i with pipeline_id := (PROGRESS_INSTR st.1 outer).pipeline_id }), st.2)
  | none => st

/-- The statements `instr->pipeline_id = (*current)++; instr->is_driver = true;`. -/
def start_pipeline (node : PlanState) (st : Instrs × Nat) : Instrs × Nat :=
  (st.1.modify node (fun i => { i with pipeline_id := st.2, is_driver := true }), st.2 + 1)

/-- The rule `mark_dummy`; its assertion `list_length(children) > 0` holds at
the only call site, which is reached for a non-empty list. -/
def mark_dummy (node : PlanState) (children : List PlanState)
    (st : Instrs × Nat) : Instrs × Nat :=
  match children with
  | [child] =>
    (st.1.modify node
      (fun i => { i with pipeline_id := (PROGRESS_INSTR st.1 child).pipeline_id }), st.2)
  | _ => start_pipeline node st

def find_pipelines_walker (node : PlanState) (children : List PlanState)
    (st : Instrs × Nat) : Instrs × Nat :=
  if children.isEmpty then start_pipeline node st
  else
    match node.tag with
    | .NestLoop => mark_NestLoop node children st
    | .MergeJoin => mark_MergeJoin node children st
    | .HashJoin => mark_HashJoin node children st
    | .Hash => mark_Hash node children st
    | .Sort | .Group | .Agg | .WindowAgg | .Unique | .SetOp | .LockRows | .Limit =>
      start_pipeline node st
    | _ => mark_dummy node children st

def renumber_pipelines_walker (node : PlanState) (_children : List PlanState)
    (st : Instrs × RenumberPipelinesContext) : Instrs × RenumberPipelinesContext :=
  let id := (PROGRESS_INSTR st.1 node).pipeline_id
  let ctx : RenumberPipelinesContext :=
    if id ∈ st.2.seen then st.2
    else
      { pipeline_ids := fun k => if k = id then st.2.seen.card else st.2.pipeline_ids k,
        seen := insert id st.2.seen }
  (st.1.modify node (fun i => { i with pipeline_id := ctx.pipeline_ids id }), ctx)

/-- The marking pass of `find_pipelines`; `current` is the start value of the
raw id counter, which the C code leaves uninitialised. -/
def mark_pipelines (top : PlanState) (s : Instrs) (current : Nat) : Instrs × Nat :=
  plan_state_walker top find_pipelines_walker (s, current)

/-- The compaction pass of `find_pipelines`; `garbage` is the content of the
freshly allocated `pipeline_ids` array. -/
def renumber_pipelines (top : PlanState) (s : Instrs) (garbage : Nat → Nat) :
    Instrs × RenumberPipelinesContext :=
  plan_state_walker top renumber_pipelines_walker
    (s, { pipeline_ids := garbage, seen := ∅ })

/-- The function `find_pipelines`: it returns the annotated heap and the
execution-scoped state. -/
def find_pipelines (top : PlanState) (s : Instrs) (current : Nat) (garbage : Nat → Nat) :
    Instrs × ProgressState :=
  let marked := mark_pipelines top s current
  let renumbered := renumber_pipelines top marked.1 garbage
  (renumbered.1, { no_pipelines := renumbered.2.seen.card })

def planner_estimates_walker (node : PlanState) (children : List PlanState)
    (s : Instrs) : Instrs :=
  let s1 := s.modify node
    (fun i => { i with tup_estimated := node.plan_rows * i.loops_estimated })
  let s2 := children.foldl
    (fun acc child => acc.modify child
      (fun i => { i with loops_estimated := (PROGRESS_INSTR acc node).loops_estimated })) s1
  if node.tag = .NestLoop then
    match node.lefttree, node.righttree with
    | some outer, some inner =>
      s2.modify inner
        (fun i => { i with loops_estimated := i.loops_estimated * outer.plan_rows })
    | _, _ => s2
  else s2

def find_planner_estimates (top : PlanState) (s : Instrs) : Instrs :=
  let s1 := s.modify top (fun i => { i with loops_estimated := Dbl.fin 1 })
  plan_state_walker_preorder top planner_estimates_walker s1

/-! ## Nodes of a tree -/

mutual
/-- The nodes reachable from a node through resolved children, the node first. -/
def PlanState.nodes : PlanState → List PlanState
  | .mk info ip sp l r ex =>
    PlanState.mk info ip sp l r ex ::
      (nodes_list ip ++ nodes_list sp ++ nodes_opt l ++ nodes_opt r
        ++ (if hasSpecial info.tag then nodes_list ex else []))
def nodes_list : List PlanState → List PlanState
  | [] => []
  | c :: cs => c.nodes ++ nodes_list cs
def nodes_opt : Option PlanState → List PlanState
  | none => []
  | some c => c.nodes
end

mutual
/-- The nodes of a tree in post-order: the nodes of each child, then the node. -/
def PlanState.postorder : PlanState → List PlanState
  | .mk info ip sp l r ex =>
    (postorder_list ip ++ postorder_list sp ++ postorder_opt l ++ postorder_opt r
        ++ (if hasSpecial info.tag then postorder_list ex else []))
      ++ [PlanState.mk info ip sp l r ex]
def postorder_list : List PlanState → List PlanState
  | [] => []
  | c :: cs => c.postorder ++ postorder_list cs
def postorder_opt : Option PlanState → List PlanState
  | none => []
  | some c => c.postorder
end

/-- A node is reachable from the root through resolved children. -/
inductive Reachable (root : PlanState) : PlanState → Prop
  | root : Reachable root root
  | child {n c : PlanState} : Reachable root n → c ∈ n.children → Reachable root c

/-! ## Addresses, well-formed trees -/

/-- The addresses of the nodes of a tree. -/
def PlanState.addrs (t : PlanState) : List Nat := t.nodes.map PlanState.addr

/-- No node is shared: the nodes of the tree are pairwise different objects. -/
def Distinct (t : PlanState) : Prop := t.addrs.Nodup

instance (t : PlanState) : Decidable (Distinct t) := by unfold Distinct; infer_instance

/-- The child slots that the marking rules dereference are present: a join has
an outer and an inner child, a hash node with children has an outer child. -/
def slotsOK (n : PlanState) : Prop :=
  ((n.tag = .NestLoop ∨ n.tag = .MergeJoin ∨ n.tag = .HashJoin) →
      n.lefttree.isSome = true ∧ n.righttree.isSome = true) ∧
  (n.tag = .Hash → n.children.isEmpty = false → n.lefttree.isSome = true)

instance (n : PlanState) : Decidable (slotsOK n) := by unfold slotsOK; infer_instance

/-- A finite well-formed plan tree. -/
def WellFormed (t : PlanState) : Prop := Distinct t ∧ ∀ n ∈ t.nodes, slotsOK n

instance (t : PlanState) : Decidable (WellFormed t) := by
  unfold WellFormed Distinct; infer_instance

/-- The pipeline id of a node in a heap. -/
def pidOf (s : Instrs) (n : PlanState) : Nat := (PROGRESS_INSTR s n).pipeline_id

/-- The driver flag of a node in a heap. -/
def drvOf (s : Instrs) (n : PlanState) : Bool := (PROGRESS_INSTR s n).is_driver

/-! ## Invariants of the marking pass -/

/-- What the marking rule of a join establishes for the join, its outer child
`o` and its inner child `i`. -/
def JoinLocal (s : Instrs) (n : PlanState) : Prop :=
  ∀ o i, n.lefttree = some o → n.righttree = some i →
    (n.tag = .HashJoin → pidOf s n = pidOf s o ∧ ∀ m ∈ i.nodes, pidOf s m ≠ pidOf s n) ∧
    (n.tag = .MergeJoin → pidOf s o = pidOf s n ∧ pidOf s i = pidOf s n) ∧
    (n.tag = .NestLoop → pidOf s o = pidOf s n ∧ pidOf s i = pidOf s n ∧
        ∀ m ∈ i.nodes, pidOf s m = pidOf s n → drvOf s m = false)

/-- The state of a subtree after the marking pass has walked it with the raw id
counter going from `c` to `c'`. -/
structure SubOK (s : Instrs) (t : PlanState) (c c' : Nat) : Prop where
  lt : c < c'
  range : ∀ n ∈ t.nodes, c ≤ pidOf s n ∧ pidOf s n < c'
  cover : ∀ n ∈ t.nodes, ∃ d ∈ t.nodes, drvOf s d = true ∧ pidOf s d = pidOf s n
  joins : ∀ n ∈ t.nodes, JoinLocal s n

/-- The state of a list of sibling subtrees walked one after the other. -/
def SeqOK (s : Instrs) : List PlanState → Nat → Nat → Prop
  | [], c, c' => c = c'
  | ch :: L, c, c' => ∃ m, SubOK s ch c m ∧ SeqOK s L m c'

/-! ## The compaction pass -/

/-- The state of the compaction pass after the nodes `P` have been visited,
`s1` being the heap the pass started from. -/
structure RenInv (s1 : Instrs) (P : List PlanState)
    (st : Instrs × RenumberPipelinesContext) : Prop where
  frame : ∀ a, a ∉ P.map PlanState.addr → st.1 a = s1 a
  seen_eq : st.2.seen = (P.map (pidOf s1)).toFinset
  done : ∀ m ∈ P, st.1 m.addr =
    { s1 m.addr with pipeline_id := st.2.pipeline_ids (pidOf s1 m) }
  bound : ∀ r ∈ st.2.seen, st.2.pipeline_ids r < st.2.seen.card
  inj : ∀ r1 ∈ st.2.seen, ∀ r2 ∈ st.2.seen,
    st.2.pipeline_ids r1 = st.2.pipeline_ids r2 → r1 = r2
  surj : ∀ k, k < st.2.seen.card → ∃ r ∈ st.2.seen, st.2.pipeline_ids r = k

/-- The record that `progress_InstrAlloc` attaches to a fresh node. -/
def instr_init : ProgressInstr :=
  { pipeline_id := 0, is_driver := false, tup_estimated := Dbl.fin 0,
    loops_estimated := Dbl.fin 0, finished := false }

/-- The heap right after instrumentation has been allocated. -/
def heap_init : Instrs := fun _ => instr_init

/-- A node without children. -/
def mkLeaf (a : Nat) (tag : NodeTag) (rows : ℚ) : PlanState :=
  .mk ⟨a, tag, .fin rows, .fin 0, .fin 0, none⟩ [] [] none none []

/-- A node with an outer child only. -/
def mkUnary (a : Nat) (tag : NodeTag) (rows : ℚ) (c : PlanState) : PlanState :=
  .mk ⟨a, tag, .fin rows, .fin 0, .fin 0, none⟩ [] [] (some c) none []

/-- A node with an outer and an inner child. -/
def mkBinary (a : Nat) (tag : NodeTag) (rows : ℚ) (l r : PlanState) : PlanState :=
  .mk ⟨a, tag, .fin rows, .fin 0, .fin 0, none⟩ [] [] (some l) (some r) []

/-- A nested loop over a scan (outer) and a sort of a scan (inner). -/
def exNestLoopSort : PlanState :=
  mkBinary 0 .NestLoop 100 (mkLeaf 1 .SeqScan 10) (mkUnary 2 .Sort 10 (mkLeaf 3 .SeqScan 10))

/-- A merge join of a scan (outer) with a sort of a scan (inner). -/
def exMergeJoinSort : PlanState :=
  mkBinary 0 .MergeJoin 100 (mkLeaf 1 .SeqScan 10) (mkUnary 2 .Sort 10 (mkLeaf 3 .SeqScan 10))

/-- A merge join of a sorted scan with a hash join. -/
def exJoins : PlanState :=
  mkBinary 0 .MergeJoin 50 (mkUnary 1 .Sort 20 (mkLeaf 2 .SeqScan 20))
    (mkBinary 3 .HashJoin 30 (mkLeaf 4 .IndexScan 30) (mkUnary 5 .Hash 7 (mkLeaf 6 .SeqScan 7)))

/-! ## Planner estimates -/

/-- The loop multiplier of the inner child of a node with multiplier `L`: for a
nested loop, `L` times the planner row estimate of the outer child. -/
def inner_loops (tag : NodeTag) (lefttree : Option PlanState) (L : Dbl) : Dbl :=
  if tag = .NestLoop then
    match lefttree with
    | some outer => L * outer.plan_rows
    | none => L
  else L

mutual
/-- The loop multiplier of every node of a tree whose root has multiplier `L`,
as the specification words it: a child inherits the multiplier of its parent,
except the inner child of a nested loop, whose multiplier is the parent's times
the planner row estimate of the outer child. -/
def expected_loops : PlanState → Dbl → List (PlanState × Dbl)
  | .mk info ip sp l r ex, L =>
    (PlanState.mk info ip sp l r ex, L) ::
      (expected_loops_list ip L ++ expected_loops_list sp L ++ expected_loops_opt l L
        ++ expected_loops_opt r (inner_loops info.tag l L)
        ++ (if hasSpecial info.tag then expected_loops_list ex L else []))
def expected_loops_list : List PlanState → Dbl → List (PlanState × Dbl)
  | [], _ => []
  | c :: cs, L => expected_loops c L ++ expected_loops_list cs L
def expected_loops_opt : Option PlanState → Dbl → List (PlanState × Dbl)
  | none, _ => []
  | some c, L => expected_loops c L
end

/-- The children of a node, each with its loop multiplier. -/
def child_loops (n : PlanState) (L : Dbl) : List (PlanState × Dbl) :=
  (n.initPlan ++ n.subPlan ++ n.lefttree.toList).map (fun c => (c, L))
    ++ n.righttree.toList.map (fun c => (c, inner_loops n.tag n.lefttree L))
    ++ (extraChildren n.tag n.special).map (fun c => (c, L))

/-- The annotation of a node agrees with an entry of `expected_loops`. -/
def LoopsAgree (s : Instrs) (p : PlanState × Dbl) : Prop :=
  (s p.1.addr).loops_estimated = p.2 ∧ (s p.1.addr).tup_estimated = p.1.plan_rows * p.2

/-- A nested loop over a scan and an inner nested loop over two scans. -/
def exNestedLoops : PlanState :=
  mkBinary 0 .NestLoop 600 (mkLeaf 1 .SeqScan 10)
    (mkBinary 2 .NestLoop 60 (mkLeaf 3 .IndexScan 3) (mkLeaf 4 .IndexScan 20))

/-! ## Progress estimation (`progress.c`) -/

/-- The per-pipeline record of `progress_pipeline.h`. -/
structure PipelineData where
  tup_processed : Dbl
  tup_estimated : Dbl
  driver_nodes : List PlanState

def processed_Hash (node : PlanState) : Dbl :=
  match node.info.hashtable with
  | none => Dbl.fin 0
  | some totalTuples => totalTuples

/-- The function `node_tup_processed`.  The `T_HashState` case of the C switch has no
`break`: after `ret = processed_Hash(node)` control falls into the `default`
case, which overwrites `ret` with the instrumentation counters. -/
def node_tup_processed (node : PlanState) : Dbl :=
  let ret := if node.tag = .Hash then processed_Hash node else Dbl.fin 0
  let fallthrough := fun (_ : Dbl) => node.info.ntuples + node.info.tuplecount
  fallthrough ret

/-- One iteration of the loop of `dne_estimator` on the pair
`(tup_estimated, tup_processed)`. -/
def dne_step (s : Instrs) (acc : Dbl × Dbl) (node : PlanState) : Dbl × Dbl :=
  let instr := PROGRESS_INSTR s node
  let tup_estimated :=
    if Dbl.eq acc.1 (Dbl.fin 0) then instr.tup_estimated
    else Dbl.Min acc.1 instr.tup_estimated
  (tup_estimated, acc.2 + node_tup_processed node)

def dne_estimator (s : Instrs) (nodes : List PlanState) : Dbl :=
  let acc := nodes.foldl (dne_step s) (Dbl.fin 0, Dbl.fin 0)
  let tup_processed := acc.2 / Dbl.ofNat nodes.length
  acc.1 / tup_processed

/-- The function `pipeline_to_process` in a build with assertions: `none` when
`Assert(pdata->driver_nodes != NIL)` fails. -/
def pipeline_to_process (s : Instrs) (pdata : PipelineData) : Option Dbl :=
  if pdata.driver_nodes.isEmpty then none
  else
    let finished := pdata.driver_nodes.foldl
      (fun fin node => if (PROGRESS_INSTR s node).finished then fin else false) true
    if finished then some pdata.tup_processed
    else if Dbl.eq pdata.tup_processed (Dbl.fin 0) then some pdata.tup_estimated
    else some (pdata.tup_processed * dne_estimator s pdata.driver_nodes)

/-- One iteration of the loop of `estimate_progress` on the pair
`(total_processed, total_to_process)`. -/
def estimate_step (s : Instrs) (pdata : Nat → PipelineData) (acc : Dbl × Dbl) (i : Nat) :
    Option (Dbl × Dbl) :=
  match pipeline_to_process s (pdata i) with
  | none => none
  | some v => some (acc.1 + (pdata i).tup_processed, acc.2 + v)

/-- The function `estimate_progress`; the array `pdata` is a function of the index. -/
def estimate_progress (s : Instrs) (pdata : Nat → PipelineData) (no_pipelines : Nat) :
    Option Dbl :=
  match (List.range no_pipelines).foldlM (estimate_step s pdata) (Dbl.fin 0, Dbl.fin 0) with
  | none => none
  | some totals =>
    if Dbl.eq totals.2 (Dbl.fin 0) then some (Dbl.fin 0)
    else some (totals.1 / totals.2)

/-- The C sum `0.0 + x0 + x1 + ...`, added from left to right. -/
def Dbl.sum (xs : List Dbl) : Dbl := xs.foldl (fun a x => a + x) (Dbl.fin 0)

/-- A node with the given counters and no children. -/
def mkCounted (a : Nat) (tag : NodeTag) (rows ntuples : ℚ) : PlanState :=
  .mk ⟨a, tag, .fin rows, .fin ntuples, .fin 0, none⟩ [] [] none none []

/-- A heap in which node `a` has estimated total output `est a` and finished
flag `done a`, and is a driver. -/
def heap_est (est : Nat → ℚ) (done : Nat → Bool) : Instrs :=
  fun a => { pipeline_id := a, is_driver := true, tup_estimated := Dbl.fin (est a),
             loops_estimated := Dbl.fin 1, finished := done a }

/-- Scenario 3 of the specification: a finished pipeline with 100 of 100 tuples
and an unfinished one with 0 of 50. -/
def exTwoPipelines : Nat → PipelineData := fun i =>
  if i = 0 then
    { tup_processed := Dbl.fin 100, tup_estimated := Dbl.fin 100,
      driver_nodes := [mkCounted 0 .SeqScan 100 100] }
  else
    { tup_processed := Dbl.fin 0, tup_estimated := Dbl.fin 50,
      driver_nodes := [mkCounted 1 .SeqScan 50 0] }

/-- Two unfinished drivers with 10 tuples each, the first with an estimated
total output of zero, in a pipeline with accumulated actual output 20. -/
def exZeroEstimate : PipelineData :=
  { tup_processed := Dbl.fin 20, tup_estimated := Dbl.fin 20,
    driver_nodes := [mkCounted 0 .SeqScan 0 10, mkCounted 1 .SeqScan 5 10] }

/-- The pipeline `exZeroEstimate` with its driver list in the other order. -/
def exZeroEstimateRev : PipelineData :=
  { tup_processed := Dbl.fin 20, tup_estimated := Dbl.fin 20,
    driver_nodes := [mkCounted 1 .SeqScan 5 10, mkCounted 0 .SeqScan 0 10] }

/-- An unfinished pipeline whose only driver has produced nothing while other
members have produced 5 tuples; its accumulated estimate is 10. -/
def exIdleDriver : PipelineData :=
  { tup_processed := Dbl.fin 5, tup_estimated := Dbl.fin 10,
    driver_nodes := [mkCounted 0 .SeqScan 10 0] }

/-! ## The estimation pass and the published state (`progress.c`) -/

/-- The entry that `calculate_progress` writes into every slot of the freshly
allocated `PipelineData` array. -/
def pdata_zero : PipelineData :=
  { tup_processed := Dbl.fin 0, tup_estimated := Dbl.fin 0, driver_nodes := [] }

/-- The visitor `estimator_walker`; the array `pdata` is a function of the
index and the heap of annotations is only read. -/
def estimator_walker (s : Instrs) (node : PlanState) (_children : List PlanState)
    (pdata : Nat → PipelineData) : Nat → PipelineData :=
  let instr := PROGRESS_INSTR s node
  let this_pdata := pdata instr.pipeline_id
  let this1 : PipelineData :=
    { this_pdata with tup_processed := this_pdata.tup_processed + node_tup_processed node }
  let this2 : PipelineData :=
    { this1 with
      tup_estimated := this1.tup_estimated +
        Dbl.Max (node_tup_processed node) instr.tup_estimated }
  let this3 : PipelineData :=
    if instr.is_driver then { this2 with driver_nodes := this2.driver_nodes ++ [node] }
    else this2
  fun i => if i = instr.pipeline_id then this3 else pdata i

/-- The array that `calculate_progress` hands to the walk: `no_pipelines`
zeroed slots; `beyond` stands for the memory behind the array. -/
def pdata_alloc (no_pipelines : Nat) (beyond : Nat → PipelineData) : Nat → PipelineData :=
  fun i => if i < no_pipelines then pdata_zero else beyond i

/-- The array after the walk of `calculate_progress` with `estimator_walker`. -/
def collect_pdata (s : Instrs) (planstate : PlanState) (no_pipelines : Nat)
    (beyond : Nat → PipelineData) : Nat → PipelineData :=
  plan_state_walker planstate (estimator_walker s) (pdata_alloc no_pipelines beyond)

/-- The first part of `calculate_progress`, up to the call of
`estimate_progress`: the global estimate, or `none` when an assertion fails. -/
def compute_estimate (s : Instrs) (planstate : PlanState) (no_pipelines : Nat)
    (beyond : Nat → PipelineData) : Option Dbl :=
  estimate_progress s (collect_pdata s planstate no_pipelines beyond) no_pipelines

/-- The divisors of the two divisions that `dne_estimator` evaluates. -/
def dne_divisors (s : Instrs) (nodes : List PlanState) : List Dbl :=
  let acc := nodes.foldl (dne_step s) (Dbl.fin 0, Dbl.fin 0)
  [Dbl.ofNat nodes.length, acc.2 / Dbl.ofNat nodes.length]

/-- The divisors of the divisions evaluated during one call of
`pipeline_to_process`. -/
def pipeline_divisors (s : Instrs) (pdata : PipelineData) : List Dbl :=
  if pdata.driver_nodes.isEmpty then []
  else
    let finished := pdata.driver_nodes.foldl
      (fun fin node => if (PROGRESS_INSTR s node).finished then fin else false) true
    if finished then []
    else if Dbl.eq pdata.tup_processed (Dbl.fin 0) then []
    else dne_divisors s pdata.driver_nodes

/-- The divisors of the divisions evaluated during a call of `estimate_progress`
in which no assertion fails. -/
def estimate_divisors (s : Instrs) (pdata : Nat → PipelineData) (no_pipelines : Nat) :
    List Dbl :=
  (List.range no_pipelines).flatMap (fun i => pipeline_divisors s (pdata i)) ++
    match (List.range no_pipelines).foldlM (estimate_step s pdata) (Dbl.fin 0, Dbl.fin 0) with
    | none => []
    | some totals => if Dbl.eq totals.2 (Dbl.fin 0) then [] else [totals.2]

/-- The tree has been partitioned into `k` pipelines: no node is shared, every
node carries a pipeline id below `k`, and every id below `k` is carried by a
driver node. -/
def Partitioned (t : PlanState) (s : Instrs) (k : Nat) : Prop :=
  Distinct t ∧ (∀ n ∈ t.nodes, pidOf s n < k) ∧
    ∀ p, p < k → ∃ n ∈ t.nodes, pidOf s n = p ∧ drvOf s n = true

instance (t : PlanState) (s : Instrs) (k : Nat) : Decidable (Partitioned t s k) := by
  unfold Partitioned; infer_instance

/-- The bound `PROGRESS_DOT_DUMP_SIZE` of `progress.h`. -/
def PROGRESS_DOT_DUMP_SIZE : Nat := 1024 * 1024

/-- The shared state of `progress.h` without its lock; `dot_dump` is the
content of the character array, one number per byte. -/
structure ProgressSharedState where
  estimate : Dbl
  dot_dump : List Nat

structure QueryDesc where
  planstate : PlanState
  es_private : ProgressState

/-- The characters of the C string that starts a buffer: the bytes before the
first NUL. -/
def cstring (buf : List Nat) : List Nat := buf.takeWhile (fun c => c != 0)

/-- The destination after the C library call `strncpy(dst, src, n)`: the first
`n` characters of the string in `src`, padded with NUL bytes to `n` bytes. -/
def strncpy (src : List Nat) (n : Nat) : List Nat :=
  (cstring src).take n ++ List.replicate (n - (cstring src).length) 0

/-- The statements `strncpy(dst, src, n); dst[n - 1] = 0;`. -/
def copy_terminated (src : List Nat) (n : Nat) : List Nat :=
  (strncpy src n).set (n - 1) 0

/-- The function `calculate_progress` on a backend attached to the shared
state.  `si_data` is the rendered diagnostic text.  The result tells whether
the pass ran to its end, and holds the shared state it leaves. -/
def calculate_progress (s : Instrs) (queryDesc : QueryDesc) (beyond : Nat → PipelineData)
    (si_data : List Nat) (shared : ProgressSharedState) : Bool × ProgressSharedState :=
  match compute_estimate s queryDesc.planstate queryDesc.es_private.no_pipelines beyond with
  | none => (false, shared)
  | some estimate =>
    (true, { estimate := estimate,
             dot_dump := copy_terminated si_data PROGRESS_DOT_DUMP_SIZE })

/-- The error that `elog(ERROR, ...)` raises in the read functions. -/
inductive ProgressError where
  | should_be_preloaded
deriving DecidableEq

/-- The function `progress_shmem_startup_hook`: `existing` is the shared state
that `ShmemInitStruct` finds, if any; the result is what `progress_state`
points to afterwards. -/
def progress_shmem_startup_hook (existing : Option ProgressSharedState) :
    Option ProgressSharedState :=
  match existing with
  | some shared => some shared
  | none => some { estimate := Dbl.fin 0,
                   dot_dump := List.replicate PROGRESS_DOT_DUMP_SIZE 0 }

/-- The function `progress_procsignal_handler_hook`, which runs when a
recomputation has been requested: `progress_state` is `none` for a NULL pointer,
which `calculate_progress` would dereference; the model leaves it `none`. -/
def progress_procsignal_handler_hook (s : Instrs) (currentQueryDesc : Option QueryDesc)
    (beyond : Nat → PipelineData) (si_data : List Nat)
    (progress_state : Option ProgressSharedState) : Option ProgressSharedState :=
  match currentQueryDesc with
  | none => progress_state
  | some queryDesc =>
    match progress_state with
    | none => none
    | some shared => some (calculate_progress s queryDesc beyond si_data shared).2

/-- The function `pg_progress`. -/
def pg_progress (progress_state : Option ProgressSharedState) : Except ProgressError Dbl :=
  match progress_state with
  | none => .error .should_be_preloaded
  | some shared => .ok shared.estimate

/-- The function `pg_progress_dot`; the result is the text that
`cstring_to_text` builds from the local copy. -/
def pg_progress_dot (progress_state : Option ProgressSharedState) :
    Except ProgressError (List Nat) :=
  match progress_state with
  | none => .error .should_be_preloaded
  | some shared => .ok (cstring (copy_terminated shared.dot_dump PROGRESS_DOT_DUMP_SIZE))

/-- A hash node whose hash table holds 7 tuples and whose instrumentation
counters are still zero. -/
def exHashNode : PlanState :=
  .mk ⟨5, .Hash, .fin 7, .fin 0, .fin 0, some (.fin 7)⟩ [] [] (some (mkLeaf 6 .SeqScan 7)) none []

/-- A double that is a non-negative number or `+inf`. -/
def Dbl.NonNeg (d : Dbl) : Prop := d = Dbl.pinf ∨ ∃ q : ℚ, 0 ≤ q ∧ d = Dbl.fin q

/-- A double that is NaN, a non-negative number or `+inf`. -/
def Dbl.NonNegOrNaN (d : Dbl) : Prop := d = Dbl.nan ∨ Dbl.NonNeg d

/-- A single unfinished scan with planner row estimate 10 that has produced 50
tuples. -/
def exOvershoot : PlanState := mkCounted 0 .SeqScan 10 50

/-- A merge join of two scans that have reached their targets, 10 of 10 and 30
of 30 tuples. -/
def exUnevenDrivers : PlanState :=
  mkBinary 0 .MergeJoin 40 (mkCounted 1 .SeqScan 10 10) (mkCounted 2 .SeqScan 30 30)

/-- A merge join of two scans that have reached their common target of 10
tuples. -/
def exEvenDrivers : PlanState :=
  mkBinary 0 .MergeJoin 40 (mkCounted 1 .SeqScan 10 10) (mkCounted 2 .SeqScan 10 10)

/-- A node without children, with the given scalar fields. -/
def mkLeafOf (info : NodeInfo) : PlanState := .mk info [] [] none none []

/-- A node with an outer and an inner child that have no children. -/
def mkJoinOfLeaves (j o i : NodeInfo) : PlanState :=
  .mk j [] [] (some (mkLeafOf o)) (some (mkLeafOf i)) []

/-- Scenario 2 of the specification: a nested loop whose outer scan has
produced 10 of 10 tuples and whose inner scan has produced 40 of 100. -/
def exNestLoopScenario : PlanState :=
  mkJoinOfLeaves ⟨0, .NestLoop, .fin 1000, .fin 40, .fin 0, none⟩
    ⟨1, .SeqScan, .fin 10, .fin 10, .fin 0, none⟩ ⟨2, .IndexScan, .fin 100, .fin 40, .fin 0, none⟩

/-- The heap of `heap_init` after the outer scan of `exNestLoopScenario` has
been flagged as finished. -/
def heap_outer_done : Instrs :=
  fun a => if a = 1 then { instr_init with finished := true } else instr_init

/-- The blocking operators of the specification: the kinds for which
`find_pipelines_walker` starts a pipeline whatever their children are. -/
def NodeTag.isBlocking : NodeTag → Bool
  | .Sort | .Group | .Agg | .WindowAgg | .Unique | .SetOp | .LockRows | .Limit => true
  | _ => false

/-- The change in the number of pipelines that the specification attributes to a
node: a leaf, a blocking operator and a node of another kind with two or more
children start a pipeline, a nested loop and a merge join merge two pipelines,
and every other node joins the pipeline of a child. -/
def pipeline_delta (n : PlanState) : Int :=
  if n.children.isEmpty then 1
  else if n.tag = .NestLoop ∨ n.tag = .MergeJoin then -1
  else if n.tag = .HashJoin ∨ n.tag = .Hash then 0
  else if n.tag.isBlocking then 1
  else if 2 ≤ n.children.length then 1
  else 0

/-- Two states of the marking pass that differ by a shift `d` of the raw id
counter: the counters differ by `d`, the records agree in every field but the
pipeline id, and the pipeline ids at the addresses `V` differ by `d`. -/
def ShiftRel (d : Nat) (V : List Nat) (st1 st2 : Instrs × Nat) : Prop :=
  st2.2 = st1.2 + d ∧
  (∀ a, { st2.1 a with pipeline_id := 0 } = { st1.1 a with pipeline_id := 0 }) ∧
  ∀ a ∈ V, (st2.1 a).pipeline_id = (st1.1 a).pipeline_id + d

/-- The constant `MaxAllocSize` of PostgreSQL: `palloc` raises an ERROR for a
request of more bytes. -/
def MaxAllocSize : Nat := 1073741823

/-- The function `find_pipelines` with its allocation made explicit.  After the
marking pass the code calls `palloc((current + 1) * sizeof(int))`, with
`sizeof(int) = 4`, for the `pipeline_ids` array.  The counter only grows from its
start value, so when the request is within `MaxAllocSize` the counter has stayed
within the range of `int` and the run returns; otherwise `palloc` raises an
ERROR (or the counter has overflowed) and no partition is returned (`none`). -/
def find_pipelines_checked (top : PlanState) (s : Instrs) (current : Nat)
    (garbage : Nat → Nat) : Option (Instrs × ProgressState) :=
  if ((mark_pipelines top s current).2 + 1) * 4 ≤ MaxAllocSize then
    some (find_pipelines top s current garbage)
  else none

/-- The raw pipeline ids that the nodes of a list carry in a heap. -/
def raw_ids (s : Instrs) (L : List PlanState) : Finset Nat := (L.map (pidOf s)).toFinset

/-- The number of raw pipeline ids in a subtree is the sum of the changes that
the specification attributes to its nodes. -/
def CountOK (s : Instrs) (t : PlanState) : Prop :=
  ((raw_ids s t.nodes).card : Int) = (t.nodes.map pipeline_delta).sum

/-- The pipeline count of the specification: the leaf nodes, plus the non-leaf
blocking operators, plus the non-leaf nodes of any other non-join, non-hash kind
with two or more children, minus the non-leaf nested loops, minus the non-leaf
merge joins. -/
def pipelines_expected (t : PlanState) : Int :=
  (t.nodes.countP (fun n => n.children.isEmpty) : Int)
  + (t.nodes.countP (fun n => !n.children.isEmpty && n.tag.isBlocking) : Int)
  + (t.nodes.countP (fun n => !n.children.isEmpty && !n.tag.isBlocking &&
      decide (n.tag ≠ .NestLoop ∧ n.tag ≠ .MergeJoin ∧ n.tag ≠ .HashJoin ∧ n.tag ≠ .Hash) &&
      decide (2 ≤ n.children.length)) : Int)
  - (t.nodes.countP (fun n => !n.children.isEmpty && decide (n.tag = .NestLoop)) : Int)
  - (t.nodes.countP (fun n => !n.children.isEmpty && decide (n.tag = .MergeJoin)) : Int)

/-- A materialize node that has produced 5 tuples over an unfinished scan with
planner row estimate 0 that has produced none. -/
def exIdleScan : PlanState :=
  .mk ⟨0, .Material, .fin 5, .fin 5, .fin 0, none⟩ [] []
    (some (mkCounted 1 .SeqScan 0 0)) none []

/-- The function `pipeline_to_process` in a build without assertions, which is
the default: `Assert(pdata->driver_nodes != NIL)` expands to nothing. -/
def pipeline_to_process_noassert (s : Instrs) (pdata : PipelineData) : Dbl :=
  let finished := pdata.driver_nodes.foldl
    (fun fin node => if (PROGRESS_INSTR s node).finished then fin else false) true
  if finished then pdata.tup_processed
  else if Dbl.eq pdata.tup_processed (Dbl.fin 0) then pdata.tup_estimated
  else pdata.tup_processed * dne_estimator s pdata.driver_nodes

/-- The function `estimate_progress` in a build without assertions. -/
def estimate_progress_noassert (s : Instrs) (pdata : Nat → PipelineData)
    (no_pipelines : Nat) : Dbl :=
  let totals := (List.range no_pipelines).foldl
    (fun acc i => (acc.1 + (pdata i).tup_processed,
      acc.2 + pipeline_to_process_noassert s (pdata i))) (Dbl.fin 0, Dbl.fin 0)
  if Dbl.eq totals.2 (Dbl.fin 0) then Dbl.fin 0
  else totals.1 / totals.2

/-- The function `calculate_progress` in a build without assertions, on a backend
attached to the shared state: the shared state it leaves.  No statement of the
function can fail, and the two writes come last. -/
def calculate_progress_noassert (s : Instrs) (queryDesc : QueryDesc)
    (beyond : Nat → PipelineData) (si_data : List Nat) (_shared : ProgressSharedState) :
    ProgressSharedState :=
  { estimate := estimate_progress_noassert s
      (collect_pdata s queryDesc.planstate queryDesc.es_private.no_pipelines beyond)
      queryDesc.es_private.no_pipelines,
    dot_dump := copy_terminated si_data PROGRESS_DOT_DUMP_SIZE }

/-! # Theorems -/

/-! ## The tree walker as a fold over node sequences -/

theorem nodes_list_eq (L : List PlanState) : nodes_list L = L.flatMap PlanState.nodes := by
  induction L with
  | nil => rfl
  | cons c cs ih => simp [nodes_list, ih]

theorem nodes_opt_eq (o : Option PlanState) : nodes_opt o = o.toList.flatMap PlanState.nodes := by
  cases o <;> simp [nodes_opt]

theorem PlanState.nodes_eq (n : PlanState) :
    n.nodes = n :: n.children.flatMap PlanState.nodes := by
  cases n with
  | mk info ip sp l r ex =>
    simp only [PlanState.nodes, PlanState.children, extraChildren, nodes_list_eq, nodes_opt_eq,
      List.flatMap_append, PlanState.initPlan, PlanState.subPlan, PlanState.lefttree,
      PlanState.righttree, PlanState.special, PlanState.tag, PlanState.info]
    split <;> simp

theorem walk_list_eq {σ : Type} (w : PlanState → List PlanState → σ → σ) (po : Bool)
    (L : List PlanState) (ctx : σ) :
    walk_list w po L ctx = L.foldl (fun c ch => plan_state_walker_common w po ch c) ctx := by
  induction L generalizing ctx with
  | nil => rfl
  | cons c cs ih => simp [walk_list, ih]

theorem walk_opt_eq {σ : Type} (w : PlanState → List PlanState → σ → σ) (po : Bool)
    (o : Option PlanState) (ctx : σ) :
    walk_opt w po o ctx = o.toList.foldl (fun c ch => plan_state_walker_common w po ch c) ctx := by
  cases o <;> simp [walk_opt]

/-- The walker as the source writes it: the visitor before or after one
`foreach` over the resolved `children` list. -/
theorem plan_state_walker_common_eq {σ : Type} (w : PlanState → List PlanState → σ → σ)
    (po : Bool) (n : PlanState) (ctx : σ) :
    plan_state_walker_common w po n ctx =
      (let ctx1 := if po then ctx else w n n.children ctx
       let ctx2 := n.children.foldl (fun c ch => plan_state_walker_common w po ch c) ctx1
       if po then w n n.children ctx2 else ctx2) := by
  cases n with
  | mk info ip sp l r ex =>
    simp only [plan_state_walker_common, walk_list_eq, walk_opt_eq, PlanState.children,
      extraChildren, List.foldl_append, PlanState.initPlan, PlanState.subPlan,
      PlanState.lefttree, PlanState.righttree, PlanState.special, PlanState.tag, PlanState.info]
    cases hasSpecial info.tag <;> simp

mutual
theorem PlanState.induction_children {P : PlanState → Prop}
    (h : ∀ n, (∀ c ∈ n.children, P c) → P n) : ∀ n, P n
  | .mk info ip sp l r ex => by
    apply h
    intro c hc
    simp only [PlanState.children, extraChildren, List.mem_append, PlanState.initPlan,
      PlanState.subPlan, PlanState.lefttree, PlanState.righttree, PlanState.special] at hc
    rcases hc with (((hc | hc) | hc) | hc) | hc
    · exact induction_list h ip c hc
    · exact induction_list h sp c hc
    · exact induction_opt h l c (by simpa using hc)
    · exact induction_opt h r c (by simpa using hc)
    · split at hc
      · exact induction_list h ex c hc
      · simp at hc
theorem induction_list {P : PlanState → Prop}
    (h : ∀ n, (∀ c ∈ n.children, P c) → P n) : ∀ (L : List PlanState), ∀ c ∈ L, P c
  | [], _, hc => by simp at hc
  | x :: xs, c, hc => by
    rcases List.mem_cons.mp hc with rfl | hc
    · exact PlanState.induction_children h _
    · exact induction_list h xs c hc
theorem induction_opt {P : PlanState → Prop}
    (h : ∀ n, (∀ c ∈ n.children, P c) → P n) : ∀ (o : Option PlanState), ∀ c, o = some c → P c
  | none, _, hc => by simp at hc
  | some x, c, hc => by
    cases hc
    exact PlanState.induction_children h _
end

theorem postorder_list_eq (L : List PlanState) :
    postorder_list L = L.flatMap PlanState.postorder := by
  induction L with
  | nil => rfl
  | cons c cs ih => simp [postorder_list, ih]

theorem postorder_opt_eq (o : Option PlanState) :
    postorder_opt o = o.toList.flatMap PlanState.postorder := by
  cases o <;> simp [postorder_opt]

theorem PlanState.postorder_eq (n : PlanState) :
    n.postorder = n.children.flatMap PlanState.postorder ++ [n] := by
  cases n with
  | mk info ip sp l r ex =>
    simp only [PlanState.postorder, PlanState.children, extraChildren, postorder_list_eq,
      postorder_opt_eq, List.flatMap_append, PlanState.initPlan, PlanState.subPlan,
      PlanState.lefttree, PlanState.righttree, PlanState.special, PlanState.tag, PlanState.info]
    split <;> simp

theorem foldl_flatMap {α β σ : Type} (f : α → List β) (g : σ → β → σ) (L : List α) (init : σ) :
    (L.flatMap f).foldl g init = L.foldl (fun c a => (f a).foldl g c) init := by
  induction L generalizing init with
  | nil => rfl
  | cons a as ih => simp [List.flatMap_cons, List.foldl_append, ih]

/-- The post-order walk calls the visitor on the nodes of `postorder`, in that order. -/
theorem plan_state_walker_eq_foldl {σ : Type} (w : PlanState → List PlanState → σ → σ)
    (n : PlanState) : ∀ ctx : σ,
    plan_state_walker n w ctx = n.postorder.foldl (fun c m => w m m.children c) ctx := by
  induction n using PlanState.induction_children with
  | h n ih =>
    intro ctx
    unfold plan_state_walker at *
    rw [plan_state_walker_common_eq, PlanState.postorder_eq, List.foldl_append, foldl_flatMap]
    simp only [if_true, List.foldl_cons, List.foldl_nil]
    congr 1
    apply List.foldl_ext
    intro c ch hch
    exact ih ch hch c

/-- The pre-order walk calls the visitor on the nodes of `nodes`, in that order. -/
theorem plan_state_walker_preorder_eq_foldl {σ : Type}
    (w : PlanState → List PlanState → σ → σ) (n : PlanState) : ∀ ctx : σ,
    plan_state_walker_preorder n w ctx = n.nodes.foldl (fun c m => w m m.children c) ctx := by
  induction n using PlanState.induction_children with
  | h n ih =>
    intro ctx
    unfold plan_state_walker_preorder at *
    rw [plan_state_walker_common_eq, PlanState.nodes_eq, List.foldl_cons, foldl_flatMap]
    simp only [Bool.false_eq_true, if_false]
    apply List.foldl_ext
    intro c ch hch
    exact ih ch hch c

theorem postorder_perm_nodes (n : PlanState) : n.postorder.Perm n.nodes := by
  induction n using PlanState.induction_children with
  | h n ih =>
    rw [PlanState.postorder_eq, PlanState.nodes_eq]
    refine (List.perm_append_comm).trans ?_
    simp only [List.singleton_append]
    refine List.Perm.cons _ ?_
    generalize n.children = L at ih
    induction L with
    | nil => simp
    | cons c cs ihL =>
      simp only [List.flatMap_cons]
      exact List.Perm.append (ih c (List.mem_cons_self _ _))
        (ihL (fun x hx => ih x (List.mem_cons_of_mem _ hx)))

theorem mem_nodes_iff_reachable (root n : PlanState) : n ∈ root.nodes ↔ Reachable root n := by
  constructor
  · intro h
    revert h
    suffices H : ∀ r, Reachable root r → n ∈ r.nodes → Reachable root n from H root .root
    intro r
    induction r using PlanState.induction_children with
    | h r ih =>
      intro hr hn
      rw [PlanState.nodes_eq, List.mem_cons, List.mem_flatMap] at hn
      rcases hn with rfl | ⟨c, hc, hn⟩
      · exact hr
      · exact ih c hc (.child hr hc) hn
  · intro h
    induction h with
    | root => rw [PlanState.nodes_eq]; exact List.mem_cons_self _ _
    | child hr hc ih =>
      rename_i m c
      have hsub : ∀ r : PlanState, m ∈ r.nodes → c ∈ r.nodes := by
        intro r
        induction r using PlanState.induction_children with
        | h r ihr =>
          intro hm
          rw [PlanState.nodes_eq, List.mem_cons, List.mem_flatMap] at hm
          rw [PlanState.nodes_eq, List.mem_cons, List.mem_flatMap]
          rcases hm with rfl | ⟨x, hx, hm⟩
          · right
            exact ⟨c, hc, by rw [PlanState.nodes_eq]; exact List.mem_cons_self _ _⟩
          · right
            exact ⟨x, hx, ihr x hx hm⟩
      exact hsub root ih

/-! ## Nodes, children and addresses -/

theorem PlanState.self_mem_nodes (n : PlanState) : n ∈ n.nodes := by
  rw [PlanState.nodes_eq]; exact List.mem_cons_self _ _

theorem PlanState.child_nodes_subset {n c : PlanState} (hc : c ∈ n.children) :
    c.nodes ⊆ n.nodes := by
  intro m hm
  rw [PlanState.nodes_eq n]
  exact List.mem_cons_of_mem _ (List.mem_flatMap.mpr ⟨c, hc, hm⟩)

theorem PlanState.nodes_subset {t n : PlanState} (hn : n ∈ t.nodes) : n.nodes ⊆ t.nodes := by
  intro m hm
  rw [mem_nodes_iff_reachable] at hn ⊢
  rw [mem_nodes_iff_reachable] at hm
  induction hm with
  | root => exact hn
  | child _ hc ih => exact .child ih hc

theorem PlanState.mem_addrs {t : PlanState} {a : Nat} :
    a ∈ t.addrs ↔ ∃ n ∈ t.nodes, n.addr = a := by
  simp [PlanState.addrs]

theorem PlanState.addr_mem_addrs {t n : PlanState} (hn : n ∈ t.nodes) : n.addr ∈ t.addrs :=
  PlanState.mem_addrs.mpr ⟨n, hn, rfl⟩

theorem lefttree_mem_children {n o : PlanState} (h : n.lefttree = some o) : o ∈ n.children := by
  simp [PlanState.children, h]

theorem righttree_mem_children {n i : PlanState} (h : n.righttree = some i) :
    i ∈ n.children := by
  simp [PlanState.children, h]

theorem children_split {n o i : PlanState} (ho : n.lefttree = some o)
    (hi : n.righttree = some i) : ∃ A B, n.children = A ++ o :: i :: B :=
  ⟨n.initPlan ++ n.subPlan, extraChildren n.tag n.special, by simp [PlanState.children, ho, hi]⟩

/-! ## Walks that rewrite each visited record -/

theorem Instrs.modify_apply (s : Instrs) (n : PlanState) (f : ProgressInstr → ProgressInstr)
    (a : Nat) : s.modify n f a = if a = n.addr then f (s a) else s a := rfl

theorem foldl_pointwise {κ : Type} (g : ProgressInstr → ProgressInstr)
    (hg : ∀ i, g (g i) = g i) (w : PlanState → List PlanState → Instrs × κ → Instrs × κ)
    (k : κ) (hw : ∀ n ch s, w n ch (s, k) = (s.modify n g, k)) (L : List PlanState) :
    ∀ s : Instrs, L.foldl (fun c m => w m m.children c) (s, k) =
      ((fun a => if a ∈ L.map PlanState.addr then g (s a) else s a), k) := by
  induction L with
  | nil => intro s; simp
  | cons m L ih =>
    intro s
    rw [List.foldl_cons, hw, ih]
    refine Prod.ext ?_ rfl
    funext a
    simp only [Instrs.modify_apply, List.map_cons, List.mem_cons]
    by_cases h1 : a = m.addr <;> by_cases h2 : a ∈ L.map PlanState.addr <;> simp [h1, h2, hg]

/-- A post-order walk whose visitor rewrites the visited record by an idempotent
function rewrites exactly the records of the nodes of the tree. -/
theorem walk_pointwise {κ : Type} (g : ProgressInstr → ProgressInstr)
    (hg : ∀ i, g (g i) = g i) (w : PlanState → List PlanState → Instrs × κ → Instrs × κ)
    (k : κ) (hw : ∀ n ch s, w n ch (s, k) = (s.modify n g, k)) (t : PlanState)
    (s : Instrs) :
    plan_state_walker t w (s, k) =
      ((fun a => if a ∈ t.addrs then g (s a) else s a), k) := by
  rw [plan_state_walker_eq_foldl, foldl_pointwise g hg w k hw]
  refine Prod.ext ?_ rfl
  funext a
  have : a ∈ t.postorder.map PlanState.addr ↔ a ∈ t.addrs :=
    ((postorder_perm_nodes t).map _).mem_iff
  simp only [this]

theorem change_pipeline_id_eq (node : PlanState) (to_id : Nat) (s : Instrs) :
    change_pipeline_id node to_id s =
      fun a => if a ∈ node.addrs ∧ (s a).pipeline_id = pidOf s node
        then { s a with pipeline_id := to_id } else s a := by
  unfold change_pipeline_id
  simp only
  rw [walk_pointwise (fun i => if i.pipeline_id = pidOf s node
    then { i with pipeline_id := to_id } else i)]
  · funext a
    by_cases h1 : a ∈ node.addrs <;> by_cases h2 : (s a).pipeline_id = pidOf s node <;>
      simp [h1, h2]
  · intro i
    by_cases h : i.pipeline_id = pidOf s node
    · by_cases h2 : to_id = pidOf s node <;> simp [h, h2]
    · simp [h]
  · intro n ch s1
    unfold change_pipeline_id_walker
    simp only [pidOf, PROGRESS_INSTR]
    split
    · rename_i h
      refine Prod.ext ?_ rfl
      funext a
      simp only [Instrs.modify_apply]
      by_cases h1 : a = n.addr
      · subst h1; simp [h]
      · simp [h1]
    · rename_i h
      refine Prod.ext ?_ rfl
      funext a
      simp only [Instrs.modify_apply]
      by_cases h1 : a = n.addr
      · subst h1; simp [h]
      · simp [h1]

theorem unmark_driver_nodes_eq (node : PlanState) (s : Instrs) :
    unmark_driver_nodes node s =
      fun a => if a ∈ node.addrs ∧ (s a).pipeline_id = pidOf s node
        then { s a with is_driver := false } else s a := by
  unfold unmark_driver_nodes
  simp only
  rw [walk_pointwise (fun i => if i.pipeline_id = pidOf s node
    then { i with is_driver := false } else i)]
  · funext a
    by_cases h1 : a ∈ node.addrs <;> by_cases h2 : (s a).pipeline_id = pidOf s node <;>
      simp [h1, h2]
  · intro i
    by_cases h : i.pipeline_id = pidOf s node <;> simp [h]
  · intro n ch s1
    unfold unmark_driver_nodes_walker
    simp only [pidOf, PROGRESS_INSTR]
    split
    · rename_i h
      refine Prod.ext ?_ rfl
      funext a
      simp only [Instrs.modify_apply]
      by_cases h1 : a = n.addr
      · subst h1; simp [h]
      · simp [h1]
    · rename_i h
      refine Prod.ext ?_ rfl
      funext a
      simp only [Instrs.modify_apply]
      by_cases h1 : a = n.addr
      · subst h1; simp [h]
      · simp [h1]

/-! ## Stability of the invariants of the marking pass -/

theorem JoinLocal_evolve {s s' : Instrs} {n : PlanState} (f : Nat → Nat)
    (hp : ∀ x ∈ n.nodes, pidOf s' x = f (pidOf s x))
    (hinj : ∀ x ∈ n.nodes, ∀ y ∈ n.nodes, f (pidOf s x) = f (pidOf s y) →
      pidOf s x = pidOf s y)
    (hd : ∀ x ∈ n.nodes, drvOf s' x = true → drvOf s x = true)
    (h : JoinLocal s n) : JoinLocal s' n := by
  intro o i ho hi
  have hon : o ∈ n.nodes :=
    PlanState.child_nodes_subset (lefttree_mem_children ho) o.self_mem_nodes
  have hin : i.nodes ⊆ n.nodes := PlanState.child_nodes_subset (righttree_mem_children hi)
  have hnn := n.self_mem_nodes
  obtain ⟨h1, h2, h3⟩ := h o i ho hi
  refine ⟨fun ht => ?_, fun ht => ?_, fun ht => ?_⟩
  · obtain ⟨e, ne⟩ := h1 ht
    refine ⟨by rw [hp n hnn, hp o hon, e], fun m hm hcontra => ne m hm ?_⟩
    rw [hp m (hin hm), hp n hnn] at hcontra
    exact hinj m (hin hm) n hnn hcontra
  · obtain ⟨e1, e2⟩ := h2 ht
    exact ⟨by rw [hp n hnn, hp o hon, e1],
      by rw [hp n hnn, hp i (hin i.self_mem_nodes), e2]⟩
  · obtain ⟨e1, e2, e3⟩ := h3 ht
    refine ⟨by rw [hp n hnn, hp o hon, e1],
      by rw [hp n hnn, hp i (hin i.self_mem_nodes), e2], fun m hm hpm => ?_⟩
    rw [hp m (hin hm), hp n hnn] at hpm
    have := e3 m hm (hinj m (hin hm) n hnn hpm)
    cases hdm : drvOf s' m with
    | false => rfl
    | true => rw [hd m (hin hm) hdm] at this; exact absurd this (by simp)

theorem pidOf_congr {s s' : Instrs} {n : PlanState} (h : s' n.addr = s n.addr) :
    pidOf s' n = pidOf s n := by
  simp [pidOf, PROGRESS_INSTR, h]

theorem drvOf_congr {s s' : Instrs} {n : PlanState} (h : s' n.addr = s n.addr) :
    drvOf s' n = drvOf s n := by
  simp [drvOf, PROGRESS_INSTR, h]

theorem JoinLocal_local {s s' : Instrs} {n : PlanState}
    (h : ∀ x ∈ n.nodes, s' x.addr = s x.addr) (hj : JoinLocal s n) : JoinLocal s' n :=
  JoinLocal_evolve id (fun x hx => pidOf_congr (h x hx)) (fun _ _ _ _ e => e)
    (fun x hx e => by rw [← drvOf_congr (h x hx)]; exact e) hj

theorem SubOK_local {s s' : Instrs} {t : PlanState} {c c' : Nat}
    (h : ∀ a ∈ t.addrs, s' a = s a) (hs : SubOK s t c c') : SubOK s' t c c' := by
  have hn : ∀ x ∈ t.nodes, s' x.addr = s x.addr :=
    fun x hx => h _ (PlanState.addr_mem_addrs hx)
  refine ⟨hs.lt, fun n hn1 => ?_, fun n hn1 => ?_, fun n hn1 => ?_⟩
  · rw [pidOf_congr (hn n hn1)]; exact hs.range n hn1
  · obtain ⟨d, hd, h1, h2⟩ := hs.cover n hn1
    exact ⟨d, hd, by rw [drvOf_congr (hn d hd)]; exact h1,
      by rw [pidOf_congr (hn d hd), pidOf_congr (hn n hn1)]; exact h2⟩
  · exact JoinLocal_local (fun x hx => hn x (PlanState.nodes_subset hn1 hx)) (hs.joins n hn1)

theorem SeqOK_le {s : Instrs} : ∀ {L : List PlanState} {c c' : Nat}, SeqOK s L c c' → c ≤ c'
  | [], _, _, h => le_of_eq h
  | _ :: _, _, _, ⟨_, h1, h2⟩ => le_trans (le_of_lt h1.lt) (SeqOK_le h2)

theorem SeqOK_lt {s : Instrs} {L : List PlanState} {c c' : Nat} (h : SeqOK s L c c')
    (hL : L ≠ []) : c < c' := by
  cases L with
  | nil => exact absurd rfl hL
  | cons x xs =>
    obtain ⟨m, h1, h2⟩ := h
    exact lt_of_lt_of_le h1.lt (SeqOK_le h2)

theorem SeqOK_append {s : Instrs} : ∀ {A B : List PlanState} {c c' : Nat},
    SeqOK s (A ++ B) c c' → ∃ m, SeqOK s A c m ∧ SeqOK s B m c'
  | [], _, c, _, h => ⟨c, rfl, h⟩
  | _ :: _, _, _, _, ⟨m, h1, h2⟩ =>
    let ⟨m', h3, h4⟩ := SeqOK_append h2
    ⟨m', ⟨m, h1, h3⟩, h4⟩

theorem SeqOK_mem {s : Instrs} : ∀ {L : List PlanState} {c c' : Nat}, SeqOK s L c c' →
    ∀ x ∈ L, ∃ a b, c ≤ a ∧ b ≤ c' ∧ SubOK s x a b
  | [], _, _, _, x, hx => by simp at hx
  | y :: ys, c, c', ⟨m, h1, h2⟩, x, hx => by
    rcases List.mem_cons.mp hx with rfl | hx
    · exact ⟨c, m, le_refl _, SeqOK_le h2, h1⟩
    · obtain ⟨a, b, ha, hb, hs⟩ := SeqOK_mem h2 x hx
      exact ⟨a, b, le_trans (le_of_lt h1.lt) ha, hb, hs⟩

theorem SeqOK_split {s : Instrs} {A B : List PlanState} {o i : PlanState} {c c' : Nat}
    (h : SeqOK s (A ++ o :: i :: B) c c') :
    ∃ a b d, c ≤ a ∧ d ≤ c' ∧ SubOK s o a b ∧ SubOK s i b d := by
  obtain ⟨a, h1, h2⟩ := SeqOK_append h
  obtain ⟨b, ho, d, hi, h3⟩ := h2
  exact ⟨a, b, d, SeqOK_le h1, SeqOK_le h3, ho, hi⟩

theorem SeqOK_range {s : Instrs} {L : List PlanState} {c c' : Nat} (h : SeqOK s L c c') :
    ∀ m ∈ L.flatMap PlanState.nodes, c ≤ pidOf s m ∧ pidOf s m < c' := by
  intro m hm
  obtain ⟨x, hx, hmx⟩ := List.mem_flatMap.mp hm
  obtain ⟨a, b, ha, hb, hs⟩ := SeqOK_mem h x hx
  exact ⟨le_trans ha (hs.range m hmx).1, lt_of_lt_of_le (hs.range m hmx).2 hb⟩

/-- Sibling subtrees walked one after the other: each is left in the state its
own walk produced, because the later walks touch other addresses only. -/
theorem seq_spec (L : List PlanState)
    (ih : ∀ ch ∈ L, ∀ (s : Instrs) (c : Nat),
      SubOK (plan_state_walker_common find_pipelines_walker true ch (s, c)).1 ch c
          (plan_state_walker_common find_pipelines_walker true ch (s, c)).2 ∧
        ∀ a, a ∉ ch.addrs →
          (plan_state_walker_common find_pipelines_walker true ch (s, c)).1 a = s a) :
    (L.flatMap PlanState.addrs).Nodup → ∀ (s : Instrs) (c : Nat),
      SeqOK (L.foldl (fun st ch =>
          plan_state_walker_common find_pipelines_walker true ch st) (s, c)).1 L c
        (L.foldl (fun st ch =>
          plan_state_walker_common find_pipelines_walker true ch st) (s, c)).2 ∧
      ∀ a, a ∉ L.flatMap PlanState.addrs →
        (L.foldl (fun st ch =>
          plan_state_walker_common find_pipelines_walker true ch st) (s, c)).1 a = s a := by
  induction L with
  | nil => intro _ s c; exact ⟨rfl, fun _ _ => rfl⟩
  | cons ch L ihL =>
    intro hnd s c
    rw [List.flatMap_cons, List.nodup_append] at hnd
    obtain ⟨_, hndL, hdisj⟩ := hnd
    obtain ⟨h1, hf1⟩ := ih ch (List.mem_cons_self _ _) s c
    obtain ⟨h2, hf2⟩ := ihL (fun x hx => ih x (List.mem_cons_of_mem _ hx)) hndL
      (plan_state_walker_common find_pipelines_walker true ch (s, c)).1
      (plan_state_walker_common find_pipelines_walker true ch (s, c)).2
    simp only [List.foldl_cons, Prod.mk.eta] at h2 hf2 ⊢
    refine ⟨⟨_, SubOK_local (fun a ha => hf2 a (fun hc => hdisj ha hc)) h1, h2⟩, ?_⟩
    intro a ha
    rw [List.flatMap_cons, List.mem_append, not_or] at ha
    rw [hf2 a ha.2, hf1 a ha.1]

/-! ## The four shapes of a visit of the marking pass -/

theorem mark_dummy_cases (n : PlanState) (L : List PlanState) (st : Instrs × Nat) :
    mark_dummy n L st = start_pipeline n st ∨
    ∃ x, L = [x] ∧ mark_dummy n L st =
      (st.1.modify n (fun i => { i with pipeline_id := pidOf st.1 x }), st.2) := by
  unfold mark_dummy
  split
  · right; exact ⟨_, rfl, rfl⟩
  · left; rfl

theorem walker_cases (n : PlanState) (hs : slotsOK n) (st : Instrs × Nat) :
    (find_pipelines_walker n n.children st = start_pipeline n st ∧
        (n.children = [] ∨
          (n.tag ≠ .NestLoop ∧ n.tag ≠ .MergeJoin ∧ n.tag ≠ .HashJoin))) ∨
    (∃ x ∈ n.children, find_pipelines_walker n n.children st =
        (st.1.modify n (fun i => { i with pipeline_id := pidOf st.1 x }), st.2) ∧
        n.tag ≠ .NestLoop ∧ n.tag ≠ .MergeJoin ∧
        (n.tag = .HashJoin → n.lefttree = some x)) ∨
    (∃ o i, n.lefttree = some o ∧ n.righttree = some i ∧
        ((n.tag = .MergeJoin ∧
            find_pipelines_walker n n.children st = mark_MergeJoin n n.children st) ∨
         (n.tag = .NestLoop ∧
            find_pipelines_walker n n.children st = mark_NestLoop n n.children st))) := by
  unfold find_pipelines_walker
  by_cases hL : n.children.isEmpty = true
  · left
    exact ⟨by simp [hL], Or.inl (List.isEmpty_iff.mp hL)⟩
  · simp only [hL, if_false, Bool.false_eq_true]
    obtain ⟨hj, hh⟩ := hs
    have hL' : n.children.isEmpty = false := by simpa using hL
    have hdummy : (n.tag ≠ .NestLoop ∧ n.tag ≠ .MergeJoin ∧ n.tag ≠ .HashJoin) →
        (mark_dummy n n.children st = start_pipeline n st ∧
          (n.children = [] ∨
            (n.tag ≠ .NestLoop ∧ n.tag ≠ .MergeJoin ∧ n.tag ≠ .HashJoin))) ∨
        (∃ x ∈ n.children, mark_dummy n n.children st =
          (st.1.modify n (fun i => { i with pipeline_id := pidOf st.1 x }), st.2) ∧
          n.tag ≠ .NestLoop ∧ n.tag ≠ .MergeJoin ∧
          (n.tag = .HashJoin → n.lefttree = some x)) ∨
        (∃ o i, n.lefttree = some o ∧ n.righttree = some i ∧
          ((n.tag = .MergeJoin ∧
              mark_dummy n n.children st = mark_MergeJoin n n.children st) ∨
           (n.tag = .NestLoop ∧
              mark_dummy n n.children st = mark_NestLoop n n.children st))) := by
      intro hnj
      rcases mark_dummy_cases n n.children st with h | ⟨x, hx, h⟩
      · exact Or.inl ⟨h, Or.inr hnj⟩
      · exact Or.inr (Or.inl ⟨x, by rw [hx]; exact List.mem_singleton_self x, h, hnj.1,
          hnj.2.1, fun e => absurd e hnj.2.2⟩)
    by_cases t1 : n.tag = .NestLoop
    · obtain ⟨h1, h2⟩ := hj (Or.inl t1)
      obtain ⟨o, ho⟩ := Option.isSome_iff_exists.mp h1
      obtain ⟨i, hi⟩ := Option.isSome_iff_exists.mp h2
      refine Or.inr (Or.inr ⟨o, i, ho, hi, Or.inr ⟨t1, ?_⟩⟩)
      simp only [t1]
    by_cases t2 : n.tag = .MergeJoin
    · obtain ⟨h1, h2⟩ := hj (Or.inr (Or.inl t2))
      obtain ⟨o, ho⟩ := Option.isSome_iff_exists.mp h1
      obtain ⟨i, hi⟩ := Option.isSome_iff_exists.mp h2
      refine Or.inr (Or.inr ⟨o, i, ho, hi, Or.inl ⟨t2, ?_⟩⟩)
      simp only [t2]
    by_cases t3 : n.tag = .HashJoin
    · obtain ⟨h1, _⟩ := hj (Or.inr (Or.inr t3))
      obtain ⟨o, ho⟩ := Option.isSome_iff_exists.mp h1
      refine Or.inr (Or.inl ⟨o, lefttree_mem_children ho, ?_, t1, t2, fun _ => ho⟩)
      simp only [t3, mark_HashJoin, ho]; rfl
    by_cases t4 : n.tag = .Hash
    · obtain ⟨o, ho⟩ := Option.isSome_iff_exists.mp (hh t4 hL')
      refine Or.inr (Or.inl ⟨o, lefttree_mem_children ho, ?_, t1, t2, fun e => absurd e t3⟩)
      simp only [t4, mark_Hash, ho]; rfl
    have hd := hdummy ⟨t1, t2, t3⟩
    cases htag : n.tag <;>
      first
      | exact absurd htag t1
      | exact absurd htag t2
      | exact absurd htag t3
      | exact absurd htag t4
      | exact Or.inl ⟨rfl, Or.inr ⟨by simp, by simp, by simp⟩⟩
      | (rw [htag] at hd; exact hd)

/-! ## Consequences of distinct addresses -/

theorem PlanState.addrs_eq (n : PlanState) :
    n.addrs = n.addr :: n.children.flatMap PlanState.addrs := by
  unfold PlanState.addrs
  rw [PlanState.nodes_eq, List.map_cons, List.map_flatMap]

theorem Distinct.not_self {n : PlanState} (h : Distinct n) :
    ∀ m ∈ n.children.flatMap PlanState.nodes, m.addr ≠ n.addr := by
  intro m hm e
  unfold Distinct at h
  rw [PlanState.addrs_eq, List.nodup_cons] at h
  apply h.1
  obtain ⟨x, hx, hmx⟩ := List.mem_flatMap.mp hm
  exact List.mem_flatMap.mpr ⟨x, hx, e ▸ PlanState.addr_mem_addrs hmx⟩

theorem Distinct.children_nodup {n : PlanState} (h : Distinct n) :
    (n.children.flatMap PlanState.addrs).Nodup := by
  unfold Distinct at h
  rw [PlanState.addrs_eq, List.nodup_cons] at h
  exact h.2

theorem Distinct.child {n c : PlanState} (h : Distinct n) (hc : c ∈ n.children) :
    Distinct c :=
  (List.nodup_flatMap.mp h.children_nodup).1 c hc

theorem Distinct.of_mem {t n : PlanState} (h : Distinct t) (hn : n ∈ t.nodes) :
    Distinct n := by
  rw [mem_nodes_iff_reachable] at hn
  induction hn with
  | root => exact h
  | child _ hc ih => exact ih.child hc

theorem Distinct.addr_inj {t : PlanState} (h : Distinct t) :
    ∀ x ∈ t.nodes, ∀ y ∈ t.nodes, x.addr = y.addr → x = y :=
  fun _ hx _ hy e => List.inj_on_of_nodup_map h hx hy e

theorem sibling_disjoint {L A B : List PlanState} {o i : PlanState}
    (hnd : (L.flatMap PlanState.addrs).Nodup) (hL : L = A ++ o :: i :: B) :
    ∀ x ∈ L, x = i ∨ ∀ a ∈ x.addrs, a ∉ i.addrs := by
  subst hL
  have hp := (List.nodup_flatMap.mp hnd).2
  rw [List.pairwise_append] at hp
  obtain ⟨_, hp2, hp3⟩ := hp
  rw [List.pairwise_cons] at hp2
  obtain ⟨hp4, hp5⟩ := hp2
  rw [List.pairwise_cons] at hp5
  intro x hx
  rw [List.mem_append, List.mem_cons, List.mem_cons] at hx
  rcases hx with hx | rfl | rfl | hx
  · right
    intro a ha
    exact List.disjoint_left.mp (hp3 x hx i (by simp)) ha
  · right
    intro a ha
    exact List.disjoint_left.mp (hp4 i (by simp)) ha
  · left; rfl
  · right
    intro a ha hia
    exact List.disjoint_left.mp (hp5.1 x hx) hia ha

/-! ## The state after a visit of the marking pass -/

/-- A visit that writes the record of the visited node only. -/
theorem own_record_spec {n : PlanState} (hD : Distinct n) {s s' : Instrs} {c c1 c2 : Nat}
    (hseq : SeqOK s n.children c c1) (hne : ∀ a, a ≠ n.addr → s' a = s a)
    (hp : c ≤ pidOf s' n ∧ pidOf s' n < c2) (hc : c1 ≤ c2) (hlt : c < c2)
    (hcov : ∃ d ∈ n.nodes, drvOf s' d = true ∧ pidOf s' d = pidOf s' n)
    (hj : JoinLocal s' n) : SubOK s' n c c2 := by
  have hsame : ∀ m ∈ n.children.flatMap PlanState.nodes, s' m.addr = s m.addr :=
    fun m hm => hne _ (hD.not_self m hm)
  have hsub : ∀ x ∈ n.children, ∀ m ∈ x.nodes, ∀ m' ∈ m.nodes, s' m'.addr = s m'.addr :=
    fun x hx m hm m' hm' =>
      hsame m' (List.mem_flatMap.mpr ⟨x, hx, PlanState.nodes_subset hm hm'⟩)
  refine ⟨hlt, fun m hm => ?_, fun m hm => ?_, fun m hm => ?_⟩
  · rw [PlanState.nodes_eq, List.mem_cons] at hm
    rcases hm with rfl | hm
    · exact hp
    · rw [pidOf_congr (hsame m hm)]
      exact ⟨(SeqOK_range hseq m hm).1, lt_of_lt_of_le (SeqOK_range hseq m hm).2 hc⟩
  · rw [PlanState.nodes_eq, List.mem_cons] at hm
    rcases hm with rfl | hm
    · exact hcov
    · obtain ⟨x, hx, hmx⟩ := List.mem_flatMap.mp hm
      obtain ⟨a, b, _, _, hs⟩ := SeqOK_mem hseq x hx
      obtain ⟨d, hd, h1, h2⟩ := hs.cover m hmx
      refine ⟨d, PlanState.child_nodes_subset hx hd, ?_, ?_⟩
      · rw [drvOf_congr (hsub x hx d hd d d.self_mem_nodes)]; exact h1
      · rw [pidOf_congr (hsub x hx d hd d d.self_mem_nodes),
          pidOf_congr (hsub x hx m hmx m m.self_mem_nodes)]
        exact h2
  · rw [PlanState.nodes_eq, List.mem_cons] at hm
    rcases hm with rfl | hm
    · exact hj
    · obtain ⟨x, hx, hmx⟩ := List.mem_flatMap.mp hm
      obtain ⟨a, b, _, _, hs⟩ := SeqOK_mem hseq x hx
      exact JoinLocal_local (hsub x hx m hmx) (hs.joins m hmx)

/-- A visit of a merge join (`strip = false`) or a nested loop (`strip = true`):
the join takes the raw id of its outer child, the records of the inner subtree
that carry the raw id of the inner child are moved to that id and, for a nested
loop, lose their driver flag. -/
theorem join_spec {n o i : PlanState} (hD : Distinct n) (ho : n.lefttree = some o)
    (hi : n.righttree = some i) (strip : Bool) (hnl : n.tag = .NestLoop → strip = true)
    (hhj : n.tag ≠ .HashJoin) {s s' : Instrs} {c c1 : Nat}
    (hseq : SeqOK s n.children c c1)
    (hn : pidOf s' n = pidOf s o)
    (hip : ∀ m ∈ i.nodes,
      pidOf s' m = if pidOf s m = pidOf s i then pidOf s o else pidOf s m)
    (hid : ∀ m ∈ i.nodes,
      drvOf s' m = if pidOf s m = pidOf s i ∧ strip = true then false else drvOf s m)
    (hother : ∀ a, a ≠ n.addr → a ∉ i.addrs → s' a = s a) : SubOK s' n c c1 := by
  obtain ⟨A, B, hL⟩ := children_split ho hi
  have hseq' := hseq
  rw [hL] at hseq'
  obtain ⟨a, b, d, hca, hdc, hso, hsi⟩ := SeqOK_split hseq'
  have hoc : o ∈ n.children := lefttree_mem_children ho
  have hic : i ∈ n.children := righttree_mem_children hi
  have hto : a ≤ pidOf s o ∧ pidOf s o < b := hso.range o o.self_mem_nodes
  have hfrom : b ≤ pidOf s i ∧ pidOf s i < d := hsi.range i i.self_mem_nodes
  have hsib := sibling_disjoint hD.children_nodup hL
  -- records outside the inner subtree are unchanged
  have hsame : ∀ x ∈ n.children, x ≠ i → ∀ m ∈ x.nodes, s' m.addr = s m.addr := by
    intro x hx hxi m hm
    rcases hsib x hx with e | hdis
    · exact absurd e hxi
    · exact hother _ (hD.not_self m (List.mem_flatMap.mpr ⟨x, hx, hm⟩))
        (hdis _ (PlanState.addr_mem_addrs hm))
  have hoi : o ≠ i := by
    intro e
    have h1 := hso.range o o.self_mem_nodes
    have h2 := hsi.range o (e ▸ i.self_mem_nodes)
    omega
  have hinner_range : ∀ m ∈ i.nodes, b ≤ pidOf s m ∧ pidOf s m < d := hsi.range
  refine ⟨SeqOK_lt hseq (by rw [hL]; simp), fun m hm => ?_, fun m hm => ?_, fun m hm => ?_⟩
  · -- range
    rw [PlanState.nodes_eq, List.mem_cons] at hm
    rcases hm with rfl | hm
    · rw [hn]; omega
    · obtain ⟨x, hx, hmx⟩ := List.mem_flatMap.mp hm
      by_cases hxi : x = i
      · subst hxi
        rw [hip m hmx]
        have := hinner_range m hmx
        split <;> omega
      · rw [pidOf_congr (hsame x hx hxi m hmx)]
        exact SeqOK_range hseq m hm
  · -- cover
    have hcov_to : ∃ d' ∈ n.nodes, drvOf s' d' = true ∧ pidOf s' d' = pidOf s o := by
      obtain ⟨d', hd', h1, h2⟩ := hso.cover o o.self_mem_nodes
      refine ⟨d', PlanState.child_nodes_subset hoc hd', ?_, ?_⟩
      · rw [drvOf_congr (hsame o hoc hoi d' hd')]; exact h1
      · rw [pidOf_congr (hsame o hoc hoi d' hd')]; exact h2
    rw [PlanState.nodes_eq, List.mem_cons] at hm
    rcases hm with rfl | hm
    · rw [hn]; exact hcov_to
    · obtain ⟨x, hx, hmx⟩ := List.mem_flatMap.mp hm
      by_cases hxi : x = i
      · subst hxi
        rw [hip m hmx]
        by_cases hpm : pidOf s m = pidOf s x
        · rw [if_pos hpm]; exact hcov_to
        · rw [if_neg hpm]
          obtain ⟨d', hd', h1, h2⟩ := hsi.cover m hmx
          have hpd : ¬ pidOf s d' = pidOf s x := by rw [h2]; exact hpm
          refine ⟨d', PlanState.child_nodes_subset hx hd', ?_, ?_⟩
          · rw [hid d' hd', if_neg (fun h => hpd h.1)]; exact h1
          · rw [hip d' hd', if_neg hpd]; exact h2
      · obtain ⟨a', b', _, _, hs⟩ := SeqOK_mem hseq x hx
        obtain ⟨d', hd', h1, h2⟩ := hs.cover m hmx
        refine ⟨d', PlanState.child_nodes_subset hx hd', ?_, ?_⟩
        · rw [drvOf_congr (hsame x hx hxi d' hd')]; exact h1
        · rw [pidOf_congr (hsame x hx hxi d' hd'), pidOf_congr (hsame x hx hxi m hmx)]
          exact h2
  · -- joins
    rw [PlanState.nodes_eq, List.mem_cons] at hm
    rcases hm with rfl | hm
    · intro o' i' ho' hi'
      rw [ho] at ho'; rw [hi] at hi'
      cases ho'; cases hi'
      have hpo : pidOf s' o = pidOf s o := pidOf_congr (hsame o hoc hoi o o.self_mem_nodes)
      have hpi : pidOf s' i = pidOf s o := by
        rw [hip i i.self_mem_nodes, if_pos rfl]
      refine ⟨fun ht => absurd ht hhj, fun _ => ⟨by rw [hpo, hn], by rw [hpi, hn]⟩,
        fun ht => ⟨by rw [hpo, hn], by rw [hpi, hn], fun m hm hpm => ?_⟩⟩
      rw [hid m hm]
      rw [hip m hm, hn] at hpm
      have := hinner_range m hm
      by_cases hpm' : pidOf s m = pidOf s i
      · rw [if_pos ⟨hpm', hnl ht⟩]
      · rw [if_neg hpm'] at hpm; omega
    · obtain ⟨x, hx, hmx⟩ := List.mem_flatMap.mp hm
      obtain ⟨a', b', _, _, hs⟩ := SeqOK_mem hseq x hx
      by_cases hxi : x = i
      · subst hxi
        refine JoinLocal_evolve (fun p => if p = pidOf s x then pidOf s o else p)
          (fun y hy => hip y (PlanState.nodes_subset hmx hy)) ?_ ?_ (hsi.joins m hmx)
        · intro y hy z hz
          have h1 := hinner_range y (PlanState.nodes_subset hmx hy)
          have h2 := hinner_range z (PlanState.nodes_subset hmx hz)
          simp only
          split <;> split <;> omega
        · intro y hy hdy
          rw [hid y (PlanState.nodes_subset hmx hy)] at hdy
          split at hdy
          · exact absurd hdy (by simp)
          · exact hdy
      · exact JoinLocal_local
          (fun y hy => hsame x hx hxi y (PlanState.nodes_subset hmx hy)) (hs.joins m hmx)

theorem pidOf_modify_self (s : Instrs) (n : PlanState) (f : ProgressInstr → ProgressInstr) :
    pidOf (s.modify n f) n = (f (s n.addr)).pipeline_id := by
  simp [pidOf, PROGRESS_INSTR, Instrs.modify_apply]

theorem modify_other (s : Instrs) (n : PlanState) (f : ProgressInstr → ProgressInstr)
    {a : Nat} (h : a ≠ n.addr) : s.modify n f a = s a := by
  simp [Instrs.modify_apply, h]

/-- The heap after `mark_MergeJoin`, node by node. -/
theorem mark_MergeJoin_props {n o i : PlanState} (hD : Distinct n) (ho : n.lefttree = some o)
    (hi : n.righttree = some i) (s : Instrs) (c1 : Nat) :
    (mark_MergeJoin n n.children (s, c1)).2 = c1 ∧
    pidOf (mark_MergeJoin n n.children (s, c1)).1 n = pidOf s o ∧
    (∀ m ∈ i.nodes, pidOf (mark_MergeJoin n n.children (s, c1)).1 m =
      if pidOf s m = pidOf s i then pidOf s o else pidOf s m) ∧
    (∀ m ∈ i.nodes, drvOf (mark_MergeJoin n n.children (s, c1)).1 m = drvOf s m) ∧
    (∀ a, a ≠ n.addr → a ∉ i.addrs → (mark_MergeJoin n n.children (s, c1)).1 a = s a) := by
  have hic : i ∈ n.children := righttree_mem_children hi
  have hni : ∀ m ∈ i.nodes, m.addr ≠ n.addr :=
    fun m hm => hD.not_self m (List.mem_flatMap.mpr ⟨i, hic, hm⟩)
  have hni' : n.addr ∉ i.addrs := by
    intro h
    obtain ⟨m, hm, e⟩ := PlanState.mem_addrs.mp h
    exact hni m hm e
  simp only [mark_MergeJoin, ho, hi, change_pipeline_id_eq]
  refine ⟨trivial, ?_, ?_, ?_, ?_⟩
  · simp [pidOf, PROGRESS_INSTR, hni', Instrs.modify_apply]
  · intro m hm
    have h1 := hni m hm
    have h2 := hni i i.self_mem_nodes
    have h3 := PlanState.addr_mem_addrs hm
    simp only [pidOf, PROGRESS_INSTR, Instrs.modify_apply, h1, h2, h3, if_false, if_true,
      true_and]
    split <;> simp
  · intro m hm
    have h1 := hni m hm
    have h2 := hni i i.self_mem_nodes
    simp only [drvOf, pidOf, PROGRESS_INSTR, Instrs.modify_apply, h1, h2, if_false]
    split <;> rfl
  · intro a ha hai
    simp [hai, Instrs.modify_apply, ha]

/-- The heap after `mark_NestLoop`, node by node, when the raw id of the outer
child does not occur in the inner subtree. -/
theorem mark_NestLoop_props {n o i : PlanState} (hD : Distinct n) (ho : n.lefttree = some o)
    (hi : n.righttree = some i) (s : Instrs) (c1 : Nat)
    (hto : ∀ m ∈ i.nodes, pidOf s m ≠ pidOf s o) :
    (mark_NestLoop n n.children (s, c1)).2 = c1 ∧
    pidOf (mark_NestLoop n n.children (s, c1)).1 n = pidOf s o ∧
    (∀ m ∈ i.nodes, pidOf (mark_NestLoop n n.children (s, c1)).1 m =
      if pidOf s m = pidOf s i then pidOf s o else pidOf s m) ∧
    (∀ m ∈ i.nodes, drvOf (mark_NestLoop n n.children (s, c1)).1 m =
      if pidOf s m = pidOf s i ∧ true = true then false else drvOf s m) ∧
    (∀ a, a ≠ n.addr → a ∉ i.addrs → (mark_NestLoop n n.children (s, c1)).1 a = s a) := by
  have hic : i ∈ n.children := righttree_mem_children hi
  have hni : ∀ m ∈ i.nodes, m.addr ≠ n.addr :=
    fun m hm => hD.not_self m (List.mem_flatMap.mpr ⟨i, hic, hm⟩)
  have hni' : n.addr ∉ i.addrs := by
    intro h
    obtain ⟨m, hm, e⟩ := PlanState.mem_addrs.mp h
    exact hni m hm e
  have hii := PlanState.addr_mem_addrs i.self_mem_nodes
  have h2 := hni i i.self_mem_nodes
  simp only [mark_NestLoop, ho, hi, change_pipeline_id_eq, unmark_driver_nodes_eq]
  refine ⟨trivial, ?_, ?_, ?_, ?_⟩
  · simp [pidOf, PROGRESS_INSTR, hni', Instrs.modify_apply]
  · intro m hm
    have h1 := hni m hm
    have h3 := PlanState.addr_mem_addrs hm
    simp only [pidOf, PROGRESS_INSTR, Instrs.modify_apply, h1, h2, h3, hii, if_false, if_true,
      true_and]
    split <;> split <;> simp_all
  · intro m hm
    have h1 := hni m hm
    have h3 := PlanState.addr_mem_addrs hm
    have h4 := hto m hm
    simp only [pidOf, PROGRESS_INSTR] at h4
    simp only [drvOf, pidOf, PROGRESS_INSTR, Instrs.modify_apply, h1, h2, h3, hii, if_false,
      if_true, true_and, and_true]
    by_cases hpm : (s m.addr).pipeline_id = (s i.addr).pipeline_id
    · simp [hpm]
    · simp [hpm, h4]
  · intro a ha hai
    simp [hai, Instrs.modify_apply, ha]

theorem start_pipeline_eq (n : PlanState) (st : Instrs × Nat) :
    start_pipeline n st =
      (st.1.modify n (fun i => { i with pipeline_id := st.2, is_driver := true }), st.2 + 1) :=
  rfl

/-- The state of a subtree after its root has been visited, given the state of
the children subtrees before the visit. -/
theorem visit_spec {n : PlanState} (hD : Distinct n) (hs : slotsOK n) {s : Instrs}
    {c c1 : Nat} (hseq : SeqOK s n.children c c1) :
    SubOK (find_pipelines_walker n n.children (s, c1)).1 n c
        (find_pipelines_walker n n.children (s, c1)).2 ∧
      ∀ a, a ∉ n.addrs → (find_pipelines_walker n n.children (s, c1)).1 a = s a := by
  have hself : n.addr ∈ n.addrs := PlanState.addr_mem_addrs n.self_mem_nodes
  have hframe : ∀ f : ProgressInstr → ProgressInstr, ∀ a, a ∉ n.addrs → s.modify n f a = s a :=
    fun f a ha => modify_other s n f (fun e => ha (e ▸ hself))
  rcases walker_cases n hs (s, c1) with ⟨hw, hk⟩ | ⟨x, hx, hw, hk1, hk2, hk3⟩ |
      ⟨o, i, ho, hi, ⟨ht, hw⟩ | ⟨ht, hw⟩⟩
  · -- a new pipeline
    rw [hw, start_pipeline_eq]
    dsimp only
    refine ⟨own_record_spec hD hseq (fun a ha => modify_other _ _ _ ha) ?_ (Nat.le_succ _)
      (Nat.lt_succ_of_le (SeqOK_le hseq)) ?_ ?_, fun a ha => hframe _ a ha⟩
    · simp only [pidOf_modify_self]
      exact ⟨SeqOK_le hseq, Nat.lt_succ_self _⟩
    · exact ⟨n, n.self_mem_nodes, by simp [drvOf, PROGRESS_INSTR, Instrs.modify_apply], rfl⟩
    · intro o i ho hi
      rcases hk with hk | ⟨k1, k2, k3⟩
      · have := lefttree_mem_children ho
        rw [hk] at this
        simp at this
      · exact ⟨fun h => absurd h k3, fun h => absurd h k2, fun h => absurd h k1⟩
  · -- the pipeline of a child
    rw [hw]
    dsimp only
    have hxn : x ∈ n.children.flatMap PlanState.nodes :=
      List.mem_flatMap.mpr ⟨x, hx, x.self_mem_nodes⟩
    have hne : ∀ m ∈ n.children.flatMap PlanState.nodes,
        (s.modify n (fun i => { i with pipeline_id := pidOf s x })) m.addr = s m.addr :=
      fun m hm => modify_other _ _ _ (hD.not_self m hm)
    have hlt : c < c1 := SeqOK_lt hseq (List.ne_nil_of_mem hx)
    refine ⟨own_record_spec hD hseq (fun a ha => modify_other _ _ _ ha) ?_ (le_refl _) hlt
      ?_ ?_, fun a ha => hframe _ a ha⟩
    · simp only [pidOf_modify_self]
      exact SeqOK_range hseq x hxn
    · obtain ⟨a, b, _, _, hsx⟩ := SeqOK_mem hseq x hx
      obtain ⟨d, hd, h1, h2⟩ := hsx.cover x x.self_mem_nodes
      have hdn : d ∈ n.children.flatMap PlanState.nodes := List.mem_flatMap.mpr ⟨x, hx, hd⟩
      refine ⟨d, PlanState.child_nodes_subset hx hd, ?_, ?_⟩
      · rw [drvOf_congr (hne d hdn)]; exact h1
      · rw [pidOf_congr (hne d hdn), pidOf_modify_self]; exact h2
    · intro o i ho hi
      refine ⟨fun h => ?_, fun h => absurd h hk2, fun h => absurd h hk1⟩
      have hxo := hk3 h
      rw [ho] at hxo
      cases hxo
      obtain ⟨A, B, hL⟩ := children_split ho hi
      have hseq' := hseq
      rw [hL] at hseq'
      obtain ⟨a, b, d, _, _, hso, hsi⟩ := SeqOK_split hseq'
      have hic : i ∈ n.children := righttree_mem_children hi
      refine ⟨by rw [pidOf_modify_self, pidOf_congr (hne x hxn)], fun m hm => ?_⟩
      have hmn : m ∈ n.children.flatMap PlanState.nodes := List.mem_flatMap.mpr ⟨i, hic, hm⟩
      rw [pidOf_congr (hne m hmn), pidOf_modify_self]
      have h1 := hso.range x x.self_mem_nodes
      have h2 := hsi.range m hm
      simp only
      omega
  · -- a merge join
    rw [hw]
    obtain ⟨e2, hn, hip, hid, hother⟩ := mark_MergeJoin_props hD ho hi s c1
    rw [e2]
    refine ⟨join_spec hD ho hi false (fun h => by rw [ht] at h; cases h) (by rw [ht]; simp)
      hseq hn hip (fun m hm => by rw [hid m hm]; simp) hother, fun a ha => ?_⟩
    refine hother a (fun e => ha (e ▸ hself)) (fun hai => ha ?_)
    obtain ⟨m, hm, e⟩ := PlanState.mem_addrs.mp hai
    exact e ▸ PlanState.addr_mem_addrs
      (PlanState.child_nodes_subset (righttree_mem_children hi) hm)
  · -- a nested loop
    rw [hw]
    obtain ⟨A, B, hL⟩ := children_split ho hi
    have hseq' := hseq
    rw [hL] at hseq'
    obtain ⟨a, b, d, _, _, hso, hsi⟩ := SeqOK_split hseq'
    have hto : ∀ m ∈ i.nodes, pidOf s m ≠ pidOf s o := by
      intro m hm
      have h1 := hso.range o o.self_mem_nodes
      have h2 := hsi.range m hm
      omega
    obtain ⟨e2, hn, hip, hid, hother⟩ := mark_NestLoop_props hD ho hi s c1 hto
    rw [e2]
    refine ⟨join_spec hD ho hi true (fun _ => rfl) (by rw [ht]; simp)
      hseq hn hip hid hother, fun a ha => ?_⟩
    refine hother a (fun e => ha (e ▸ hself)) (fun hai => ha ?_)
    obtain ⟨m, hm, e⟩ := PlanState.mem_addrs.mp hai
    exact e ▸ PlanState.addr_mem_addrs
      (PlanState.child_nodes_subset (righttree_mem_children hi) hm)

/-- The marking pass on a well-formed subtree: raw ids lie in the range the
counter ran through, every raw id of the subtree has a driver, the joins are
labelled as their rules say, and records outside the subtree are untouched. -/
theorem mark_spec (t : PlanState) : Distinct t → (∀ n ∈ t.nodes, slotsOK n) →
    ∀ (s : Instrs) (c : Nat),
      SubOK (plan_state_walker_common find_pipelines_walker true t (s, c)).1 t c
          (plan_state_walker_common find_pipelines_walker true t (s, c)).2 ∧
        ∀ a, a ∉ t.addrs →
          (plan_state_walker_common find_pipelines_walker true t (s, c)).1 a = s a := by
  induction t using PlanState.induction_children with
  | h n ih =>
    intro hD hs s c
    rw [plan_state_walker_common_eq]
    simp only [if_true]
    obtain ⟨hseq, hfr⟩ := seq_spec n.children
      (fun ch hch => ih ch hch (hD.child hch)
        (fun m hm => hs m (PlanState.child_nodes_subset hch hm)))
      hD.children_nodup s c
    have hv := visit_spec hD (hs n n.self_mem_nodes) hseq
    simp only [Prod.mk.eta] at hv
    refine ⟨hv.1, fun a ha => ?_⟩
    rw [hv.2 a ha]
    apply hfr
    intro h
    apply ha
    rw [PlanState.addrs_eq]
    exact List.mem_cons_of_mem _ h

/-! ## The compaction pass visits every node once -/

theorem RenInv_step {s1 : Instrs} {P : List PlanState}
    {st : Instrs × RenumberPipelinesContext} (h : RenInv s1 P st) (m : PlanState)
    (hm : m.addr ∉ P.map PlanState.addr) :
    RenInv s1 (P ++ [m]) (renumber_pipelines_walker m m.children st) := by
  have hraw : (PROGRESS_INSTR st.1 m).pipeline_id = pidOf s1 m := by
    simp only [PROGRESS_INSTR, pidOf, h.frame _ hm]
  have hsm : st.1 m.addr = s1 m.addr := h.frame _ hm
  unfold renumber_pipelines_walker
  simp only [hraw]
  by_cases hs : pidOf s1 m ∈ st.2.seen
  · simp only [hs, if_true]
    refine ⟨fun a ha => ?_, ?_, fun x hx => ?_, h.bound, h.inj, h.surj⟩
    · simp only [List.map_append, List.map_cons, List.map_nil, List.mem_append,
        List.mem_singleton, not_or] at ha
      dsimp only
      rw [modify_other _ _ _ ha.2]
      exact h.frame a ha.1
    · simp only [List.map_append, List.map_cons, List.map_nil, List.toFinset_append,
        List.toFinset_cons, List.toFinset_nil, ← h.seen_eq]
      ext r
      simp only [Finset.mem_union, Finset.mem_insert, Finset.not_mem_empty, or_false]
      constructor
      · intro hr; exact Or.inl hr
      · rintro (hr | rfl)
        · exact hr
        · exact hs
    · rw [List.mem_append, List.mem_singleton] at hx
      by_cases hxm : x.addr = m.addr
      · have hpx : pidOf s1 x = pidOf s1 m := by simp only [pidOf, PROGRESS_INSTR, hxm]
        simp only [Instrs.modify_apply, hxm, if_true, hsm, hpx]
      · rcases hx with hx | rfl
        · dsimp only
          rw [modify_other _ _ _ hxm]; exact h.done x hx
        · exact absurd rfl hxm
  · simp only [hs, if_false]
    have hcard : (insert (pidOf s1 m) st.2.seen).card = st.2.seen.card + 1 :=
      Finset.card_insert_of_not_mem hs
    refine ⟨fun a ha => ?_, ?_, fun x hx => ?_, fun r hr => ?_, fun r1 hr1 r2 hr2 e => ?_,
      fun k hk => ?_⟩
    · simp only [List.map_append, List.map_cons, List.map_nil, List.mem_append,
        List.mem_singleton, not_or] at ha
      dsimp only
      rw [modify_other _ _ _ ha.2]
      exact h.frame a ha.1
    · simp only [List.map_append, List.map_cons, List.map_nil, List.toFinset_append,
        List.toFinset_cons, List.toFinset_nil, ← h.seen_eq]
      ext r
      simp only [Finset.mem_union, Finset.mem_insert, Finset.not_mem_empty, or_false]
      tauto
    · rw [List.mem_append, List.mem_singleton] at hx
      by_cases hxm : x.addr = m.addr
      · have hpx : pidOf s1 x = pidOf s1 m := by simp only [pidOf, PROGRESS_INSTR, hxm]
        simp only [Instrs.modify_apply, hxm, if_true, hsm, hpx]
      · rcases hx with hx | rfl
        · dsimp only
          rw [modify_other _ _ _ hxm, h.done x hx]
          have hxs : pidOf s1 x ∈ st.2.seen := by
            rw [h.seen_eq]
            exact List.mem_toFinset.mpr (List.mem_map_of_mem _ hx)
          have : pidOf s1 x ≠ pidOf s1 m := fun e => hs (e ▸ hxs)
          simp only [this, if_false]
        · exact absurd rfl hxm
    · simp only [hcard]
      rw [Finset.mem_insert] at hr
      by_cases hrm : r = pidOf s1 m
      · simp [hrm]
      · simp only [hrm, if_false]
        rcases hr with hr | hr
        · exact absurd hr hrm
        · exact Nat.lt_succ_of_lt (h.bound r hr)
    · rw [Finset.mem_insert] at hr1 hr2
      simp only at e
      by_cases h1 : r1 = pidOf s1 m <;> by_cases h2 : r2 = pidOf s1 m
      · rw [h1, h2]
      · simp only [h1, h2, if_true, if_false] at e
        have := h.bound r2 (hr2.resolve_left h2)
        omega
      · simp only [h1, h2, if_true, if_false] at e
        have := h.bound r1 (hr1.resolve_left h1)
        omega
      · simp only [h1, h2, if_false] at e
        exact h.inj r1 (hr1.resolve_left h1) r2 (hr2.resolve_left h2) e
    · simp only [hcard] at hk
      by_cases hkc : k = st.2.seen.card
      · exact ⟨pidOf s1 m, Finset.mem_insert_self _ _, by simp [hkc]⟩
      · obtain ⟨r, hr, e⟩ := h.surj k (by omega)
        refine ⟨r, Finset.mem_insert_of_mem hr, ?_⟩
        have : r ≠ pidOf s1 m := fun e' => hs (e' ▸ hr)
        simp only [this, if_false]
        exact e

theorem RenInv_foldl {s1 : Instrs} (L : List PlanState) :
    ∀ (P : List PlanState) (st : Instrs × RenumberPipelinesContext), RenInv s1 P st →
      ((P ++ L).map PlanState.addr).Nodup →
      RenInv s1 (P ++ L)
        (L.foldl (fun c m => renumber_pipelines_walker m m.children c) st) := by
  induction L with
  | nil => intro P st h _; simpa using h
  | cons m L ih =>
    intro P st h hnd
    have hm : m.addr ∉ P.map PlanState.addr := by
      rw [List.map_append, List.nodup_append] at hnd
      intro hmem
      exact hnd.2.2 hmem (by simp)
    have := ih (P ++ [m]) _ (RenInv_step h m hm) (by simpa using hnd)
    simpa using this

/-- The compaction pass on a tree without shared nodes. -/
theorem renumber_spec (t : PlanState) (hD : Distinct t) (s1 : Instrs) (garbage : Nat → Nat) :
    RenInv s1 t.postorder (renumber_pipelines t s1 garbage) := by
  unfold renumber_pipelines
  rw [plan_state_walker_eq_foldl]
  have h0 : RenInv s1 [] (s1, { pipeline_ids := garbage, seen := ∅ }) :=
    ⟨fun _ _ => rfl, rfl, fun m hm => by simp at hm, fun r hr => by simp at hr,
      fun r1 hr1 => by simp at hr1, fun k hk => by simp at hk⟩
  have hnd : (([] ++ t.postorder).map PlanState.addr).Nodup := by
    simp only [List.nil_append]
    exact ((postorder_perm_nodes t).map _).nodup_iff.mpr hD
  simpa using RenInv_foldl t.postorder [] _ h0 hnd

/-! ## The result of `find_pipelines` -/

theorem mem_postorder_iff {t n : PlanState} : n ∈ t.postorder ↔ n ∈ t.nodes :=
  (postorder_perm_nodes t).mem_iff

/-- Compaction relabels the raw ids of the nodes by a map that is injective on
them and onto `[0, no_pipelines)`, and changes nothing else. -/
theorem find_pipelines_relabel (t : PlanState) (hD : Distinct t) (s : Instrs) (current : Nat)
    (garbage : Nat → Nat) :
    ∃ f : Nat → Nat,
      (∀ n ∈ t.nodes, (find_pipelines t s current garbage).1 n.addr =
        { (mark_pipelines t s current).1 n.addr with
          pipeline_id := f (pidOf (mark_pipelines t s current).1 n) }) ∧
      (∀ n ∈ t.nodes, ∀ m ∈ t.nodes,
        f (pidOf (mark_pipelines t s current).1 n) =
          f (pidOf (mark_pipelines t s current).1 m) →
        pidOf (mark_pipelines t s current).1 n = pidOf (mark_pipelines t s current).1 m) ∧
      (∀ n ∈ t.nodes, f (pidOf (mark_pipelines t s current).1 n) <
        (find_pipelines t s current garbage).2.no_pipelines) ∧
      (∀ p, p < (find_pipelines t s current garbage).2.no_pipelines →
        ∃ n ∈ t.nodes, f (pidOf (mark_pipelines t s current).1 n) = p) ∧
      (find_pipelines t s current garbage).2.no_pipelines =
        (t.nodes.map (pidOf (mark_pipelines t s current).1)).toFinset.card := by
  have h := renumber_spec t hD (mark_pipelines t s current).1 garbage
  have hseen : ∀ n ∈ t.nodes, pidOf (mark_pipelines t s current).1 n ∈
      (renumber_pipelines t (mark_pipelines t s current).1 garbage).2.seen := by
    intro n hn
    rw [h.seen_eq]
    exact List.mem_toFinset.mpr (List.mem_map_of_mem _ (mem_postorder_iff.mpr hn))
  refine ⟨(renumber_pipelines t (mark_pipelines t s current).1 garbage).2.pipeline_ids,
    fun n hn => h.done n (mem_postorder_iff.mpr hn),
    fun n hn m hm e => h.inj _ (hseen n hn) _ (hseen m hm) e,
    fun n hn => h.bound _ (hseen n hn), fun p hp => ?_, ?_⟩
  · obtain ⟨r, hr, e⟩ := h.surj p hp
    rw [h.seen_eq, List.mem_toFinset, List.mem_map] at hr
    obtain ⟨n, hn, rfl⟩ := hr
    exact ⟨n, mem_postorder_iff.mp hn, e⟩
  · show (renumber_pipelines t (mark_pipelines t s current).1 garbage).2.seen.card = _
    rw [h.seen_eq]
    congr 1
    ext r
    simp only [List.mem_toFinset, List.mem_map, mem_postorder_iff]

theorem mark_pipelines_spec (t : PlanState) (hwf : WellFormed t) (s : Instrs) (current : Nat) :
    SubOK (mark_pipelines t s current).1 t current (mark_pipelines t s current).2 :=
  (mark_spec t hwf.1 hwf.2 s current).1

/-- The join invariants hold in the heap that `find_pipelines` returns. -/
theorem find_pipelines_joins (t : PlanState) (hwf : WellFormed t) (s : Instrs) (current : Nat)
    (garbage : Nat → Nat) :
    ∀ n ∈ t.nodes, JoinLocal (find_pipelines t s current garbage).1 n := by
  obtain ⟨f, hf, hinj, -, -, -⟩ := find_pipelines_relabel t hwf.1 s current garbage
  intro n hn
  have hsub := PlanState.nodes_subset hn
  refine JoinLocal_evolve f (fun x hx => ?_) (fun x hx y hy e => hinj x (hsub hx) y (hsub hy) e)
    (fun x hx hd => ?_) ((mark_pipelines_spec t hwf s current).joins n hn)
  · simp only [pidOf, PROGRESS_INSTR, hf x (hsub hx)]
  · simp only [drvOf, PROGRESS_INSTR, hf x (hsub hx)] at hd
    exact hd

/-! ## Claims about the pipeline partitioner -/

/-- C1: for every well-formed plan tree, after `find_pipelines` the pipeline ids
of the nodes are exactly `0, ..., k-1` for `k = no_pipelines`, `k` is the number
of distinct raw ids the marking pass produced, and two nodes carry the same
compacted id if and only if they carried the same raw id. -/
theorem C1_compacted_ids_contiguous (t : PlanState) (hwf : WellFormed t) (s : Instrs)
    (current : Nat) (garbage : Nat → Nat) :
    (∀ n ∈ t.nodes, pidOf (find_pipelines t s current garbage).1 n <
      (find_pipelines t s current garbage).2.no_pipelines) ∧
    (∀ p, p < (find_pipelines t s current garbage).2.no_pipelines →
      ∃ n ∈ t.nodes, pidOf (find_pipelines t s current garbage).1 n = p) ∧
    (find_pipelines t s current garbage).2.no_pipelines =
      (t.nodes.map (pidOf (mark_pipelines t s current).1)).toFinset.card ∧
    (∀ n ∈ t.nodes, ∀ m ∈ t.nodes,
      (pidOf (find_pipelines t s current garbage).1 n =
          pidOf (find_pipelines t s current garbage).1 m ↔
        pidOf (mark_pipelines t s current).1 n = pidOf (mark_pipelines t s current).1 m)) := by
  obtain ⟨f, hf, hinj, hb, hsurj, hk⟩ := find_pipelines_relabel t hwf.1 s current garbage
  have hp : ∀ n ∈ t.nodes, pidOf (find_pipelines t s current garbage).1 n =
      f (pidOf (mark_pipelines t s current).1 n) := by
    intro n hn
    simp only [pidOf, PROGRESS_INSTR, hf n hn]
  refine ⟨fun n hn => by rw [hp n hn]; exact hb n hn, fun p hpk => ?_, hk, fun n hn m hm => ?_⟩
  · obtain ⟨n, hn, e⟩ := hsurj p hpk
    exact ⟨n, hn, by rw [hp n hn]; exact e⟩
  · rw [hp n hn, hp m hm]
    exact ⟨hinj n hn m hm, fun e => by rw [e]⟩

theorem C1_compacted_ids_contiguous_witness :
    WellFormed exJoins ∧
    (find_pipelines exJoins heap_init 5 (fun _ => 0)).2.no_pipelines =
      (exJoins.nodes.map (pidOf (mark_pipelines exJoins heap_init 5).1)).toFinset.card :=
  ⟨by decide,
    (C1_compacted_ids_contiguous exJoins (by decide) heap_init 5 (fun _ => 0)).2.2.1⟩

/-- C2: for every well-formed plan tree, after `find_pipelines` every pipeline
id below `no_pipelines` is carried by at least one node flagged as driver. -/
theorem C2_every_pipeline_has_driver (t : PlanState) (hwf : WellFormed t) (s : Instrs)
    (current : Nat) (garbage : Nat → Nat) :
    ∀ p, p < (find_pipelines t s current garbage).2.no_pipelines →
      ∃ n ∈ t.nodes, pidOf (find_pipelines t s current garbage).1 n = p ∧
        drvOf (find_pipelines t s current garbage).1 n = true := by
  obtain ⟨f, hf, -, -, hsurj, -⟩ := find_pipelines_relabel t hwf.1 s current garbage
  intro p hp
  obtain ⟨n, hn, e⟩ := hsurj p hp
  obtain ⟨d, hd, h1, h2⟩ := (mark_pipelines_spec t hwf s current).cover n hn
  refine ⟨d, hd, ?_, ?_⟩
  · simp only [pidOf, PROGRESS_INSTR, hf d hd]
    simp only [pidOf, PROGRESS_INSTR] at h2 e
    rw [h2]; exact e
  · simp only [drvOf, PROGRESS_INSTR, hf d hd]
    exact h1

theorem C2_every_pipeline_has_driver_witness :
    WellFormed exNestLoopSort ∧
    ∃ n ∈ exNestLoopSort.nodes,
      pidOf (find_pipelines exNestLoopSort heap_init 0 (fun _ => 0)).1 n = 1 ∧
        drvOf (find_pipelines exNestLoopSort heap_init 0 (fun _ => 0)).1 n = true :=
  ⟨by decide,
    C2_every_pipeline_has_driver exNestLoopSort (by decide) heap_init 0 (fun _ => 0) 1
      (by decide)⟩

/-- C3: on the nested loop whose inner child is a sort over a scan, the scan
lies in the inner subtree of the nested loop and is still flagged as driver
after `find_pipelines`: `unmark_driver_nodes` clears the flag only on the nodes
that carry the pipeline id of the inner child. -/
theorem C3_inner_driver_survives :
    WellFormed exNestLoopSort ∧ exNestLoopSort.tag = .NestLoop ∧
    exNestLoopSort.righttree = some (mkUnary 2 .Sort 10 (mkLeaf 3 .SeqScan 10)) ∧
    mkLeaf 3 .SeqScan 10 ∈ (mkUnary 2 .Sort 10 (mkLeaf 3 .SeqScan 10)).nodes ∧
    drvOf (find_pipelines exNestLoopSort heap_init 0 (fun _ => 0)).1 (mkLeaf 3 .SeqScan 10)
      = true := by
  refine ⟨by decide, rfl, rfl, ?_, by decide⟩
  rw [PlanState.nodes_eq]
  exact List.mem_cons_of_mem _ (List.mem_flatMap.mpr
    ⟨mkLeaf 3 .SeqScan 10, by simp [PlanState.children, mkUnary, PlanState.lefttree],
      PlanState.self_mem_nodes _⟩)

/-- C4, as stated, fails: on the merge join whose inner child is a sort over a
scan, the scan lies in the inner subtree and ends in pipeline 1 while the join,
its outer child and the sort are in pipeline 0.  The rule `mark_MergeJoin` merges
the pipelines of the two children and leaves the other pipelines of the inner
subtree as they are. -/
theorem C4_counterexample :
    WellFormed exMergeJoinSort ∧ exMergeJoinSort.tag = .MergeJoin ∧
    exMergeJoinSort.righttree = some (mkUnary 2 .Sort 10 (mkLeaf 3 .SeqScan 10)) ∧
    mkLeaf 3 .SeqScan 10 ∈ (mkUnary 2 .Sort 10 (mkLeaf 3 .SeqScan 10)).nodes ∧
    pidOf (find_pipelines exMergeJoinSort heap_init 0 (fun _ => 0)).1 exMergeJoinSort = 0 ∧
    pidOf (find_pipelines exMergeJoinSort heap_init 0 (fun _ => 0)).1
      (mkUnary 2 .Sort 10 (mkLeaf 3 .SeqScan 10)) = 0 ∧
    pidOf (find_pipelines exMergeJoinSort heap_init 0 (fun _ => 0)).1 (mkLeaf 3 .SeqScan 10)
      = 1 ∧
    pidOf (find_pipelines exMergeJoinSort heap_init 0 (fun _ => 0)).1 (mkLeaf 3 .SeqScan 10)
      ≠ pidOf (find_pipelines exMergeJoinSort heap_init 0 (fun _ => 0)).1
        exMergeJoinSort := by
  refine ⟨by decide, rfl, rfl, ?_, by decide, by decide, by decide, by decide⟩
  rw [PlanState.nodes_eq]
  exact List.mem_cons_of_mem _ (List.mem_flatMap.mpr
    ⟨mkLeaf 3 .SeqScan 10, by simp [PlanState.children, mkUnary, PlanState.lefttree],
      PlanState.self_mem_nodes _⟩)

/-- The nested loop rule moves the records of the inner subtree that carry the
raw id of the inner child into the pipeline of the join. -/
theorem mark_NestLoop_moves {n o i : PlanState} (hD : Distinct n) (ho : n.lefttree = some o)
    (hi : n.righttree = some i) (s : Instrs) (c1 : Nat) :
    ∀ m ∈ i.nodes, pidOf s m = pidOf s i →
      pidOf (mark_NestLoop n n.children (s, c1)).1 m =
        pidOf (mark_NestLoop n n.children (s, c1)).1 n := by
  have hic : i ∈ n.children := righttree_mem_children hi
  have hni : ∀ m ∈ i.nodes, m.addr ≠ n.addr :=
    fun m hm => hD.not_self m (List.mem_flatMap.mpr ⟨i, hic, hm⟩)
  have hni' : n.addr ∉ i.addrs := by
    intro h
    obtain ⟨m, hm, e⟩ := PlanState.mem_addrs.mp h
    exact hni m hm e
  have h2 := hni i i.self_mem_nodes
  intro m hm hpm
  have h1 := hni m hm
  have h3 := PlanState.addr_mem_addrs hm
  simp only [pidOf, PROGRESS_INSTR] at hpm
  simp only [mark_NestLoop, ho, hi, change_pipeline_id_eq, unmark_driver_nodes_eq, pidOf,
    PROGRESS_INSTR, Instrs.modify_apply, h1, h2, h3, hni', hpm, if_false, if_true, true_and,
    false_and, and_self]
  split <;> split <;> rfl

/-- C4, amended: for every well-formed plan tree and every nested loop or merge
join in it, after `find_pipelines` the join, its outer child and its inner child
carry one pipeline id; the marking rule of the join moves into the pipeline of
the join every node of the inner subtree that carries the pipeline id of the
inner child when the join is visited; and the rule of a merge join leaves the
other nodes of the inner subtree in their pipelines. -/
theorem C4_inner_child_pipeline_merged (t : PlanState) (hwf : WellFormed t) (s : Instrs)
    (current : Nat) (garbage : Nat → Nat) :
    (∀ n ∈ t.nodes, n.tag = .NestLoop ∨ n.tag = .MergeJoin →
      ∀ o i, n.lefttree = some o → n.righttree = some i →
        pidOf (find_pipelines t s current garbage).1 o =
            pidOf (find_pipelines t s current garbage).1 n ∧
          pidOf (find_pipelines t s current garbage).1 i =
            pidOf (find_pipelines t s current garbage).1 n) ∧
    (∀ n ∈ t.nodes, ∀ o i, n.lefttree = some o → n.righttree = some i →
      ∀ (h : Instrs) (c : Nat), ∀ m ∈ i.nodes, pidOf h m = pidOf h i →
        pidOf (mark_NestLoop n n.children (h, c)).1 m =
            pidOf (mark_NestLoop n n.children (h, c)).1 n ∧
          pidOf (mark_MergeJoin n n.children (h, c)).1 m =
            pidOf (mark_MergeJoin n n.children (h, c)).1 n) ∧
    (∀ n ∈ t.nodes, ∀ o i, n.lefttree = some o → n.righttree = some i →
      ∀ (h : Instrs) (c : Nat), ∀ m ∈ i.nodes, pidOf h m ≠ pidOf h i →
        pidOf (mark_MergeJoin n n.children (h, c)).1 m = pidOf h m) := by
  refine ⟨fun n hn ht o i ho hi => ?_, fun n hn o i ho hi h c m hm hpm => ?_,
    fun n hn o i ho hi h c m hm hpm => ?_⟩
  · obtain ⟨-, h2, h3⟩ := find_pipelines_joins t hwf s current garbage n hn o i ho hi
    rcases ht with ht | ht
    · exact ⟨(h3 ht).1, (h3 ht).2.1⟩
    · exact h2 ht
  · have hD := hwf.1.of_mem hn
    refine ⟨mark_NestLoop_moves hD ho hi h c m hm hpm, ?_⟩
    obtain ⟨-, e1, e2, -, -⟩ := mark_MergeJoin_props hD ho hi h c
    rw [e1, e2 m hm, if_pos hpm]
  · obtain ⟨-, -, e2, -, -⟩ := mark_MergeJoin_props (hwf.1.of_mem hn) ho hi h c
    rw [e2 m hm, if_neg hpm]

theorem C4_inner_child_pipeline_merged_witness :
    WellFormed exNestLoopSort ∧
    pidOf (find_pipelines exNestLoopSort heap_init 0 (fun _ => 0)).1
        (mkUnary 2 .Sort 10 (mkLeaf 3 .SeqScan 10)) =
      pidOf (find_pipelines exNestLoopSort heap_init 0 (fun _ => 0)).1 exNestLoopSort :=
  ⟨by decide,
    ((C4_inner_child_pipeline_merged exNestLoopSort (by decide) heap_init 0 (fun _ => 0)).1
      exNestLoopSort (PlanState.self_mem_nodes _) (Or.inl rfl) _ _ rfl rfl).2⟩

/-- C5: for every well-formed plan tree, after `find_pipelines` (a) every hash
join carries the pipeline id of its outer child and no node of its inner
subtree carries that id, (b) every merge join, its outer child and its inner
child carry one pipeline id. -/
theorem C5_hash_join_separate_merge_join_shared (t : PlanState) (hwf : WellFormed t)
    (s : Instrs) (current : Nat) (garbage : Nat → Nat) :
    ∀ n ∈ t.nodes, ∀ o i, n.lefttree = some o → n.righttree = some i →
      (n.tag = .HashJoin →
        pidOf (find_pipelines t s current garbage).1 n =
            pidOf (find_pipelines t s current garbage).1 o ∧
          ∀ m ∈ i.nodes, pidOf (find_pipelines t s current garbage).1 m ≠
            pidOf (find_pipelines t s current garbage).1 n) ∧
      (n.tag = .MergeJoin →
        pidOf (find_pipelines t s current garbage).1 o =
            pidOf (find_pipelines t s current garbage).1 n ∧
          pidOf (find_pipelines t s current garbage).1 i =
            pidOf (find_pipelines t s current garbage).1 n) := by
  intro n hn o i ho hi
  obtain ⟨h1, h2, -⟩ := find_pipelines_joins t hwf s current garbage n hn o i ho hi
  exact ⟨h1, h2⟩

theorem C5_hash_join_separate_merge_join_shared_witness :
    WellFormed exJoins ∧
    pidOf (find_pipelines exJoins heap_init 5 (fun _ => 0)).1
        (mkUnary 1 .Sort 20 (mkLeaf 2 .SeqScan 20)) =
      pidOf (find_pipelines exJoins heap_init 5 (fun _ => 0)).1 exJoins :=
  ⟨by decide,
    ((C5_hash_join_separate_merge_join_shared exJoins (by decide) heap_init 5 (fun _ => 0)
      exJoins (PlanState.self_mem_nodes _) _ _ rfl rfl).2 rfl).1⟩

/-! ## The order of the visits -/

theorem flatMap_split {α β : Type} (f : α → List β) :
    ∀ (L : List α) (l1 : List β) (x : β) (l2 : List β), L.flatMap f = l1 ++ x :: l2 →
      ∃ La c Lb p q, L = La ++ c :: Lb ∧ f c = p ++ x :: q ∧
        l1 = La.flatMap f ++ p ∧ l2 = q ++ Lb.flatMap f := by
  intro L
  induction L with
  | nil => intro l1 x l2 h; simp at h
  | cons a as ih =>
    intro l1 x l2 h
    rw [List.flatMap_cons, List.append_eq_append_iff] at h
    rcases h with ⟨a', h1, h2⟩ | ⟨c', h1, h2⟩
    · obtain ⟨La, c, Lb, p, q, e1, e2, e3, e4⟩ := ih a' x l2 h2
      refine ⟨a :: La, c, Lb, p, q, by rw [e1]; rfl, e2, ?_, e4⟩
      rw [h1, e3, List.flatMap_cons, List.append_assoc]
    · cases c' with
      | nil =>
        simp only [List.nil_append] at h2
        simp only [List.append_nil] at h1
        obtain ⟨La, c, Lb, p, q, e1, e2, e3, e4⟩ := ih [] x l2 h2.symm
        refine ⟨a :: La, c, Lb, p, q, by rw [e1]; rfl, e2, ?_, e4⟩
        rw [List.flatMap_cons, ← h1, List.append_assoc, ← e3, List.append_nil]
      | cons y ys =>
        simp only [List.cons_append, List.cons.injEq] at h2
        obtain ⟨rfl, h2⟩ := h2
        exact ⟨[], a, as, l1, ys, rfl, h1, by simp, h2⟩

theorem mem_flatMap_postorder_iff {L : List PlanState} {d : PlanState} :
    d ∈ L.flatMap PlanState.postorder ↔ d ∈ L.flatMap PlanState.nodes := by
  simp only [List.mem_flatMap, mem_postorder_iff]

/-- In the post-order sequence every proper descendant of a node comes before it. -/
theorem postorder_descendants_before (root : PlanState) :
    ∀ (l1 : List PlanState) (n : PlanState) (l2 : List PlanState),
      root.postorder = l1 ++ n :: l2 →
      ∀ d ∈ n.children.flatMap PlanState.nodes, d ∈ l1 := by
  induction root using PlanState.induction_children with
  | h r ih =>
    intro l1 n l2 h d hd
    rw [PlanState.postorder_eq] at h
    rcases List.eq_nil_or_concat l2 with e | ⟨l2', y, e⟩
    · subst e
      have h' := List.append_inj' h rfl
      simp only [List.cons.injEq, and_true] at h'
      obtain ⟨e1, e2⟩ := h'
      subst e2
      rw [← e1]
      exact mem_flatMap_postorder_iff.mpr hd
    · subst e
      have h' : r.children.flatMap PlanState.postorder ++ [r] = (l1 ++ n :: l2') ++ [y] := by
        rw [h]; simp
      have h'' := List.append_inj' h' rfl
      obtain ⟨La, c, Lb, p, q, e1, e2, e3, -⟩ := flatMap_split _ _ _ _ _ h''.1
      have hc : c ∈ r.children := by rw [e1]; simp
      rw [e3]
      exact List.mem_append_right _ (ih c hc p n q e2 d hd)

/-- In the pre-order sequence every proper descendant of a node comes after it. -/
theorem preorder_descendants_after (root : PlanState) :
    ∀ (l1 : List PlanState) (n : PlanState) (l2 : List PlanState),
      root.nodes = l1 ++ n :: l2 →
      ∀ d ∈ n.children.flatMap PlanState.nodes, d ∈ l2 := by
  induction root using PlanState.induction_children with
  | h r ih =>
    intro l1 n l2 h d hd
    rw [PlanState.nodes_eq] at h
    cases l1 with
    | nil =>
      simp only [List.nil_append, List.cons.injEq] at h
      obtain ⟨e1, e2⟩ := h
      subst e1
      rw [← e2]
      exact hd
    | cons y l1' =>
      simp only [List.cons_append, List.cons.injEq] at h
      obtain ⟨La, c, Lb, p, q, e1, e2, -, e4⟩ := flatMap_split _ _ _ _ _ h.2
      have hc : c ∈ r.children := by rw [e1]; simp
      rw [e4]
      exact List.mem_append_left _ (ih c hc p n q e2 d hd)

/-- C6: for every plan tree without shared nodes, `plan_state_walker` and
`plan_state_walker_preorder` call the visitor on the node sequences `postorder`
and `nodes`, each node with its resolved children list; both sequences consist
of the nodes reachable from the root, each once; in the post-order sequence a
node follows all its proper descendants, in the pre-order sequence it precedes
them. -/
theorem C6_walker_visits_each_node_once (root : PlanState) (hD : Distinct root) {σ : Type}
    (walker : PlanState → List PlanState → σ → σ) (context : σ) :
    plan_state_walker root walker context =
      root.postorder.foldl (fun c n => walker n n.children c) context ∧
    plan_state_walker_preorder root walker context =
      root.nodes.foldl (fun c n => walker n n.children c) context ∧
    (∀ n, n ∈ root.postorder ↔ Reachable root n) ∧
    (∀ n, n ∈ root.nodes ↔ Reachable root n) ∧
    (root.postorder.map PlanState.addr).Nodup ∧
    (root.nodes.map PlanState.addr).Nodup ∧
    root.postorder.Perm root.nodes ∧
    (∀ l1 n l2, root.postorder = l1 ++ n :: l2 →
      ∀ d, Reachable n d → d ≠ n → d ∈ l1 ∧ d ∉ l2) ∧
    (∀ l1 n l2, root.nodes = l1 ++ n :: l2 →
      ∀ d, Reachable n d → d ≠ n → d ∈ l2 ∧ d ∉ l1) := by
  have hndp : (root.postorder.map PlanState.addr).Nodup :=
    ((postorder_perm_nodes root).map _).nodup_iff.mpr hD
  have hproper : ∀ n d, Reachable n d → d ≠ n → d ∈ n.children.flatMap PlanState.nodes := by
    intro n d hr hne
    have := (mem_nodes_iff_reachable n d).mpr hr
    rw [PlanState.nodes_eq, List.mem_cons] at this
    exact this.resolve_left hne
  refine ⟨plan_state_walker_eq_foldl walker root context,
    plan_state_walker_preorder_eq_foldl walker root context,
    fun n => mem_postorder_iff.trans (mem_nodes_iff_reachable root n),
    mem_nodes_iff_reachable root, hndp, hD, postorder_perm_nodes root, ?_, ?_⟩
  · intro l1 n l2 h d hr hne
    have hd1 := postorder_descendants_before root l1 n l2 h d (hproper n d hr hne)
    refine ⟨hd1, fun hd2 => ?_⟩
    have hnd := List.Nodup.of_map _ hndp
    rw [h, List.nodup_append] at hnd
    exact hnd.2.2 hd1 (List.mem_cons_of_mem _ hd2)
  · intro l1 n l2 h d hr hne
    have hd2 := preorder_descendants_after root l1 n l2 h d (hproper n d hr hne)
    refine ⟨hd2, fun hd1 => ?_⟩
    have hnd := List.Nodup.of_map _ hD
    unfold PlanState.addrs at hnd
    rw [h, List.nodup_append] at hnd
    exact hnd.2.2 hd1 (List.mem_cons_of_mem _ hd2)

theorem C6_walker_visits_each_node_once_witness :
    Distinct exJoins ∧
    plan_state_walker exJoins (fun n _ (acc : List Nat) => acc ++ [n.addr]) [] =
      exJoins.postorder.foldl (fun c n => c ++ [n.addr]) [] :=
  ⟨by decide,
    (C6_walker_visits_each_node_once exJoins (by decide)
      (fun n _ (acc : List Nat) => acc ++ [n.addr]) []).1⟩

/-! ## The pre-order pass of the planner estimates -/

theorem child_loops_fst (n : PlanState) (L : Dbl) :
    (child_loops n L).map Prod.fst = n.children := by
  simp [child_loops, PlanState.children, List.map_append, Function.comp_def]

theorem expected_loops_list_eq (Lc : List PlanState) (L : Dbl) :
    expected_loops_list Lc L = (Lc.map (fun c => (c, L))).flatMap
      (fun p => expected_loops p.1 p.2) := by
  induction Lc with
  | nil => rfl
  | cons c cs ih => simp [expected_loops_list, ih]

theorem expected_loops_opt_eq (o : Option PlanState) (L : Dbl) :
    expected_loops_opt o L = (o.toList.map (fun c => (c, L))).flatMap
      (fun p => expected_loops p.1 p.2) := by
  cases o <;> simp [expected_loops_opt]

theorem expected_loops_eq (n : PlanState) (L : Dbl) :
    expected_loops n L =
      (n, L) :: (child_loops n L).flatMap (fun p => expected_loops p.1 p.2) := by
  cases n with
  | mk info ip sp l r ex =>
    simp only [expected_loops, child_loops, extraChildren, expected_loops_list_eq,
      expected_loops_opt_eq, List.flatMap_append, List.map_append, PlanState.initPlan,
      PlanState.subPlan, PlanState.lefttree, PlanState.righttree, PlanState.special,
      PlanState.tag, PlanState.info]
    split <;> simp

theorem expected_loops_fst (t : PlanState) : ∀ L, (expected_loops t L).map Prod.fst = t.nodes := by
  induction t using PlanState.induction_children with
  | h n ih =>
    intro L
    rw [expected_loops_eq, PlanState.nodes_eq, List.map_cons, List.map_flatMap,
      ← child_loops_fst n L, List.flatMap_map]
    congr 1
    apply List.flatMap_congr
    intro p hp
    exact ih p.1 (by rw [← child_loops_fst n L]; exact List.mem_map_of_mem _ hp) p.2

theorem children_loop_fold (n : PlanState) (C : List PlanState)
    (hC : ∀ ch ∈ C, ch.addr ≠ n.addr) : ∀ s1 : Instrs,
    C.foldl (fun acc child => acc.modify child
        (fun i => { i with loops_estimated := (PROGRESS_INSTR acc n).loops_estimated })) s1 =
      fun a => if a ∈ C.map PlanState.addr
        then { s1 a with loops_estimated := (s1 n.addr).loops_estimated } else s1 a := by
  induction C with
  | nil => intro s1; simp
  | cons ch C ih =>
    intro s1
    have hne : n.addr ≠ ch.addr := fun e => hC ch (List.mem_cons_self _ _) e.symm
    rw [List.foldl_cons, ih (fun x hx => hC x (List.mem_cons_of_mem _ hx))]
    funext a
    simp only [PROGRESS_INSTR, Instrs.modify_apply, hne, if_false, List.map_cons, List.mem_cons]
    by_cases h1 : a = ch.addr <;> by_cases h2 : a ∈ C.map PlanState.addr <;> simp [h1, h2]

theorem inner_addr_ne {n i : PlanState} (hD : Distinct n) (hi : n.righttree = some i) :
    ∀ c ∈ n.initPlan ++ n.subPlan ++ n.lefttree.toList ++ extraChildren n.tag n.special,
      c.addr ≠ i.addr := by
  have hnd := hD.children_nodup
  have hch : n.children = (n.initPlan ++ n.subPlan ++ n.lefttree.toList) ++ i ::
      extraChildren n.tag n.special := by
    simp [PlanState.children, hi]
  rw [hch, List.flatMap_append, List.flatMap_cons, List.nodup_append] at hnd
  obtain ⟨_, h2, h3⟩ := hnd
  rw [List.nodup_append] at h2
  have hii : i.addr ∈ i.addrs := PlanState.addr_mem_addrs i.self_mem_nodes
  intro c hc e
  rw [List.mem_append] at hc
  rcases hc with hc | hc
  · exact h3 (List.mem_flatMap.mpr ⟨c, hc, PlanState.addr_mem_addrs c.self_mem_nodes⟩)
      (List.mem_append_left _ (e ▸ hii))
  · exact h2.2.2 (e ▸ hii)
      (List.mem_flatMap.mpr ⟨c, hc, PlanState.addr_mem_addrs c.self_mem_nodes⟩)

/-- The heap after one visit of `planner_estimates_walker`. -/
theorem planner_visit_spec {n : PlanState} (hD : Distinct n) (hs : slotsOK n) (s : Instrs) :
    planner_estimates_walker n n.children s n.addr =
      { s n.addr with tup_estimated := n.plan_rows * (s n.addr).loops_estimated } ∧
    (∀ p ∈ child_loops n (s n.addr).loops_estimated,
      (planner_estimates_walker n n.children s p.1.addr).loops_estimated = p.2) ∧
    (∀ a, a ≠ n.addr → a ∉ n.children.map PlanState.addr →
      planner_estimates_walker n n.children s a = s a) := by
  have hC : ∀ ch ∈ n.children, ch.addr ≠ n.addr :=
    fun ch hch => hD.not_self ch (List.mem_flatMap.mpr ⟨ch, hch, ch.self_mem_nodes⟩)
  have hnC : n.addr ∉ n.children.map PlanState.addr := by
    intro h
    obtain ⟨ch, hch, e⟩ := List.mem_map.mp h
    exact hC ch hch e
  have hmem : ∀ p ∈ child_loops n (s n.addr).loops_estimated,
      p.1.addr ∈ n.children.map PlanState.addr := by
    intro p hp
    rw [← child_loops_fst n (s n.addr).loops_estimated]
    exact List.mem_map_of_mem _ (List.mem_map_of_mem _ hp)
  -- the cases of a pair of `child_loops`
  have hpairs : ∀ p ∈ child_loops n (s n.addr).loops_estimated,
      (p.1 ∈ n.initPlan ++ n.subPlan ++ n.lefttree.toList ++ extraChildren n.tag n.special ∧
        p.2 = (s n.addr).loops_estimated) ∨
      (n.righttree = some p.1 ∧ p.2 = inner_loops n.tag n.lefttree (s n.addr).loops_estimated) := by
    intro p hp
    unfold child_loops at hp
    rcases List.mem_append.mp hp with hp | hp
    · rcases List.mem_append.mp hp with hp | hp
      · obtain ⟨c, hc, rfl⟩ := List.mem_map.mp hp
        exact Or.inl ⟨List.mem_append_left _ hc, rfl⟩
      · obtain ⟨c, hc, rfl⟩ := List.mem_map.mp hp
        exact Or.inr ⟨by simpa [Option.mem_toList] using hc, rfl⟩
    · obtain ⟨c, hc, rfl⟩ := List.mem_map.mp hp
      exact Or.inl ⟨List.mem_append_right _ hc, rfl⟩
  -- the heap after the loop over the children
  have hloop : ∀ a, (if a ∈ n.children.map PlanState.addr
        then { (s.modify n (fun i =>
            { i with tup_estimated := n.plan_rows * i.loops_estimated })) a with
          loops_estimated := ((s.modify n (fun i =>
            { i with tup_estimated := n.plan_rows * i.loops_estimated })) n.addr).loops_estimated }
        else (s.modify n (fun i =>
            { i with tup_estimated := n.plan_rows * i.loops_estimated })) a) =
      if a ∈ n.children.map PlanState.addr
        then { s a with loops_estimated := (s n.addr).loops_estimated }
        else if a = n.addr
          then { s a with tup_estimated := n.plan_rows * (s a).loops_estimated }
          else s a := by
    intro a
    by_cases h1 : a ∈ n.children.map PlanState.addr
    · have h2 : a ≠ n.addr := fun e => hnC (e ▸ h1)
      simp only [h1, if_true, Instrs.modify_apply, h2, if_false]
    · simp only [h1, if_false, Instrs.modify_apply]
  unfold planner_estimates_walker
  simp only [children_loop_fold n n.children hC]
  by_cases ht : n.tag = .NestLoop
  · obtain ⟨h1, h2⟩ := hs.1 (Or.inl ht)
    obtain ⟨o, ho⟩ := Option.isSome_iff_exists.mp h1
    obtain ⟨i, hi⟩ := Option.isSome_iff_exists.mp h2
    have hin : i.addr ≠ n.addr := hC i (righttree_mem_children hi)
    have hiC : i.addr ∈ n.children.map PlanState.addr :=
      List.mem_map_of_mem _ (righttree_mem_children hi)
    simp only [ht, if_true, ho, hi]
    refine ⟨?_, fun p hp => ?_, fun a ha haC => ?_⟩
    · rw [modify_other _ _ _ hin.symm, hloop, if_neg hnC, if_pos rfl]
    · rcases hpairs p hp with ⟨hc, hp2⟩ | ⟨hc, hp2⟩
      · have hci : p.1.addr ≠ i.addr := inner_addr_ne hD hi p.1 hc
        rw [modify_other _ _ _ hci, hloop, if_pos (hmem p hp), hp2]
      · rw [hi] at hc
        cases hc
        rw [hp2, Instrs.modify_apply, if_pos rfl, hloop, if_pos hiC]
        simp only [inner_loops, ht, if_true, ho]
    · have hai : a ≠ i.addr := fun e => haC (e ▸ hiC)
      rw [modify_other _ _ _ hai, hloop, if_neg haC, if_neg ha]
  · simp only [ht, if_false]
    refine ⟨?_, fun p hp => ?_, fun a ha haC => ?_⟩
    · rw [hloop, if_neg hnC, if_pos rfl]
    · rw [hloop, if_pos (hmem p hp)]
      rcases hpairs p hp with ⟨_, hp2⟩ | ⟨_, hp2⟩
      · rw [hp2]
      · rw [hp2]; simp only [inner_loops, ht, if_false]
    · rw [hloop, if_neg haC, if_neg ha]

theorem expected_loops_addr_mem {t : PlanState} {L : Dbl} {q : PlanState × Dbl}
    (hq : q ∈ expected_loops t L) : q.1.addr ∈ t.addrs := by
  apply PlanState.addr_mem_addrs
  rw [← expected_loops_fst t L]
  exact List.mem_map_of_mem _ hq

/-- Sibling subtrees walked one after the other by the pre-order pass. -/
theorem planner_seq_spec (Ps : List (PlanState × Dbl))
    (ih : ∀ p ∈ Ps, ∀ (s : Instrs), (s p.1.addr).loops_estimated = p.2 →
      (∀ q ∈ expected_loops p.1 p.2,
        LoopsAgree (plan_state_walker_common planner_estimates_walker false p.1 s) q) ∧
      ∀ a, a ∉ p.1.addrs →
        plan_state_walker_common planner_estimates_walker false p.1 s a = s a) :
    ((Ps.map Prod.fst).flatMap PlanState.addrs).Nodup → ∀ s : Instrs,
      (∀ p ∈ Ps, (s p.1.addr).loops_estimated = p.2) →
      (∀ p ∈ Ps, ∀ q ∈ expected_loops p.1 p.2,
        LoopsAgree ((Ps.map Prod.fst).foldl (fun c ch =>
          plan_state_walker_common planner_estimates_walker false ch c) s) q) ∧
      ∀ a, a ∉ (Ps.map Prod.fst).flatMap PlanState.addrs →
        (Ps.map Prod.fst).foldl (fun c ch =>
          plan_state_walker_common planner_estimates_walker false ch c) s a = s a := by
  induction Ps with
  | nil => intro _ s _; exact ⟨fun p hp => by simp at hp, fun _ _ => rfl⟩
  | cons p Ps ihP =>
    intro hnd s hs
    rw [List.map_cons, List.flatMap_cons, List.nodup_append] at hnd
    obtain ⟨_, hndP, hdisj⟩ := hnd
    obtain ⟨h1, hf1⟩ := ih p (List.mem_cons_self _ _) s (hs p (List.mem_cons_self _ _))
    have hs1 : ∀ p' ∈ Ps,
        (plan_state_walker_common planner_estimates_walker false p.1 s p'.1.addr).loops_estimated
          = p'.2 := by
      intro p' hp'
      rw [hf1 _ (fun h => hdisj h (List.mem_flatMap.mpr
        ⟨p'.1, List.mem_map_of_mem _ hp', PlanState.addr_mem_addrs p'.1.self_mem_nodes⟩))]
      exact hs p' (List.mem_cons_of_mem _ hp')
    obtain ⟨h2, hf2⟩ := ihP (fun x hx => ih x (List.mem_cons_of_mem _ hx)) hndP _ hs1
    simp only [List.map_cons, List.foldl_cons]
    refine ⟨fun p' hp' q hq => ?_, fun a ha => ?_⟩
    · rcases List.mem_cons.mp hp' with rfl | hp'
      · have hqa := expected_loops_addr_mem hq
        have := h1 q hq
        unfold LoopsAgree at this ⊢
        rw [hf2 _ (fun h => hdisj hqa h)]
        exact this
      · exact h2 p' hp' q hq
    · rw [List.flatMap_cons, List.mem_append, not_or] at ha
      rw [hf2 a ha.2, hf1 a ha.1]

/-- The pre-order pass on a well-formed subtree whose root has loop multiplier
`L`: every node gets the multiplier `expected_loops` assigns to it, and its
estimated total output is its planner row estimate times that multiplier. -/
theorem planner_spec (t : PlanState) : Distinct t → (∀ n ∈ t.nodes, slotsOK n) →
    ∀ (s : Instrs), 
      (∀ q ∈ expected_loops t (s t.addr).loops_estimated,
        LoopsAgree (plan_state_walker_common planner_estimates_walker false t s) q) ∧
      ∀ a, a ∉ t.addrs →
        plan_state_walker_common planner_estimates_walker false t s a = s a := by
  induction t using PlanState.induction_children with
  | h n ih =>
    intro hD hs s
    rw [plan_state_walker_common_eq]
    simp only [Bool.false_eq_true, if_false]
    obtain ⟨hv1, hv2, hv3⟩ := planner_visit_spec hD (hs n n.self_mem_nodes) s
    have hfst := child_loops_fst n (s n.addr).loops_estimated
    have hnd : (((child_loops n (s n.addr).loops_estimated).map Prod.fst).flatMap
        PlanState.addrs).Nodup := by rw [hfst]; exact hD.children_nodup
    have hih : ∀ p ∈ child_loops n (s n.addr).loops_estimated, ∀ (s' : Instrs),
        (s' p.1.addr).loops_estimated = p.2 →
        (∀ q ∈ expected_loops p.1 p.2,
          LoopsAgree (plan_state_walker_common planner_estimates_walker false p.1 s') q) ∧
        ∀ a, a ∉ p.1.addrs →
          plan_state_walker_common planner_estimates_walker false p.1 s' a = s' a := by
      intro p hp s' hs'
      have hpc : p.1 ∈ n.children := by rw [← hfst]; exact List.mem_map_of_mem _ hp
      have := ih p.1 hpc (hD.child hpc)
        (fun m hm => hs m (PlanState.child_nodes_subset hpc hm)) s'
      rw [hs'] at this
      exact this
    obtain ⟨h1, hf⟩ := planner_seq_spec _ hih hnd
      (planner_estimates_walker n n.children s) hv2
    rw [hfst] at h1 hf
    have hnC : n.addr ∉ n.children.flatMap PlanState.addrs := by
      intro h
      obtain ⟨x, hx, hm⟩ := List.mem_flatMap.mp h
      obtain ⟨m, hm, e⟩ := PlanState.mem_addrs.mp hm
      exact hD.not_self m (List.mem_flatMap.mpr ⟨x, hx, hm⟩) e
    refine ⟨fun q hq => ?_, fun a ha => ?_⟩
    · rw [expected_loops_eq, List.mem_cons, List.mem_flatMap] at hq
      rcases hq with rfl | ⟨p, hp, hq⟩
      · unfold LoopsAgree
        simp only
        rw [hf _ hnC, hv1]
        exact ⟨rfl, rfl⟩
      · exact h1 p hp q hq
    · rw [PlanState.addrs_eq, List.mem_cons, not_or] at ha
      rw [hf a ha.2]
      apply hv3 a ha.1
      intro h
      apply ha.2
      obtain ⟨x, hx, e⟩ := List.mem_map.mp h
      exact List.mem_flatMap.mpr ⟨x, hx, e ▸ PlanState.addr_mem_addrs x.self_mem_nodes⟩

/-- C7: for every well-formed plan tree, after `find_planner_estimates` the
loop multiplier of the root is 1.0, and every node `n` has the multiplier that
`expected_loops` computes for it (the product, from the root down, of the
planner row estimates of the outer children of the nested loops in whose inner
subtree `n` lies) and `tup_estimated = plan_rows * loops_estimated`. -/
theorem C7_planner_estimates (t : PlanState) (hwf : WellFormed t) (s : Instrs) :
    (find_planner_estimates t s t.addr).loops_estimated = Dbl.fin 1 ∧
    (expected_loops t (Dbl.fin 1)).map Prod.fst = t.nodes ∧
    ∀ q ∈ expected_loops t (Dbl.fin 1),
      (find_planner_estimates t s q.1.addr).loops_estimated = q.2 ∧
      (find_planner_estimates t s q.1.addr).tup_estimated = q.1.plan_rows * q.2 := by
  have h := planner_spec t hwf.1 hwf.2
    (s.modify t (fun i => { i with loops_estimated := Dbl.fin 1 }))
  have hroot : ((s.modify t (fun i => { i with loops_estimated := Dbl.fin 1 })) t.addr
      ).loops_estimated = Dbl.fin 1 := by
    simp [Instrs.modify_apply]
  rw [hroot] at h
  have hmain : ∀ q ∈ expected_loops t (Dbl.fin 1),
      (find_planner_estimates t s q.1.addr).loops_estimated = q.2 ∧
      (find_planner_estimates t s q.1.addr).tup_estimated = q.1.plan_rows * q.2 :=
    fun q hq => h.1 q hq
  refine ⟨?_, expected_loops_fst t _, hmain⟩
  have : (t, Dbl.fin 1) ∈ expected_loops t (Dbl.fin 1) := by
    rw [expected_loops_eq]; exact List.mem_cons_self _ _
  exact (hmain _ this).1

theorem C7_planner_estimates_witness :
    WellFormed exNestedLoops ∧
    (find_planner_estimates exNestedLoops heap_init
      (mkLeaf 4 .IndexScan 20).addr).loops_estimated = Dbl.fin 10 * Dbl.fin 3 := by
  refine ⟨by decide, ?_⟩
  have h := (C7_planner_estimates exNestedLoops (by decide) heap_init).2.2
    (mkLeaf 4 .IndexScan 20, Dbl.fin 1 * Dbl.fin 10 * Dbl.fin 3) (by
      simp [exNestedLoops, mkBinary, mkLeaf, expected_loops, expected_loops_list,
        expected_loops_opt, inner_loops, hasSpecial, PlanState.plan_rows, PlanState.info])
  rw [h.1]
  with_unfolding_all decide

/-! ## Claims about the progress estimate -/

theorem pipeline_to_process_isSome (s : Instrs) (pd : PipelineData)
    (h : pd.driver_nodes ≠ []) : ∃ v, pipeline_to_process s pd = some v := by
  unfold pipeline_to_process
  have : pd.driver_nodes.isEmpty = false := by
    cases hd : pd.driver_nodes with
    | nil => exact absurd hd h
    | cons _ _ => rfl
  simp only [this, Bool.false_eq_true, if_false]
  split
  · exact ⟨_, rfl⟩
  · split
    · exact ⟨_, rfl⟩
    · exact ⟨_, rfl⟩

theorem estimate_fold (s : Instrs) (pdata : Nat → PipelineData) (f : Nat → Dbl)
    (L : List Nat) (hf : ∀ i ∈ L, pipeline_to_process s (pdata i) = some (f i)) :
    ∀ acc : Dbl × Dbl, L.foldlM (estimate_step s pdata) acc =
      some (L.foldl (fun a i => a + (pdata i).tup_processed) acc.1,
        L.foldl (fun a i => a + f i) acc.2) := by
  induction L with
  | nil => intro acc; rfl
  | cons i L ih =>
    intro acc
    rw [List.foldlM_cons]
    have h1 : estimate_step s pdata acc i =
        some (acc.1 + (pdata i).tup_processed, acc.2 + f i) := by
      unfold estimate_step
      rw [hf i (List.mem_cons_self _ _)]
    rw [h1]
    simp only [Option.bind_eq_bind, Option.some_bind, List.foldl_cons]
    exact ih (fun j hj => hf j (List.mem_cons_of_mem _ hj)) _

theorem Dbl.sum_map {α : Type} (L : List α) (g : α → Dbl) :
    Dbl.sum (L.map g) = L.foldl (fun a i => a + g i) (Dbl.fin 0) := by
  unfold Dbl.sum
  rw [List.foldl_map]

/-- C8: when every pipeline of the array has a non-empty driver list,
`estimate_progress` succeeds and returns the sum of the accumulated actual
outputs divided by the sum of the values of `pipeline_to_process`, and 0.0 when
that second sum is zero. -/
theorem C8_estimate_progress_ratio (s : Instrs) (pdata : Nat → PipelineData)
    (no_pipelines : Nat) (h : ∀ i, i < no_pipelines → (pdata i).driver_nodes ≠ []) :
    ∃ to_process : Nat → Dbl,
      (∀ i, i < no_pipelines → pipeline_to_process s (pdata i) = some (to_process i)) ∧
      estimate_progress s pdata no_pipelines = some
        (if Dbl.eq (Dbl.sum ((List.range no_pipelines).map to_process)) (Dbl.fin 0)
          then Dbl.fin 0
          else Dbl.sum ((List.range no_pipelines).map (fun i => (pdata i).tup_processed)) /
            Dbl.sum ((List.range no_pipelines).map to_process)) := by
  refine ⟨fun i => (pipeline_to_process s (pdata i)).getD (Dbl.fin 0), fun i hi => ?_, ?_⟩
  · obtain ⟨v, hv⟩ := pipeline_to_process_isSome s (pdata i) (h i hi)
    simp only [hv, Option.getD_some]
  · have hf : ∀ i ∈ List.range no_pipelines, pipeline_to_process s (pdata i) =
        some ((pipeline_to_process s (pdata i)).getD (Dbl.fin 0)) := by
      intro i hi
      obtain ⟨v, hv⟩ := pipeline_to_process_isSome s (pdata i) (h i (List.mem_range.mp hi))
      simp only [hv, Option.getD_some]
    unfold estimate_progress
    rw [estimate_fold s pdata _ _ hf]
    simp only [Dbl.sum_map]
    split <;> rfl

theorem C8_estimate_progress_ratio_witness :
    (∀ i, i < 2 → (exTwoPipelines i).driver_nodes ≠ []) ∧
    estimate_progress (heap_est (fun a => if a = 0 then 100 else 50) (fun a => a == 0))
      exTwoPipelines 2 = some (Dbl.fin (100 / (100 + 50))) := by
  have hne : ∀ i, i < 2 → (exTwoPipelines i).driver_nodes ≠ [] := by
    intro i _
    unfold exTwoPipelines
    split <;> simp
  refine ⟨hne, ?_⟩
  obtain ⟨f, hf, h⟩ := C8_estimate_progress_ratio
    (heap_est (fun a => if a = 0 then 100 else 50) (fun a => a == 0)) exTwoPipelines 2 hne
  have h0 : f 0 = Dbl.fin 100 :=
    Option.some.inj ((hf 0 (by decide)).symm.trans (by with_unfolding_all decide))
  have h1 : f 1 = Dbl.fin 50 :=
    Option.some.inj ((hf 1 (by decide)).symm.trans (by with_unfolding_all decide))
  rw [h]
  have hr : List.range 2 = [0, 1] := rfl
  simp only [hr, List.map_cons, List.map_nil, h0, h1]
  with_unfolding_all decide

/-- C9: on a pipeline whose drivers have estimates 0 and 5 and 10 tuples each,
`pipeline_to_process` returns `20 * (5 / 10) = 10` instead of
`20 * min(0, 5) / 10 = 0`, and returns 0 when the driver list is reversed: the
loop of `dne_estimator` takes an accumulated estimate of 0.0 for "not yet set"
and overwrites it. -/
theorem C9_zero_estimate_is_skipped :
    pipeline_to_process (heap_est (fun a => if a = 0 then 0 else 5) (fun _ => false))
      exZeroEstimate = some (Dbl.fin 10) ∧
    pipeline_to_process (heap_est (fun a => if a = 0 then 0 else 5) (fun _ => false))
      exZeroEstimateRev = some (Dbl.fin 0) := by
  constructor <;> with_unfolding_all decide

/-- C10, as stated, fails: the pipeline `exIdleDriver` is not finished, its
accumulated actual output is 5, the average actual output of its drivers is
zero, and `pipeline_to_process` returns `+inf`, not the accumulated estimate 10. -/
theorem C10_counterexample :
    (∃ d ∈ exIdleDriver.driver_nodes,
      (PROGRESS_INSTR (heap_est (fun _ => 10) (fun _ => false)) d).finished = false) ∧
    Dbl.eq exIdleDriver.tup_processed (Dbl.fin 0) = false ∧
    (∀ d ∈ exIdleDriver.driver_nodes, node_tup_processed d = Dbl.fin 0) ∧
    pipeline_to_process (heap_est (fun _ => 10) (fun _ => false)) exIdleDriver
      = some Dbl.pinf ∧
    pipeline_to_process (heap_est (fun _ => 10) (fun _ => false)) exIdleDriver
      ≠ some exIdleDriver.tup_estimated := by
  refine ⟨⟨mkCounted 0 .SeqScan 10 0, by simp [exIdleDriver], rfl⟩,
    by with_unfolding_all decide, ?_, by with_unfolding_all decide,
    by with_unfolding_all decide⟩
  intro d hd
  simp only [exIdleDriver, List.mem_singleton] at hd
  subst hd
  with_unfolding_all decide

theorem Dbl.fin_add_fin (a b : ℚ) : Dbl.fin a + Dbl.fin b = Dbl.fin (a + b) := rfl

theorem Dbl.div_zero_not_fin (x : Dbl) : ∀ q, x / Dbl.fin 0 ≠ Dbl.fin q := by
  intro q
  cases x with
  | fin a =>
    show Dbl.div (Dbl.fin a) (Dbl.fin 0) ≠ _
    simp only [Dbl.div, if_true]
    split
    · simp
    · split <;> simp
  | pinf => show Dbl.div Dbl.pinf (Dbl.fin 0) ≠ _; simp [Dbl.div]
  | ninf => show Dbl.div Dbl.ninf (Dbl.fin 0) ≠ _; simp [Dbl.div]
  | nan => show Dbl.div Dbl.nan (Dbl.fin 0) ≠ _; simp [Dbl.div]

theorem Dbl.mul_not_fin {a : ℚ} (ha : a ≠ 0) {y : Dbl} (hy : ∀ q, y ≠ Dbl.fin q) :
    ∀ q, Dbl.fin a * y ≠ Dbl.fin q := by
  intro q
  cases y with
  | fin b => exact absurd rfl (hy b)
  | pinf =>
    show Dbl.mul (Dbl.fin a) Dbl.pinf ≠ _
    simp only [Dbl.mul, Dbl.mulInf, ha, if_false, Dbl.inf]
    split <;> simp
  | ninf =>
    show Dbl.mul (Dbl.fin a) Dbl.ninf ≠ _
    simp only [Dbl.mul, Dbl.mulInf, ha, if_false, Dbl.inf]
    split <;> simp
  | nan => show Dbl.mul (Dbl.fin a) Dbl.nan ≠ _; simp [Dbl.mul]

theorem finished_fold (s : Instrs) (L : List PlanState) : ∀ b : Bool,
    L.foldl (fun fin node => if (PROGRESS_INSTR s node).finished then fin else false) b =
      (b && L.all (fun node => (PROGRESS_INSTR s node).finished)) := by
  induction L with
  | nil => intro b; simp
  | cons x L ih =>
    intro b
    rw [List.foldl_cons, ih]
    cases h : (PROGRESS_INSTR s x).finished <;> simp [h]

theorem dne_fold_processed_zero (s : Instrs) (L : List PlanState)
    (hz : ∀ d ∈ L, node_tup_processed d = Dbl.fin 0) : ∀ acc : Dbl × Dbl,
    acc.2 = Dbl.fin 0 → (L.foldl (dne_step s) acc).2 = Dbl.fin 0 := by
  induction L with
  | nil => intro acc h; exact h
  | cons x L ih =>
    intro acc h
    rw [List.foldl_cons]
    apply ih (fun d hd => hz d (List.mem_cons_of_mem _ hd))
    simp only [dne_step, h, hz x (List.mem_cons_self _ _), Dbl.fin_add_fin, add_zero]

/-- C10, amended: for a pipeline that is not fully finished, whose accumulated
actual output is a non-zero number and whose drivers have all produced nothing,
`pipeline_to_process` signals no error and does not fall back to the
accumulated estimate: it returns the product of the accumulated actual output
with a quotient by zero, which is an infinity or NaN and never a finite number. -/
theorem C10_zero_denominator_gives_no_fallback (s : Instrs) (pd : PipelineData) (a : ℚ)
    (ha : a ≠ 0) (hp : pd.tup_processed = Dbl.fin a) (hne : pd.driver_nodes ≠ [])
    (hunf : ∃ d ∈ pd.driver_nodes, (PROGRESS_INSTR s d).finished = false)
    (hz : ∀ d ∈ pd.driver_nodes, node_tup_processed d = Dbl.fin 0) :
    ∃ r, pipeline_to_process s pd = some r ∧ ∀ q, r ≠ Dbl.fin q := by
  have hemp : pd.driver_nodes.isEmpty = false := by
    cases hd : pd.driver_nodes with
    | nil => exact absurd hd hne
    | cons _ _ => rfl
  have hfin : pd.driver_nodes.foldl
      (fun fin node => if (PROGRESS_INSTR s node).finished then fin else false) true
        = false := by
    rw [finished_fold, Bool.true_and]
    obtain ⟨d, hd, hdf⟩ := hunf
    rw [List.all_eq_false]
    exact ⟨d, hd, by simp [hdf]⟩
  have hnz : Dbl.eq (Dbl.fin a) (Dbl.fin 0) = false := by simp [Dbl.eq, ha]
  have hlen : (pd.driver_nodes.length : ℚ) ≠ 0 := by
    have : pd.driver_nodes.length ≠ 0 := fun h => hne (List.length_eq_zero.mp h)
    exact_mod_cast this
  have hden : (pd.driver_nodes.foldl (dne_step s) (Dbl.fin 0, Dbl.fin 0)).2 /
      Dbl.ofNat pd.driver_nodes.length = Dbl.fin 0 := by
    rw [dne_fold_processed_zero s _ hz _ rfl]
    show Dbl.div (Dbl.fin 0) (Dbl.fin _) = _
    simp only [Dbl.div, hlen, if_false, zero_div]
  refine ⟨Dbl.fin a * dne_estimator s pd.driver_nodes, ?_, ?_⟩
  · unfold pipeline_to_process
    simp only [hemp, Bool.false_eq_true, if_false, hfin, hp, hnz]
  · apply Dbl.mul_not_fin ha
    unfold dne_estimator
    simp only [hden]
    exact Dbl.div_zero_not_fin _

theorem C10_zero_denominator_gives_no_fallback_witness :
    exIdleDriver.driver_nodes ≠ [] ∧
    ∃ r, pipeline_to_process (heap_est (fun _ => 10) (fun _ => false)) exIdleDriver = some r ∧
      ∀ q, r ≠ Dbl.fin q :=
  ⟨by simp [exIdleDriver],
    C10_zero_denominator_gives_no_fallback (heap_est (fun _ => 10) (fun _ => false))
      exIdleDriver 5 (by norm_num) rfl (by simp [exIdleDriver])
      ⟨mkCounted 0 .SeqScan 10 0, by simp [exIdleDriver], rfl⟩
      (by
        intro d hd
        simp only [exIdleDriver, List.mem_singleton] at hd
        subst hd
        with_unfolding_all decide)⟩

/-! ## Claims about the estimation pass -/

/-- C11: `node_tup_processed` returns the instrumentation counters
`ntuples + tuplecount` for every node, a hash node included: on a hash node
whose table holds 7 tuples and whose counters are zero it returns 0, while
`processed_Hash` returns 7.  The `T_HashState` case lacks its `break`. -/
theorem C11_hash_count_is_overwritten :
    (∀ node : PlanState, node_tup_processed node = node.info.ntuples + node.info.tuplecount) ∧
    exHashNode.tag = .Hash ∧ processed_Hash exHashNode = Dbl.fin 7 ∧
    node_tup_processed exHashNode = Dbl.fin 0 :=
  ⟨fun _ => rfl, rfl, rfl, by with_unfolding_all decide⟩

/-- The array after `estimator_walker` has visited the nodes of a list. -/
theorem estimator_fold (s : Instrs) (L : List PlanState) :
    ∀ (P0 : Nat → PipelineData) (p : Nat),
      ((L.foldl (fun c m => estimator_walker s m m.children c) P0) p).tup_processed =
        (L.filter (fun n => decide (pidOf s n = p))).foldl
          (fun a n => a + node_tup_processed n) (P0 p).tup_processed ∧
      ((L.foldl (fun c m => estimator_walker s m m.children c) P0) p).tup_estimated =
        (L.filter (fun n => decide (pidOf s n = p))).foldl
          (fun a n => a + Dbl.Max (node_tup_processed n) (PROGRESS_INSTR s n).tup_estimated)
          (P0 p).tup_estimated ∧
      ((L.foldl (fun c m => estimator_walker s m m.children c) P0) p).driver_nodes =
        (P0 p).driver_nodes ++
          L.filter (fun n => decide (pidOf s n = p) && drvOf s n) := by
  induction L with
  | nil => intro P0 p; simp
  | cons m L ih =>
    intro P0 p
    rw [List.foldl_cons]
    obtain ⟨h1, h2, h3⟩ := ih (estimator_walker s m m.children P0) p
    rw [h1, h2, h3]
    by_cases hp : pidOf s m = p
    · have hp' : p = (PROGRESS_INSTR s m).pipeline_id := hp.symm
      simp only [List.filter_cons, hp, decide_True, if_true, List.foldl_cons, Bool.true_and]
      simp only [estimator_walker, hp', if_true]
      cases hd : drvOf s m
      · have hd' : (PROGRESS_INSTR s m).is_driver = false := hd
        simp [hd']
      · have hd' : (PROGRESS_INSTR s m).is_driver = true := hd
        simp [hd']
    · have hp' : ¬ p = (PROGRESS_INSTR s m).pipeline_id := fun e => hp e.symm
      simp only [List.filter_cons, hp, decide_False, if_false, Bool.false_and,
        Bool.false_eq_true]
      simp only [estimator_walker, hp', if_false]
      exact ⟨trivial, trivial, trivial⟩

theorem Dbl.foldl_fin {α : Type} (L : List α) (g : α → Dbl) (g' : α → ℚ)
    (h : ∀ n ∈ L, g n = Dbl.fin (g' n)) :
    ∀ x0 : ℚ, L.foldl (fun a n => a + g n) (Dbl.fin x0) = Dbl.fin (x0 + (L.map g').sum) := by
  induction L with
  | nil => intro x0; simp
  | cons n L ih =>
    intro x0
    rw [List.foldl_cons, h n (List.mem_cons_self _ _), Dbl.fin_add_fin,
      ih (fun m hm => h m (List.mem_cons_of_mem _ hm))]
    simp [add_assoc]

theorem Dbl.Max_fin (a e : ℚ) : Dbl.Max (Dbl.fin a) (Dbl.fin e) = Dbl.fin (max a e) := by
  unfold Dbl.Max Dbl.lt
  by_cases h : e < a
  · simp [h, max_eq_left (le_of_lt h)]
  · simp [h, max_eq_right (not_lt.mp h)]

/-- The entry of a pipeline in the array that `calculate_progress` collects. -/
theorem collect_pdata_eq (t : PlanState) (s : Instrs) (k : Nat) (beyond : Nat → PipelineData)
    (p : Nat) (hp : p < k) :
    (collect_pdata s t k beyond p).tup_processed =
      Dbl.sum ((t.postorder.filter (fun n => decide (pidOf s n = p))).map
        node_tup_processed) ∧
    (collect_pdata s t k beyond p).tup_estimated =
      Dbl.sum ((t.postorder.filter (fun n => decide (pidOf s n = p))).map
        (fun n => Dbl.Max (node_tup_processed n) (PROGRESS_INSTR s n).tup_estimated)) ∧
    (collect_pdata s t k beyond p).driver_nodes =
      t.postorder.filter (fun n => decide (pidOf s n = p) && drvOf s n) := by
  unfold collect_pdata
  rw [plan_state_walker_eq_foldl]
  obtain ⟨h1, h2, h3⟩ := estimator_fold s t.postorder (pdata_alloc k beyond) p
  have h0 : pdata_alloc k beyond p = pdata_zero := by simp [pdata_alloc, hp]
  rw [h0] at h1 h2 h3
  refine ⟨?_, ?_, ?_⟩
  · rw [h1, Dbl.sum_map]; rfl
  · rw [h2, Dbl.sum_map]; rfl
  · rw [h3]; simp [pdata_zero]

/-- C20: for every partitioned plan tree and every pipeline id `p`, after the
walk with `estimator_walker` over the zero-initialised array the entry `p` holds
the sum of the actual output of the nodes of pipeline `p`, the sum of their
`Max(actual output, tup_estimated)`, and as driver list exactly the nodes of
pipeline `p` flagged as driver, each once; when the counters and estimates are
numbers, the accumulated estimate is at least the accumulated actual output. -/
theorem C20_pipeline_totals (t : PlanState) (s : Instrs) (k : Nat)
    (hpart : Partitioned t s k) (beyond : Nat → PipelineData) (p : Nat) (hp : p < k) :
    (collect_pdata s t k beyond p).tup_processed =
      Dbl.sum ((t.postorder.filter (fun n => decide (pidOf s n = p))).map
        node_tup_processed) ∧
    (collect_pdata s t k beyond p).tup_estimated =
      Dbl.sum ((t.postorder.filter (fun n => decide (pidOf s n = p))).map
        (fun n => Dbl.Max (node_tup_processed n) (PROGRESS_INSTR s n).tup_estimated)) ∧
    (∀ n, n ∈ (collect_pdata s t k beyond p).driver_nodes ↔
      (Reachable t n ∧ pidOf s n = p ∧ drvOf s n = true)) ∧
    ((collect_pdata s t k beyond p).driver_nodes.map PlanState.addr).Nodup ∧
    ((∀ n ∈ t.nodes, ∃ a e, node_tup_processed n = Dbl.fin a ∧
        (PROGRESS_INSTR s n).tup_estimated = Dbl.fin e) →
      ∃ x y, (collect_pdata s t k beyond p).tup_processed = Dbl.fin x ∧
        (collect_pdata s t k beyond p).tup_estimated = Dbl.fin y ∧ x ≤ y) := by
  obtain ⟨h1, h2, h3⟩ := collect_pdata_eq t s k beyond p hp
  have hndp : (t.postorder.map PlanState.addr).Nodup :=
    ((postorder_perm_nodes t).map _).nodup_iff.mpr hpart.1
  refine ⟨h1, h2, fun n => ?_, ?_, fun hfin => ?_⟩
  · rw [h3, List.mem_filter, mem_postorder_iff, mem_nodes_iff_reachable]
    simp
  · rw [h3]
    exact (List.filter_sublist _).map _ |>.nodup hndp
  · have hmem : ∀ n ∈ t.postorder.filter (fun n => decide (pidOf s n = p)), n ∈ t.nodes :=
      fun n hn => mem_postorder_iff.mp (List.mem_of_mem_filter hn)
    choose! fa fe hfa using hfin
    have e1 := Dbl.foldl_fin (t.postorder.filter (fun n => decide (pidOf s n = p)))
      node_tup_processed fa (fun n hn => (hfa n (hmem n hn)).1) 0
    have e2 := Dbl.foldl_fin (t.postorder.filter (fun n => decide (pidOf s n = p)))
      (fun n => Dbl.Max (node_tup_processed n) (PROGRESS_INSTR s n).tup_estimated)
      (fun n => max (fa n) (fe n))
      (fun n hn => by
        simp only [(hfa n (hmem n hn)).1, (hfa n (hmem n hn)).2, Dbl.Max_fin]) 0
    rw [← Dbl.sum_map] at e1 e2
    refine ⟨_, _, h1.trans e1, h2.trans e2, ?_⟩
    simp only [zero_add]
    apply List.sum_le_sum
    intro n _
    exact le_max_left _ _

theorem C20_pipeline_totals_witness :
    Partitioned exJoins (find_pipelines exJoins heap_init 5 (fun _ => 0)).1 3 ∧
    ((collect_pdata (find_pipelines exJoins heap_init 5 (fun _ => 0)).1 exJoins 3
      (fun _ => pdata_zero) 1).driver_nodes.map PlanState.addr).Nodup :=
  ⟨by decide,
    (C20_pipeline_totals exJoins (find_pipelines exJoins heap_init 5 (fun _ => 0)).1 3
      (by decide) (fun _ => pdata_zero) 1 (by decide)).2.2.2.1⟩

/-! ## Sums of non-negative doubles -/

theorem Dbl.NonNeg.zero : Dbl.NonNeg (Dbl.fin 0) := Or.inr ⟨0, le_refl _, rfl⟩

theorem Dbl.NonNeg.add {x y : Dbl} (hx : Dbl.NonNeg x) (hy : Dbl.NonNeg y) :
    Dbl.NonNeg (x + y) := by
  rcases hx with rfl | ⟨a, ha, rfl⟩ <;> rcases hy with rfl | ⟨b, hb, rfl⟩
  · exact Or.inl rfl
  · exact Or.inl rfl
  · exact Or.inl rfl
  · exact Or.inr ⟨a + b, add_nonneg ha hb, rfl⟩

theorem Dbl.NonNeg.add_eq_zero {x y : Dbl} (hx : Dbl.NonNeg x) (hy : Dbl.NonNeg y)
    (h : x + y = Dbl.fin 0) : x = Dbl.fin 0 ∧ y = Dbl.fin 0 := by
  rcases hx with rfl | ⟨a, ha, rfl⟩ <;> rcases hy with rfl | ⟨b, hb, rfl⟩
  · exact absurd h (by decide)
  · exact absurd (show Dbl.pinf = Dbl.fin 0 from h) (by simp)
  · exact absurd (show Dbl.pinf = Dbl.fin 0 from h) (by simp)
  · rw [Dbl.fin_add_fin] at h
    have h' : a + b = 0 := by injection h
    have ha0 : a = 0 := by linarith
    have hb0 : b = 0 := by linarith
    subst ha0; subst hb0
    exact ⟨rfl, rfl⟩

theorem Dbl.NonNeg.foldl {α : Type} (L : List α) (g : α → Dbl)
    (hg : ∀ n ∈ L, Dbl.NonNeg (g n)) :
    ∀ acc : Dbl, Dbl.NonNeg acc → Dbl.NonNeg (L.foldl (fun a n => a + g n) acc) := by
  induction L with
  | nil => intro acc h; exact h
  | cons n L ih =>
    intro acc h
    rw [List.foldl_cons]
    exact ih (fun m hm => hg m (List.mem_cons_of_mem _ hm)) _
      (h.add (hg n (List.mem_cons_self _ _)))

theorem Dbl.NonNeg.foldl_eq_zero {α : Type} (L : List α) (g : α → Dbl)
    (hg : ∀ n ∈ L, Dbl.NonNeg (g n)) :
    ∀ acc : Dbl, Dbl.NonNeg acc → L.foldl (fun a n => a + g n) acc = Dbl.fin 0 →
      acc = Dbl.fin 0 ∧ ∀ n ∈ L, g n = Dbl.fin 0 := by
  induction L with
  | nil => intro acc _ h; exact ⟨h, fun n hn => by simp at hn⟩
  | cons n L ih =>
    intro acc hacc h
    rw [List.foldl_cons] at h
    have hn := hg n (List.mem_cons_self _ _)
    obtain ⟨h1, h2⟩ := ih (fun m hm => hg m (List.mem_cons_of_mem _ hm)) _ (hacc.add hn) h
    obtain ⟨h3, h4⟩ := Dbl.NonNeg.add_eq_zero hacc hn h1
    refine ⟨h3, fun m hm => ?_⟩
    rcases List.mem_cons.mp hm with rfl | hm
    · exact h4
    · exact h2 m hm

theorem Dbl.Max_nonneg {a : ℚ} (ha : 0 ≤ a) {e : Dbl} (he : e ≠ Dbl.nan) :
    Dbl.NonNeg (Dbl.Max (Dbl.fin a) e) := by
  cases e with
  | fin b => rw [Dbl.Max_fin]; exact Or.inr ⟨_, le_max_of_le_left ha, rfl⟩
  | pinf => exact Or.inl rfl
  | ninf => exact Or.inr ⟨a, ha, rfl⟩
  | nan => exact absurd rfl he

theorem Dbl.Max_eq_zero {a : ℚ} (ha : 0 ≤ a) {e : Dbl}
    (h : Dbl.Max (Dbl.fin a) e = Dbl.fin 0) : a = 0 := by
  cases e with
  | fin b =>
    rw [Dbl.Max_fin] at h
    have h' : max a b = 0 := by injection h
    have := le_max_left a b
    linarith
  | pinf => exact absurd (show Dbl.pinf = Dbl.fin 0 from h) (by simp)
  | ninf =>
    have h' : Dbl.fin a = Dbl.fin 0 := h
    injection h'
  | nan => exact absurd (show Dbl.nan = Dbl.fin 0 from h) (by simp)

theorem collect_drivers_ne {t : PlanState} {s : Instrs} {k : Nat} (hpart : Partitioned t s k)
    (beyond : Nat → PipelineData) {p : Nat} (hp : p < k) :
    (collect_pdata s t k beyond p).driver_nodes ≠ [] := by
  obtain ⟨n, hn, hpn, hdn⟩ := hpart.2.2 p hp
  have hmem : n ∈ (collect_pdata s t k beyond p).driver_nodes := by
    rw [(collect_pdata_eq t s k beyond p hp).2.2, List.mem_filter, mem_postorder_iff]
    exact ⟨hn, by simp [hpn, hdn]⟩
  exact List.ne_nil_of_mem hmem

/-- A pipeline without actual output: `pipeline_to_process` returns the
accumulated actual or the accumulated estimated output and divides nothing. -/
theorem pipeline_to_process_zero (s : Instrs) (pd : PipelineData)
    (hne : pd.driver_nodes ≠ []) (htp : pd.tup_processed = Dbl.fin 0) :
    (pipeline_to_process s pd = some (Dbl.fin 0) ∨
      pipeline_to_process s pd = some pd.tup_estimated) ∧
    pipeline_divisors s pd = [] := by
  have hemp : pd.driver_nodes.isEmpty = false := by
    cases hd : pd.driver_nodes with
    | nil => exact absurd hd hne
    | cons _ _ => rfl
  have heq : Dbl.eq (Dbl.fin 0) (Dbl.fin 0) = true := by simp [Dbl.eq]
  unfold pipeline_to_process pipeline_divisors
  simp only [hemp, Bool.false_eq_true, if_false, htp, heq, if_true]
  constructor
  · split
    · exact Or.inl rfl
    · exact Or.inr rfl
  · split <;> rfl

theorem estimate_progress_of_totals (s : Instrs) (pdata : Nat → PipelineData) (k : Nat)
    (f : Nat → Dbl) (hf : ∀ i, i < k → pipeline_to_process s (pdata i) = some (f i)) :
    estimate_progress s pdata k = some
      (if Dbl.eq ((List.range k).foldl (fun a i => a + f i) (Dbl.fin 0)) (Dbl.fin 0)
        then Dbl.fin 0
        else (List.range k).foldl (fun a i => a + (pdata i).tup_processed) (Dbl.fin 0) /
          (List.range k).foldl (fun a i => a + f i) (Dbl.fin 0)) ∧
    estimate_divisors s pdata k =
      (List.range k).flatMap (fun i => pipeline_divisors s (pdata i)) ++
        (if Dbl.eq ((List.range k).foldl (fun a i => a + f i) (Dbl.fin 0)) (Dbl.fin 0)
          then [] else [(List.range k).foldl (fun a i => a + f i) (Dbl.fin 0)]) := by
  have h := estimate_fold s pdata f (List.range k)
    (fun i hi => hf i (List.mem_range.mp hi)) (Dbl.fin 0, Dbl.fin 0)
  unfold estimate_progress estimate_divisors
  rw [h]
  constructor
  · simp only
    split <;> rfl
  · rfl

/-- C12: for every partitioned plan tree whose estimates are not NaN, if every
node has actual output zero (in particular if the counters are non-negative
numbers and every pipeline's accumulated estimated output is zero), the global
estimate is exactly 0.0 and every division evaluated on the way has a non-zero
divisor, whatever the finished flags are. -/
theorem C12_zero_output_gives_zero (t : PlanState) (s : Instrs) (k : Nat)
    (hpart : Partitioned t s k) (beyond : Nat → PipelineData)
    (hest : ∀ n ∈ t.nodes, (PROGRESS_INSTR s n).tup_estimated ≠ Dbl.nan)
    (hzero : (∀ n ∈ t.nodes, node_tup_processed n = Dbl.fin 0) ∨
      ((∀ n ∈ t.nodes, ∃ a : ℚ, 0 ≤ a ∧ node_tup_processed n = Dbl.fin a) ∧
        ∀ p, p < k → (collect_pdata s t k beyond p).tup_estimated = Dbl.fin 0)) :
    compute_estimate s t k beyond = some (Dbl.fin 0) ∧
    ∀ d ∈ estimate_divisors s (collect_pdata s t k beyond) k, Dbl.eq d (Dbl.fin 0) = false := by
  -- every node has actual output zero
  have hz : ∀ n ∈ t.nodes, node_tup_processed n = Dbl.fin 0 := by
    rcases hzero with h | ⟨hnn, hte⟩
    · exact h
    · intro n hn
      have hp := hpart.2.1 n hn
      have h2 := (collect_pdata_eq t s k beyond (pidOf s n) hp).2.1
      rw [hte _ hp, Dbl.sum_map] at h2
      have hall := (Dbl.NonNeg.foldl_eq_zero _ _ (fun m hm => by
        obtain ⟨a, ha, e⟩ := hnn m (mem_postorder_iff.mp (List.mem_of_mem_filter hm))
        rw [e]
        exact Dbl.Max_nonneg ha (hest m (mem_postorder_iff.mp (List.mem_of_mem_filter hm))))
        (Dbl.fin 0) Dbl.NonNeg.zero h2.symm).2 n
        (List.mem_filter.mpr ⟨mem_postorder_iff.mpr hn, by simp⟩)
      obtain ⟨a, ha, e⟩ := hnn n hn
      rw [e] at hall ⊢
      rw [Dbl.Max_eq_zero ha hall]
  have hmem : ∀ p, ∀ n ∈ t.postorder.filter (fun n => decide (pidOf s n = p)), n ∈ t.nodes :=
    fun p n hn => mem_postorder_iff.mp (List.mem_of_mem_filter hn)
  have htp : ∀ p, p < k → (collect_pdata s t k beyond p).tup_processed = Dbl.fin 0 := by
    intro p hp
    rw [(collect_pdata_eq t s k beyond p hp).1, Dbl.sum_map,
      Dbl.foldl_fin _ _ (fun _ => 0) (fun n hn => hz n (hmem p n hn))]
    simp
  have hte : ∀ p, p < k → Dbl.NonNeg (collect_pdata s t k beyond p).tup_estimated := by
    intro p hp
    rw [(collect_pdata_eq t s k beyond p hp).2.1, Dbl.sum_map]
    apply Dbl.NonNeg.foldl _ _ _ _ Dbl.NonNeg.zero
    intro n hn
    rw [hz n (hmem p n hn)]
    exact Dbl.Max_nonneg (le_refl _) (hest n (hmem p n hn))
  have hto : ∀ p, p < k →
      pipeline_to_process s (collect_pdata s t k beyond p) =
        some ((pipeline_to_process s (collect_pdata s t k beyond p)).getD (Dbl.fin 0)) ∧
      Dbl.NonNeg ((pipeline_to_process s (collect_pdata s t k beyond p)).getD (Dbl.fin 0)) ∧
      pipeline_divisors s (collect_pdata s t k beyond p) = [] := by
    intro p hp
    obtain ⟨h1, h2⟩ := pipeline_to_process_zero s _ (collect_drivers_ne hpart beyond hp)
      (htp p hp)
    rcases h1 with h1 | h1
    · rw [h1]; exact ⟨rfl, Dbl.NonNeg.zero, h2⟩
    · rw [h1]; exact ⟨rfl, hte p hp, h2⟩
  obtain ⟨he, hd⟩ := estimate_progress_of_totals s (collect_pdata s t k beyond) k _
    (fun i hi => (hto i hi).1)
  have hP : (List.range k).foldl
      (fun a i => a + (collect_pdata s t k beyond i).tup_processed) (Dbl.fin 0) = Dbl.fin 0 := by
    rw [Dbl.foldl_fin _ _ (fun _ => 0) (fun i hi => htp i (List.mem_range.mp hi))]
    simp
  have hT := Dbl.NonNeg.foldl (List.range k)
    (fun i => (pipeline_to_process s (collect_pdata s t k beyond i)).getD (Dbl.fin 0))
    (fun i hi => (hto i (List.mem_range.mp hi)).2.1) (Dbl.fin 0) Dbl.NonNeg.zero
  have hdiv : (List.range k).flatMap
      (fun i => pipeline_divisors s (collect_pdata s t k beyond i)) = [] := by
    rw [List.flatMap_eq_nil_iff]
    exact fun i hi => (hto i (List.mem_range.mp hi)).2.2
  constructor
  · unfold compute_estimate
    rw [he, hP]
    rcases hT with hT | ⟨q, hq, hT⟩
    · rw [hT]; rfl
    · rw [hT]
      by_cases hq0 : q = 0
      · subst hq0; rfl
      · have : Dbl.eq (Dbl.fin q) (Dbl.fin 0) = false := by simp [Dbl.eq, hq0]
        rw [this]
        show some (Dbl.div (Dbl.fin 0) (Dbl.fin q)) = _
        simp [Dbl.div, hq0]
  · intro d hd'
    rw [hd, hdiv, List.nil_append] at hd'
    split at hd'
    · simp at hd'
    · rename_i hne
      rw [List.mem_singleton] at hd'
      rw [hd']
      simpa using hne

theorem C12_zero_output_gives_zero_witness :
    Partitioned exJoins (find_pipelines exJoins heap_init 5 (fun _ => 0)).1 3 ∧
    (∀ n ∈ exJoins.nodes, node_tup_processed n = Dbl.fin 0) ∧
    compute_estimate (find_pipelines exJoins heap_init 5 (fun _ => 0)).1 exJoins 3
      (fun _ => pdata_zero) = some (Dbl.fin 0) :=
  ⟨by decide, by with_unfolding_all decide,
    (C12_zero_output_gives_zero exJoins (find_pipelines exJoins heap_init 5 (fun _ => 0)).1 3
      (by decide) (fun _ => pdata_zero) (by decide)
      (Or.inl (by with_unfolding_all decide))).1⟩

theorem Dbl.NonNegOrNaN.add_closed {x y : Dbl} (hx : Dbl.NonNegOrNaN x) (hy : Dbl.NonNegOrNaN y) :
    Dbl.NonNegOrNaN (x + y) := by
  rcases hx with rfl | hx
  · left; cases y <;> rfl
  · rcases hy with rfl | hy
    · left; cases x <;> rfl
    · exact Or.inr (hx.add hy)

theorem Dbl.NonNegOrNaN.foldl_closed {α : Type} (L : List α) (g : α → Dbl)
    (hg : ∀ n ∈ L, Dbl.NonNegOrNaN (g n)) :
    ∀ acc : Dbl, Dbl.NonNegOrNaN acc → Dbl.NonNegOrNaN (L.foldl (fun a n => a + g n) acc) := by
  induction L with
  | nil => intro acc h; exact h
  | cons n L ih =>
    intro acc h
    rw [List.foldl_cons]
    exact ih (fun m hm => hg m (List.mem_cons_of_mem _ hm)) _
      (h.add_closed (hg n (List.mem_cons_self _ _)))

/-- The loop of `dne_estimator` over drivers whose counters and estimates are
non-negative numbers ends with two non-negative numbers. -/
theorem dne_fold_nonneg (s : Instrs) (L : List PlanState)
    (h : ∀ d ∈ L, ∃ a e : ℚ, 0 ≤ a ∧ 0 ≤ e ∧ node_tup_processed d = Dbl.fin a ∧
      (PROGRESS_INSTR s d).tup_estimated = Dbl.fin e) :
    ∀ m0 w0 : ℚ, 0 ≤ m0 → 0 ≤ w0 →
      ∃ m w : ℚ, 0 ≤ m ∧ 0 ≤ w ∧
        L.foldl (dne_step s) (Dbl.fin m0, Dbl.fin w0) = (Dbl.fin m, Dbl.fin w) := by
  induction L with
  | nil => intro m0 w0 hm hw; exact ⟨m0, w0, hm, hw, rfl⟩
  | cons d L ih =>
    intro m0 w0 hm hw
    obtain ⟨a, e, ha, he, h1, h2⟩ := h d (List.mem_cons_self _ _)
    rw [List.foldl_cons]
    have hstep : ∃ m1 : ℚ, 0 ≤ m1 ∧
        dne_step s (Dbl.fin m0, Dbl.fin w0) d = (Dbl.fin m1, Dbl.fin (w0 + a)) := by
      unfold dne_step
      simp only [h1, h2, Dbl.fin_add_fin]
      by_cases hz : Dbl.eq (Dbl.fin m0) (Dbl.fin 0) = true
      · exact ⟨e, he, by rw [if_pos hz]⟩
      · rw [if_neg hz]
        unfold Dbl.Min
        by_cases hl : Dbl.lt (Dbl.fin m0) (Dbl.fin e) = true
        · exact ⟨m0, hm, by rw [if_pos hl]⟩
        · exact ⟨e, he, by rw [if_neg hl]⟩
    obtain ⟨m1, hm1, hs⟩ := hstep
    rw [hs]
    exact ih (fun x hx => h x (List.mem_cons_of_mem _ hx)) m1 (w0 + a) hm1 (add_nonneg hw ha)

/-- The value of `pipeline_to_process` for a pipeline whose totals and whose
drivers' counters and estimates are non-negative numbers. -/
theorem pipeline_to_process_nonneg (s : Instrs) (pd : PipelineData)
    (hne : pd.driver_nodes ≠ [])
    (htp : ∃ x : ℚ, 0 ≤ x ∧ pd.tup_processed = Dbl.fin x)
    (hte : ∃ y : ℚ, 0 ≤ y ∧ pd.tup_estimated = Dbl.fin y)
    (hdrv : ∀ d ∈ pd.driver_nodes, ∃ a e : ℚ, 0 ≤ a ∧ 0 ≤ e ∧
      node_tup_processed d = Dbl.fin a ∧ (PROGRESS_INSTR s d).tup_estimated = Dbl.fin e) :
    ∃ v, pipeline_to_process s pd = some v ∧ Dbl.NonNegOrNaN v := by
  have hemp : pd.driver_nodes.isEmpty = false := by
    cases hd : pd.driver_nodes with
    | nil => exact absurd hd hne
    | cons _ _ => rfl
  obtain ⟨x, hx, htp⟩ := htp
  obtain ⟨y, hy, hte⟩ := hte
  unfold pipeline_to_process
  simp only [hemp, Bool.false_eq_true, if_false]
  split
  · exact ⟨_, rfl, Or.inr (Or.inr ⟨x, hx, htp⟩)⟩
  · split
    · exact ⟨_, rfl, Or.inr (Or.inr ⟨y, hy, hte⟩)⟩
    · rename_i hnz
      refine ⟨_, rfl, ?_⟩
      have hx0 : x ≠ 0 := by
        intro h0
        apply hnz
        rw [htp, h0]
        simp [Dbl.eq]
      have hxpos : 0 < x := lt_of_le_of_ne hx (Ne.symm hx0)
      obtain ⟨m, w, hm, hw, hfold⟩ := dne_fold_nonneg s pd.driver_nodes hdrv 0 0
        (le_refl _) (le_refl _)
      have hlen : (pd.driver_nodes.length : ℚ) ≠ 0 := by
        have : pd.driver_nodes.length ≠ 0 := fun h => hne (List.length_eq_zero.mp h)
        exact_mod_cast this
      have hlenpos : (0 : ℚ) < pd.driver_nodes.length :=
        lt_of_le_of_ne (Nat.cast_nonneg _) (Ne.symm hlen)
      have hdne : dne_estimator s pd.driver_nodes =
          Dbl.fin m / Dbl.fin (w / pd.driver_nodes.length) := by
        unfold dne_estimator
        simp only [hfold]
        congr 1
        show Dbl.div (Dbl.fin w) (Dbl.fin _) = _
        simp only [Dbl.div, hlen, if_false]
      rw [htp, hdne]
      show Dbl.NonNegOrNaN (Dbl.mul (Dbl.fin x) (Dbl.div (Dbl.fin m) (Dbl.fin _)))
      by_cases hr : w / (pd.driver_nodes.length : ℚ) = 0
      · simp only [Dbl.div, hr, if_true]
        by_cases hm0 : 0 < m
        · simp only [hm0, if_true, Dbl.mul, Dbl.mulInf, hx0, if_false, Dbl.inf,
            not_lt.mpr hx]
          exact Or.inr (Or.inl (by simp))
        · have : ¬ m < 0 := not_lt.mpr hm
          simp only [hm0, this, if_false, Dbl.mul]
          exact Or.inl rfl
      · simp only [Dbl.div, hr, if_false, Dbl.mul]
        exact Or.inr (Or.inr ⟨_, mul_nonneg hx (div_nonneg hm (div_nonneg hw
          (le_of_lt hlenpos))), rfl⟩)

/-- The totals of a pipeline of a partitioned tree whose counters and estimates
are non-negative numbers. -/
theorem collect_pdata_nonneg {t : PlanState} {s : Instrs} {k : Nat}
    (beyond : Nat → PipelineData)
    (hval : ∀ n ∈ t.nodes, ∃ a e : ℚ, 0 ≤ a ∧ 0 ≤ e ∧ node_tup_processed n = Dbl.fin a ∧
      (PROGRESS_INSTR s n).tup_estimated = Dbl.fin e) {p : Nat} (hp : p < k) :
    (∃ x : ℚ, 0 ≤ x ∧ (collect_pdata s t k beyond p).tup_processed = Dbl.fin x) ∧
    (∃ y : ℚ, 0 ≤ y ∧ (collect_pdata s t k beyond p).tup_estimated = Dbl.fin y) ∧
    (∀ d ∈ (collect_pdata s t k beyond p).driver_nodes, d ∈ t.nodes) := by
  obtain ⟨h1, h2, h3⟩ := collect_pdata_eq t s k beyond p hp
  have hmem : ∀ n ∈ t.postorder.filter (fun n => decide (pidOf s n = p)), n ∈ t.nodes :=
    fun n hn => mem_postorder_iff.mp (List.mem_of_mem_filter hn)
  choose! fa fe hfa using hval
  refine ⟨⟨_, ?_, h1.trans ((Dbl.sum_map _ _).trans (Dbl.foldl_fin _ _ fa
      (fun n hn => (hfa n (hmem n hn)).2.2.1) 0))⟩,
    ⟨_, ?_, h2.trans ((Dbl.sum_map _ _).trans (Dbl.foldl_fin _ _
      (fun n => max (fa n) (fe n)) (fun n hn => by
        simp only [(hfa n (hmem n hn)).2.2.1, (hfa n (hmem n hn)).2.2.2, Dbl.Max_fin]) 0))⟩,
    fun d hd => ?_⟩
  · rw [zero_add]
    apply List.sum_nonneg
    intro x hx
    obtain ⟨n, hn, rfl⟩ := List.mem_map.mp hx
    exact (hfa n (hmem n hn)).1
  · rw [zero_add]
    apply List.sum_nonneg
    intro x hx
    obtain ⟨n, hn, rfl⟩ := List.mem_map.mp hx
    exact le_max_of_le_left (hfa n (hmem n hn)).1
  · rw [h3] at hd
    exact mem_postorder_iff.mp (List.mem_of_mem_filter hd)

/-- C13, as stated, fails.  A single unfinished scan with planner row estimate 10
that has produced 50 tuples is partitioned and annotated with non-negative
counters and estimates, and its global estimate is 5.  In the plan `exIdleScan`
all counters and estimates are non-negative numbers, too, and the global
estimate is NaN: the only driver of the pipeline has estimate 0 and no output,
so `dne_estimator` computes 0 / 0. -/
theorem C13_counterexample :
    Partitioned exOvershoot
      (find_planner_estimates exOvershoot
        (find_pipelines exOvershoot heap_init 0 (fun _ => 0)).1) 1 ∧
    node_tup_processed exOvershoot = Dbl.fin 50 ∧
    (PROGRESS_INSTR (find_planner_estimates exOvershoot
      (find_pipelines exOvershoot heap_init 0 (fun _ => 0)).1) exOvershoot).tup_estimated
        = Dbl.fin 10 ∧
    compute_estimate
      (find_planner_estimates exOvershoot
        (find_pipelines exOvershoot heap_init 0 (fun _ => 0)).1)
      exOvershoot 1 (fun _ => pdata_zero) = some (Dbl.fin 5) ∧
    ¬ ((5 : ℚ) ≤ 1) ∧
    Partitioned exIdleScan
      (find_planner_estimates exIdleScan
        (find_pipelines exIdleScan heap_init 0 (fun _ => 0)).1) 1 ∧
    exIdleScan.nodes.map node_tup_processed = [Dbl.fin 5, Dbl.fin 0] ∧
    exIdleScan.nodes.map (fun n => (PROGRESS_INSTR (find_planner_estimates exIdleScan
      (find_pipelines exIdleScan heap_init 0 (fun _ => 0)).1) n).tup_estimated)
        = [Dbl.fin 5, Dbl.fin 0] ∧
    compute_estimate
      (find_planner_estimates exIdleScan
        (find_pipelines exIdleScan heap_init 0 (fun _ => 0)).1)
      exIdleScan 1 (fun _ => pdata_zero) = some Dbl.nan := by
  refine ⟨by decide, by with_unfolding_all decide, by with_unfolding_all decide,
    by with_unfolding_all decide, by norm_num, by decide, by with_unfolding_all decide,
    by with_unfolding_all decide, by with_unfolding_all decide⟩

/-- C13, amended: for every partitioned and annotated plan tree whose actual
counters and estimates are non-negative numbers, the estimation pass succeeds
and the global estimate is NaN or a non-negative number. -/
theorem C13_estimate_is_nonnegative (t : PlanState) (s : Instrs) (k : Nat)
    (hpart : Partitioned t s k) (beyond : Nat → PipelineData)
    (hval : ∀ n ∈ t.nodes, ∃ a e : ℚ, 0 ≤ a ∧ 0 ≤ e ∧ node_tup_processed n = Dbl.fin a ∧
      (PROGRESS_INSTR s n).tup_estimated = Dbl.fin e) :
    ∃ r, compute_estimate s t k beyond = some r ∧
      (r = Dbl.nan ∨ ∃ q : ℚ, 0 ≤ q ∧ r = Dbl.fin q) := by
  have hto : ∀ p, p < k →
      pipeline_to_process s (collect_pdata s t k beyond p) =
        some ((pipeline_to_process s (collect_pdata s t k beyond p)).getD (Dbl.fin 0)) ∧
      Dbl.NonNegOrNaN
        ((pipeline_to_process s (collect_pdata s t k beyond p)).getD (Dbl.fin 0)) := by
    intro p hp
    obtain ⟨h1, h2, h3⟩ := collect_pdata_nonneg (t := t) (s := s) beyond hval hp
    obtain ⟨v, hv, hK⟩ := pipeline_to_process_nonneg s _ (collect_drivers_ne hpart beyond hp)
      h1 h2 (fun d hd => hval d (h3 d hd))
    rw [hv]
    exact ⟨rfl, hK⟩
  obtain ⟨he, -⟩ := estimate_progress_of_totals s (collect_pdata s t k beyond) k _
    (fun i hi => (hto i hi).1)
  have hP : ∃ X : ℚ, 0 ≤ X ∧ (List.range k).foldl
      (fun a i => a + (collect_pdata s t k beyond i).tup_processed) (Dbl.fin 0) = Dbl.fin X := by
    have hall : ∀ i ∈ List.range k, ∃ x : ℚ, 0 ≤ x ∧
        (collect_pdata s t k beyond i).tup_processed = Dbl.fin x :=
      fun i hi => (collect_pdata_nonneg (t := t) (s := s) beyond hval (List.mem_range.mp hi)).1
    choose! fx hfx using hall
    refine ⟨_, ?_, Dbl.foldl_fin _ _ fx (fun i hi => (hfx i hi).2) 0⟩
    rw [zero_add]
    apply List.sum_nonneg
    intro x hx
    obtain ⟨i, hi, rfl⟩ := List.mem_map.mp hx
    exact (hfx i hi).1
  obtain ⟨X, hX, hP⟩ := hP
  have hT := Dbl.NonNegOrNaN.foldl_closed (List.range k)
    (fun i => (pipeline_to_process s (collect_pdata s t k beyond i)).getD (Dbl.fin 0))
    (fun i hi => (hto i (List.mem_range.mp hi)).2) (Dbl.fin 0) (Or.inr Dbl.NonNeg.zero)
  unfold compute_estimate
  rw [he, hP]
  refine ⟨_, rfl, ?_⟩
  rcases hT with hT | hT | ⟨q, hq, hT⟩
  · rw [hT]; exact Or.inl rfl
  · rw [hT]; exact Or.inr ⟨0, le_refl _, rfl⟩
  · rw [hT]
    by_cases hq0 : q = 0
    · subst hq0
      exact Or.inr ⟨0, le_refl _, rfl⟩
    · have : Dbl.eq (Dbl.fin q) (Dbl.fin 0) = false := by simp [Dbl.eq, hq0]
      rw [this]
      refine Or.inr ⟨X / q, div_nonneg hX hq, ?_⟩
      show Dbl.div (Dbl.fin X) (Dbl.fin q) = _
      simp [Dbl.div, hq0]

theorem C13_estimate_is_nonnegative_witness :
    Partitioned exOvershoot
      (find_planner_estimates exOvershoot
        (find_pipelines exOvershoot heap_init 0 (fun _ => 0)).1) 1 ∧
    ∃ r, compute_estimate
        (find_planner_estimates exOvershoot
          (find_pipelines exOvershoot heap_init 0 (fun _ => 0)).1)
        exOvershoot 1 (fun _ => pdata_zero) = some r ∧
      (r = Dbl.nan ∨ ∃ q : ℚ, 0 ≤ q ∧ r = Dbl.fin q) :=
  ⟨by decide,
    C13_estimate_is_nonnegative exOvershoot _ 1 (by decide) (fun _ => pdata_zero) (by
      intro n hn
      have hn' : n = exOvershoot := by
        rw [PlanState.nodes_eq] at hn
        simpa [PlanState.children, exOvershoot, mkCounted, PlanState.initPlan,
          PlanState.subPlan, PlanState.lefttree, PlanState.righttree, extraChildren,
          hasSpecial, PlanState.tag, PlanState.info] using hn
      subst hn'
      exact ⟨50, 10, by norm_num, by norm_num, by with_unfolding_all decide,
        by with_unfolding_all decide⟩)⟩

/-- The loop of `dne_estimator` over drivers that all have actual output `c` and
estimated total output `c`. -/
theorem dne_fold_common (s : Instrs) (c : ℚ) (hc : 0 < c) (L : List PlanState)
    (h : ∀ d ∈ L, node_tup_processed d = Dbl.fin c ∧
      (PROGRESS_INSTR s d).tup_estimated = Dbl.fin c) :
    ∀ m0 w0 : ℚ, m0 = 0 ∨ m0 = c → L ≠ [] →
      L.foldl (dne_step s) (Dbl.fin m0, Dbl.fin w0) =
        (Dbl.fin c, Dbl.fin (w0 + L.length * c)) := by
  induction L with
  | nil => intro m0 w0 _ hne; exact absurd rfl hne
  | cons d L ih =>
    intro m0 w0 hm _
    obtain ⟨h1, h2⟩ := h d (List.mem_cons_self _ _)
    have hstep : dne_step s (Dbl.fin m0, Dbl.fin w0) d = (Dbl.fin c, Dbl.fin (w0 + c)) := by
      unfold dne_step
      simp only [h1, h2, Dbl.fin_add_fin]
      rcases hm with rfl | rfl
      · simp [Dbl.eq]
      · simp [Dbl.eq, Dbl.Min, ne_of_gt hc]
    rw [List.foldl_cons, hstep]
    cases hL : L with
    | nil => simp
    | cons e L' =>
      rw [← hL, ih (fun x hx => h x (List.mem_cons_of_mem _ hx)) c (w0 + c) (Or.inr rfl)
        (by rw [hL]; simp)]
      simp only [List.length_cons, Nat.cast_add, Nat.cast_one]
      congr 2
      ring

/-- The value of `pipeline_to_process` for a pipeline with actual output and whose
drivers have all reached one common target. -/
theorem pipeline_to_process_common (s : Instrs) (pd : PipelineData)
    (hne : pd.driver_nodes ≠ []) (x : ℚ) (hx0 : x ≠ 0)
    (htp : pd.tup_processed = Dbl.fin x) (c : ℚ) (hc : 0 < c)
    (hdrv : ∀ d ∈ pd.driver_nodes, node_tup_processed d = Dbl.fin c ∧
      (PROGRESS_INSTR s d).tup_estimated = Dbl.fin c) :
    pipeline_to_process s pd = some (Dbl.fin x) := by
  have hemp : pd.driver_nodes.isEmpty = false := by
    cases hd : pd.driver_nodes with
    | nil => exact absurd hd hne
    | cons _ _ => rfl
  unfold pipeline_to_process
  simp only [hemp, Bool.false_eq_true, if_false]
  split
  · rw [htp]
  · have : Dbl.eq pd.tup_processed (Dbl.fin 0) = false := by rw [htp]; simp [Dbl.eq, hx0]
    rw [this]
    simp only [Bool.false_eq_true, if_false]
    have hlen : (pd.driver_nodes.length : ℚ) ≠ 0 := by
      have : pd.driver_nodes.length ≠ 0 := fun h => hne (List.length_eq_zero.mp h)
      exact_mod_cast this
    have hdne : dne_estimator s pd.driver_nodes = Dbl.fin 1 := by
      unfold dne_estimator
      simp only [dne_fold_common s c hc _ hdrv 0 0 (Or.inl rfl) hne, Dbl.ofNat]
      show Dbl.div (Dbl.fin c) (Dbl.div (Dbl.fin _) (Dbl.fin _)) = _
      have hcl : (0 + (pd.driver_nodes.length : ℚ) * c) / pd.driver_nodes.length = c := by
        field_simp
      simp only [Dbl.div, hlen, if_false, hcl, ne_of_gt hc, div_self (ne_of_gt hc)]
    rw [htp, hdne]
    show some (Dbl.mul (Dbl.fin x) (Dbl.fin 1)) = _
    simp [Dbl.mul]

/-- C14, as stated, fails: in a merge join of two scans, both scans drive the
one pipeline; with 10 of 10 and 30 of 30 tuples, and no node flagged as finished
yet, every driver has reached its own non-zero target, and the global estimate
is 2. -/
theorem C14_counterexample :
    Partitioned exUnevenDrivers
      (find_planner_estimates exUnevenDrivers
        (find_pipelines exUnevenDrivers heap_init 0 (fun _ => 0)).1) 1 ∧
    (∀ n ∈ exUnevenDrivers.nodes,
      drvOf (find_planner_estimates exUnevenDrivers
        (find_pipelines exUnevenDrivers heap_init 0 (fun _ => 0)).1) n = true →
      node_tup_processed n =
        (PROGRESS_INSTR (find_planner_estimates exUnevenDrivers
          (find_pipelines exUnevenDrivers heap_init 0 (fun _ => 0)).1) n).tup_estimated ∧
      Dbl.eq (node_tup_processed n) (Dbl.fin 0) = false ∧
      Dbl.lt (Dbl.fin 0) (node_tup_processed n) = true) ∧
    compute_estimate
      (find_planner_estimates exUnevenDrivers
        (find_pipelines exUnevenDrivers heap_init 0 (fun _ => 0)).1)
      exUnevenDrivers 1 (fun _ => pdata_zero) = some (Dbl.fin 2) ∧
    Dbl.fin 2 ≠ Dbl.fin 1 := by
  refine ⟨by decide, by with_unfolding_all decide, by with_unfolding_all decide,
    by with_unfolding_all decide⟩

/-- C14, amended: for every partitioned and annotated plan tree with
non-negative actual counters in which the driver nodes of each pipeline share
one non-zero target `c p` and every driver node's actual output equals that
target, the global estimate is exactly 1.0. -/
theorem C14_reached_common_targets_give_one (t : PlanState) (s : Instrs) (k : Nat)
    (hpart : Partitioned t s k) (beyond : Nat → PipelineData)
    (hnn : ∀ n ∈ t.nodes, ∃ a : ℚ, 0 ≤ a ∧ node_tup_processed n = Dbl.fin a)
    (c : Nat → ℚ) (hc : ∀ p, p < k → 0 < c p)
    (hdrv : ∀ n ∈ t.nodes, drvOf s n = true →
      node_tup_processed n = Dbl.fin (c (pidOf s n)) ∧
      (PROGRESS_INSTR s n).tup_estimated = Dbl.fin (c (pidOf s n))) :
    compute_estimate s t k beyond = some (Dbl.fin 1) := by
  have hpd : ∀ p, p < k → ∃ x : ℚ, 0 < x ∧
      (collect_pdata s t k beyond p).tup_processed = Dbl.fin x ∧
      pipeline_to_process s (collect_pdata s t k beyond p) = some (Dbl.fin x) := by
    intro p hp
    obtain ⟨h1, -, h3⟩ := collect_pdata_eq t s k beyond p hp
    have hmem : ∀ n ∈ t.postorder.filter (fun n => decide (pidOf s n = p)), n ∈ t.nodes :=
      fun n hn => mem_postorder_iff.mp (List.mem_of_mem_filter hn)
    choose! fa hfa using hnn
    have htp := h1.trans ((Dbl.sum_map _ _).trans (Dbl.foldl_fin _ _ fa
      (fun n hn => (hfa n (hmem n hn)).2) 0))
    have hpos : 0 < 0 + ((t.postorder.filter (fun n => decide (pidOf s n = p))).map fa).sum := by
      obtain ⟨n, hn, hpn, hdn⟩ := hpart.2.2 p hp
      have hnf : n ∈ t.postorder.filter (fun n => decide (pidOf s n = p)) := by
        rw [List.mem_filter, mem_postorder_iff]
        exact ⟨hn, by simp [hpn]⟩
      have hle : fa n ≤ ((t.postorder.filter (fun n => decide (pidOf s n = p))).map fa).sum := by
        apply List.single_le_sum
        · intro x hx
          obtain ⟨m, hm, rfl⟩ := List.mem_map.mp hx
          exact (hfa m (hmem m hm)).1
        · exact List.mem_map_of_mem _ hnf
      have hfan : fa n = c p := by
        have h1 := (hfa n hn).2
        rw [(hdrv n hn hdn).1, hpn] at h1
        injection h1 with h1
        exact h1.symm
      have := hc p hp
      linarith
    refine ⟨_, hpos, htp, ?_⟩
    apply pipeline_to_process_common s _ (collect_drivers_ne hpart beyond hp) _ (ne_of_gt hpos)
      htp (c p) (hc p hp)
    intro d hd
    rw [h3, List.mem_filter, mem_postorder_iff] at hd
    have hpd : pidOf s d = p := by
      have := hd.2
      simp only [Bool.and_eq_true, decide_eq_true_eq] at this
      exact this.1
    have hdd : drvOf s d = true := by
      have := hd.2
      simp only [Bool.and_eq_true, decide_eq_true_eq] at this
      exact this.2
    have := hdrv d hd.1 hdd
    rw [hpd] at this
    exact this
  choose! fx hfx using hpd
  obtain ⟨he, -⟩ := estimate_progress_of_totals s (collect_pdata s t k beyond) k
    (fun i => Dbl.fin (fx i)) (fun i hi => (hfx i hi).2.2)
  have hT : (List.range k).foldl (fun a i => a + Dbl.fin (fx i)) (Dbl.fin 0) =
      Dbl.fin (0 + ((List.range k).map fx).sum) :=
    Dbl.foldl_fin _ _ fx (fun _ _ => rfl) 0
  have hP : (List.range k).foldl
      (fun a i => a + (collect_pdata s t k beyond i).tup_processed) (Dbl.fin 0) =
      Dbl.fin (0 + ((List.range k).map fx).sum) :=
    Dbl.foldl_fin _ _ fx (fun i hi => (hfx i (List.mem_range.mp hi)).2.1) 0
  have hk : 0 < k := by
    have hroot : t ∈ t.nodes := by rw [PlanState.nodes_eq]; exact List.mem_cons_self _ _
    exact Nat.lt_of_le_of_lt (Nat.zero_le _) (hpart.2.1 t hroot)
  have hX : 0 < 0 + ((List.range k).map fx).sum := by
    have hle : fx 0 ≤ ((List.range k).map fx).sum := by
      apply List.single_le_sum
      · intro x hx
        obtain ⟨i, hi, rfl⟩ := List.mem_map.mp hx
        exact le_of_lt (hfx i (List.mem_range.mp hi)).1
      · exact List.mem_map_of_mem _ (List.mem_range.mpr hk)
    have := (hfx 0 hk).1
    linarith
  unfold compute_estimate
  rw [he, hT, hP]
  have hne := ne_of_gt hX
  have : Dbl.eq (Dbl.fin (0 + ((List.range k).map fx).sum)) (Dbl.fin 0) = false := by
    simp only [Dbl.eq, decide_eq_false_iff_not]
    exact hne
  rw [this]
  simp only [Bool.false_eq_true, if_false]
  show some (Dbl.div (Dbl.fin _) (Dbl.fin _)) = _
  simp only [Dbl.div, hne, if_false, div_self hne]

theorem C14_reached_common_targets_give_one_witness :
    Partitioned exEvenDrivers
      (find_planner_estimates exEvenDrivers
        (find_pipelines exEvenDrivers heap_init 0 (fun _ => 0)).1) 1 ∧
    compute_estimate
      (find_planner_estimates exEvenDrivers
        (find_pipelines exEvenDrivers heap_init 0 (fun _ => 0)).1)
      exEvenDrivers 1 (fun _ => pdata_zero) = some (Dbl.fin 1) :=
  ⟨by decide,
    C14_reached_common_targets_give_one exEvenDrivers _ 1 (by decide) (fun _ => pdata_zero)
      (by
        have hnodes : exEvenDrivers.nodes =
            [exEvenDrivers, mkCounted 1 .SeqScan 10 10, mkCounted 2 .SeqScan 10 10] := rfl
        intro n hn
        rw [hnodes] at hn
        simp only [List.mem_cons, List.mem_singleton, List.not_mem_nil, or_false] at hn
        rcases hn with rfl | rfl | rfl
        · exact ⟨0, le_refl _, by with_unfolding_all decide⟩
        · exact ⟨10, by norm_num, by with_unfolding_all decide⟩
        · exact ⟨10, by norm_num, by with_unfolding_all decide⟩)
      (fun _ => 10) (fun _ _ => by norm_num) (by with_unfolding_all decide)⟩

/-- Both walks of a node with two children that have no children. -/
theorem walk_join_of_leaves {σ : Type} (walker : PlanState → List PlanState → σ → σ)
    (postorder : Bool) (j o i : NodeInfo) (ctx : σ) :
    plan_state_walker_common walker postorder (mkJoinOfLeaves j o i) ctx =
      if postorder then
        walker (mkJoinOfLeaves j o i) [mkLeafOf o, mkLeafOf i]
          (walker (mkLeafOf i) [] (walker (mkLeafOf o) [] ctx))
      else
        walker (mkLeafOf i) [] (walker (mkLeafOf o) []
          (walker (mkJoinOfLeaves j o i) [mkLeafOf o, mkLeafOf i] ctx)) := by
  have hch : (PlanState.mk j [] [] (some (.mk o [] [] none none []))
      (some (.mk i [] [] none none [])) []).children =
      [.mk o [] [] none none [], .mk i [] [] none none []] := by
    simp [PlanState.children, PlanState.initPlan, PlanState.subPlan, PlanState.lefttree,
      PlanState.righttree, extraChildren, PlanState.special]
  have hl : ∀ x : NodeInfo, (PlanState.mk x [] [] none none []).children = [] := by
    intro x
    simp [PlanState.children, PlanState.initPlan, PlanState.subPlan, PlanState.lefttree,
      PlanState.righttree, extraChildren, PlanState.special]
  unfold mkJoinOfLeaves mkLeafOf
  cases postorder <;>
    simp only [plan_state_walker_common, walk_list, walk_opt, hch, hl, ite_self, if_true,
      if_false, Bool.false_eq_true]

theorem addrs_leaf (x : NodeInfo) : (mkLeafOf x).addrs = [x.addr] := by
  simp [mkLeafOf, PlanState.addrs, PlanState.nodes, nodes_list, nodes_opt, PlanState.addr,
    PlanState.info]

/-- The heap and the pipeline count that `find_pipelines` leaves for a nested
loop over two nodes without children. -/
theorem find_pipelines_join_of_leaves (j o i : NodeInfo) (s : Instrs) (current : Nat)
    (garbage : Nat → Nat) (htag : j.tag = .NestLoop) (hjo : j.addr ≠ o.addr)
    (hji : j.addr ≠ i.addr) (hoi : o.addr ≠ i.addr) :
    find_pipelines (mkJoinOfLeaves j o i) s current garbage =
      (fun a =>
        if a = o.addr then { (s a) with pipeline_id := 0, is_driver := true }
        else if a = i.addr then { (s a) with pipeline_id := 0, is_driver := false }
        else if a = j.addr then { (s a) with pipeline_id := 0 }
        else s a,
       { no_pipelines := 1 }) := by
  have htag1 : (mkJoinOfLeaves j o i).tag = .NestLoop := htag
  have hl : (mkJoinOfLeaves j o i).lefttree = some (mkLeafOf o) := rfl
  have hr : (mkJoinOfLeaves j o i).righttree = some (mkLeafOf i) := rfl
  have haj : (mkJoinOfLeaves j o i).addr = j.addr := rfl
  have hao : (mkLeafOf o).addr = o.addr := rfl
  have hai : (mkLeafOf i).addr = i.addr := rfl
  have hmark : mark_pipelines (mkJoinOfLeaves j o i) s current =
      (fun a =>
        if a = o.addr then { (s a) with pipeline_id := current, is_driver := true }
        else if a = i.addr then { (s a) with pipeline_id := current, is_driver := false }
        else if a = j.addr then { (s a) with pipeline_id := current }
        else s a, current + 2) := by
    unfold mark_pipelines plan_state_walker
    rw [walk_join_of_leaves]
    simp only [if_true, find_pipelines_walker, List.isEmpty_nil, List.isEmpty_cons,
      Bool.false_eq_true, if_false, start_pipeline, htag1, mark_NestLoop, hl, hr,
      change_pipeline_id_eq, unmark_driver_nodes_eq, addrs_leaf, List.mem_singleton, pidOf,
      PROGRESS_INSTR, Instrs.modify, haj, hao, hai]
    refine Prod.ext ?_ rfl
    funext a
    by_cases h1 : a = o.addr
    · subst h1
      simp [hoi, hjo, Ne.symm hjo]
    · by_cases h2 : a = i.addr
      · subst h2
        simp [hoi, Ne.symm hoi, hji, Ne.symm hji, hjo, Ne.symm hjo]
      · by_cases h3 : a = j.addr
        · subst h3
          simp [hoi, Ne.symm hoi, hji, Ne.symm hji, hjo, Ne.symm hjo]
        · simp [h1, h2, h3]
  unfold find_pipelines
  simp only [hmark]
  unfold renumber_pipelines plan_state_walker
  rw [walk_join_of_leaves]
  simp only [if_true, renumber_pipelines_walker, PROGRESS_INSTR, Instrs.modify, haj, hao, hai,
    Finset.not_mem_empty, if_false, Finset.card_empty, insert_emptyc_eq, Finset.card_singleton,
    Ne.symm hoi, hji, hjo, Finset.mem_singleton]
  refine Prod.ext ?_ rfl
  funext a
  by_cases h1 : a = o.addr
  · subst h1
    simp [Instrs.modify, haj, hao, hai, hoi, hjo, Ne.symm hjo]
  · by_cases h2 : a = i.addr
    · subst h2
      simp [Instrs.modify, haj, hao, hai, hoi, Ne.symm hoi, hji, Ne.symm hji, hjo, Ne.symm hjo]
    · by_cases h3 : a = j.addr
      · subst h3
        simp [Instrs.modify, haj, hao, hai, hoi, Ne.symm hoi, hji, Ne.symm hji, hjo,
          Ne.symm hjo]
      · simp [Instrs.modify, haj, hao, hai, h1, h2, h3]

/-- The fields of the annotation records that the marking passes own. -/
theorem modify_marks (s : Instrs) (n : PlanState) (f : ProgressInstr → ProgressInstr)
    (hf : ∀ i, (f i).pipeline_id = i.pipeline_id ∧ (f i).is_driver = i.is_driver ∧
      (f i).finished = i.finished) (a : Nat) :
    (s.modify n f a).pipeline_id = (s a).pipeline_id ∧
    (s.modify n f a).is_driver = (s a).is_driver ∧
    (s.modify n f a).finished = (s a).finished := by
  unfold Instrs.modify
  by_cases h : a = n.addr
  · simp only [h, if_true]; exact hf _
  · simp only [h, if_false]; trivial

theorem planner_estimates_walker_marks (n : PlanState) (ch : List PlanState) (s : Instrs)
    (a : Nat) :
    (planner_estimates_walker n ch s a).pipeline_id = (s a).pipeline_id ∧
    (planner_estimates_walker n ch s a).is_driver = (s a).is_driver ∧
    (planner_estimates_walker n ch s a).finished = (s a).finished := by
  have hfold : ∀ (L : List PlanState) (s0 : Instrs),
      ((L.foldl (fun acc child => acc.modify child
        (fun i => { i with loops_estimated := (PROGRESS_INSTR acc n).loops_estimated })) s0)
          a).pipeline_id = (s0 a).pipeline_id ∧
      ((L.foldl (fun acc child => acc.modify child
        (fun i => { i with loops_estimated := (PROGRESS_INSTR acc n).loops_estimated })) s0)
          a).is_driver = (s0 a).is_driver ∧
      ((L.foldl (fun acc child => acc.modify child
        (fun i => { i with loops_estimated := (PROGRESS_INSTR acc n).loops_estimated })) s0)
          a).finished = (s0 a).finished := by
    intro L
    induction L with
    | nil => intro s0; exact ⟨rfl, rfl, rfl⟩
    | cons c L ih =>
      intro s0
      rw [List.foldl_cons]
      obtain ⟨h1, h2, h3⟩ := ih (s0.modify c
        (fun i => { i with loops_estimated := (PROGRESS_INSTR s0 n).loops_estimated }))
      obtain ⟨g1, g2, g3⟩ := modify_marks s0 c
        (fun i => { i with loops_estimated := (PROGRESS_INSTR s0 n).loops_estimated })
        (fun _ => ⟨rfl, rfl, rfl⟩) a
      exact ⟨h1.trans g1, h2.trans g2, h3.trans g3⟩
  obtain ⟨g1, g2, g3⟩ := modify_marks s n
    (fun i => { i with tup_estimated := n.plan_rows * i.loops_estimated })
    (fun _ => ⟨rfl, rfl, rfl⟩) a
  obtain ⟨h1, h2, h3⟩ := hfold ch (s.modify n
    (fun i => { i with tup_estimated := n.plan_rows * i.loops_estimated }))
  have h12 := And.intro (h1.trans g1) (And.intro (h2.trans g2) (h3.trans g3))
  unfold planner_estimates_walker
  by_cases ht : n.tag = .NestLoop
  · simp only [ht, if_true]
    cases n.lefttree with
    | none => exact h12
    | some outer =>
      cases n.righttree with
      | none => exact h12
      | some inner =>
        obtain ⟨k1, k2, k3⟩ := modify_marks
          (ch.foldl (fun acc child => acc.modify child
            (fun i => { i with loops_estimated := (PROGRESS_INSTR acc n).loops_estimated }))
            (s.modify n (fun i => { i with tup_estimated := n.plan_rows * i.loops_estimated })))
          inner (fun i => { i with loops_estimated := i.loops_estimated * outer.plan_rows })
          (fun _ => ⟨rfl, rfl, rfl⟩) a
        exact ⟨k1.trans h12.1, k2.trans h12.2.1, k3.trans h12.2.2⟩
  · simp only [ht, if_false]
    exact h12

/-- The pass `find_planner_estimates` leaves the pipeline id, the driver flag
and the finished flag of every record as they are. -/
theorem find_planner_estimates_marks (t : PlanState) (s : Instrs) (a : Nat) :
    (find_planner_estimates t s a).pipeline_id = (s a).pipeline_id ∧
    (find_planner_estimates t s a).is_driver = (s a).is_driver ∧
    (find_planner_estimates t s a).finished = (s a).finished := by
  unfold find_planner_estimates
  rw [plan_state_walker_preorder_eq_foldl]
  have hfold : ∀ (L : List PlanState) (s0 : Instrs),
      ((L.foldl (fun c m => planner_estimates_walker m m.children c) s0) a).pipeline_id
        = (s0 a).pipeline_id ∧
      ((L.foldl (fun c m => planner_estimates_walker m m.children c) s0) a).is_driver
        = (s0 a).is_driver ∧
      ((L.foldl (fun c m => planner_estimates_walker m m.children c) s0) a).finished
        = (s0 a).finished := by
    intro L
    induction L with
    | nil => intro s0; exact ⟨rfl, rfl, rfl⟩
    | cons c L ih =>
      intro s0
      rw [List.foldl_cons]
      obtain ⟨h1, h2, h3⟩ := ih (planner_estimates_walker c c.children s0)
      obtain ⟨g1, g2, g3⟩ := planner_estimates_walker_marks c c.children s0 a
      exact ⟨h1.trans g1, h2.trans g2, h3.trans g3⟩
  obtain ⟨h1, h2, h3⟩ := hfold t.nodes
    (s.modify t (fun i => { i with loops_estimated := Dbl.fin 1 }))
  obtain ⟨g1, g2, g3⟩ := modify_marks s t (fun i => { i with loops_estimated := Dbl.fin 1 })
    (fun _ => ⟨rfl, rfl, rfl⟩) a
  exact ⟨h1.trans g1, h2.trans g2, h3.trans g3⟩

/-- C16: end to end, for a nested loop whose outer and inner children have no
children, on a heap in which the join is not flagged as a driver (as
`progress_InstrAlloc` leaves it): `find_pipelines` yields exactly one pipeline
that contains the join and both children, with the outer child as its only
driver; and if the outer child is finished and the actual counters are numbers
with a non-zero sum, the global estimate is exactly 1.0, whatever the planner
row estimates are. -/
theorem C16_nest_loop_of_leaves (j o i : NodeInfo) (s : Instrs) (current : Nat)
    (garbage : Nat → Nat) (beyond : Nat → PipelineData) (htag : j.tag = .NestLoop)
    (hjo : j.addr ≠ o.addr) (hji : j.addr ≠ i.addr) (hoi : o.addr ≠ i.addr)
    (hjd : (s j.addr).is_driver = false) :
    (find_pipelines (mkJoinOfLeaves j o i) s current garbage).2.no_pipelines = 1 ∧
    (∀ n ∈ (mkJoinOfLeaves j o i).nodes,
      pidOf (find_pipelines (mkJoinOfLeaves j o i) s current garbage).1 n = 0) ∧
    drvOf (find_pipelines (mkJoinOfLeaves j o i) s current garbage).1 (mkLeafOf o) = true ∧
    drvOf (find_pipelines (mkJoinOfLeaves j o i) s current garbage).1 (mkLeafOf i) = false ∧
    drvOf (find_pipelines (mkJoinOfLeaves j o i) s current garbage).1 (mkJoinOfLeaves j o i)
      = false ∧
    (collect_pdata (find_planner_estimates (mkJoinOfLeaves j o i)
        (find_pipelines (mkJoinOfLeaves j o i) s current garbage).1) (mkJoinOfLeaves j o i)
      (find_pipelines (mkJoinOfLeaves j o i) s current garbage).2.no_pipelines beyond
      0).driver_nodes = [mkLeafOf o] ∧
    ((s o.addr).finished = true → ∀ ao ai aj : ℚ,
      node_tup_processed (mkLeafOf o) = Dbl.fin ao →
      node_tup_processed (mkLeafOf i) = Dbl.fin ai →
      node_tup_processed (mkJoinOfLeaves j o i) = Dbl.fin aj →
      ao + ai + aj ≠ 0 →
      compute_estimate (find_planner_estimates (mkJoinOfLeaves j o i)
          (find_pipelines (mkJoinOfLeaves j o i) s current garbage).1) (mkJoinOfLeaves j o i)
        (find_pipelines (mkJoinOfLeaves j o i) s current garbage).2.no_pipelines beyond
        = some (Dbl.fin 1)) := by
  have haj : (mkJoinOfLeaves j o i).addr = j.addr := rfl
  have hao : (mkLeafOf o).addr = o.addr := rfl
  have hai : (mkLeafOf i).addr = i.addr := rfl
  have hnodes : (mkJoinOfLeaves j o i).nodes =
      [mkJoinOfLeaves j o i, mkLeafOf o, mkLeafOf i] := by
    simp [mkJoinOfLeaves, mkLeafOf, PlanState.nodes, nodes_list, nodes_opt]
  rw [find_pipelines_join_of_leaves j o i s current garbage htag hjo hji hoi]
  have hm := find_planner_estimates_marks (mkJoinOfLeaves j o i)
    (fun a =>
        if a = o.addr then { (s a) with pipeline_id := 0, is_driver := true }
        else if a = i.addr then { (s a) with pipeline_id := 0, is_driver := false }
        else if a = j.addr then { (s a) with pipeline_id := 0 }
        else s a)
  have hmo := hm o.addr
  have hmi := hm i.addr
  have hmj := hm j.addr
  simp only [if_true, Ne.symm hoi, hjo, hji, if_false] at hmo hmi hmj
  have hpd : collect_pdata (find_planner_estimates (mkJoinOfLeaves j o i)
      (fun a =>
        if a = o.addr then { (s a) with pipeline_id := 0, is_driver := true }
        else if a = i.addr then { (s a) with pipeline_id := 0, is_driver := false }
        else if a = j.addr then { (s a) with pipeline_id := 0 }
        else s a)) (mkJoinOfLeaves j o i) 1 beyond 0 =
      { tup_processed := Dbl.fin 0 + node_tup_processed (mkLeafOf o) +
          node_tup_processed (mkLeafOf i) + node_tup_processed (mkJoinOfLeaves j o i),
        tup_estimated := (collect_pdata (find_planner_estimates (mkJoinOfLeaves j o i)
          (fun a =>
            if a = o.addr then { (s a) with pipeline_id := 0, is_driver := true }
            else if a = i.addr then { (s a) with pipeline_id := 0, is_driver := false }
            else if a = j.addr then { (s a) with pipeline_id := 0 }
            else s a)) (mkJoinOfLeaves j o i) 1 beyond 0).tup_estimated,
        driver_nodes := [mkLeafOf o] } := by
    unfold collect_pdata plan_state_walker
    rw [walk_join_of_leaves]
    simp only [if_true, estimator_walker, PROGRESS_INSTR, haj, hao, hai, hmo, hmi, hmj, hjd,
      pdata_alloc, Nat.lt_one_iff, pdata_zero, List.nil_append, Bool.false_eq_true, if_false]
  refine ⟨rfl, ?_, ?_, ?_, ?_, ?_, ?_⟩
  · intro n hn
    rw [hnodes] at hn
    simp only [List.mem_cons, List.mem_singleton, List.not_mem_nil, or_false] at hn
    rcases hn with rfl | rfl | rfl
    · simp [pidOf, PROGRESS_INSTR, haj, hjo, hji]
    · simp [pidOf, PROGRESS_INSTR, hao]
    · simp [pidOf, PROGRESS_INSTR, hai, Ne.symm hoi]
  · simp [drvOf, PROGRESS_INSTR, hao]
  · simp [drvOf, PROGRESS_INSTR, hai, Ne.symm hoi]
  · simp [drvOf, PROGRESS_INSTR, haj, hjo, hji, hjd]
  · exact (congrArg PipelineData.driver_nodes hpd)
  · intro hfin ao ai aj h1 h2 h3 hsum
    have hr1 : List.range 1 = [0] := rfl
    have hx : (0 : ℚ) + ao + ai + aj ≠ 0 := by rw [zero_add]; exact hsum
    have hx2 : (0 : ℚ) + (0 + ao + ai + aj) ≠ 0 := by rw [zero_add]; exact hx
    unfold compute_estimate estimate_progress
    simp only [hr1, List.foldlM_cons, List.foldlM_nil, estimate_step]
    rw [hpd]
    simp only [pipeline_to_process, List.isEmpty_cons, Bool.false_eq_true, if_false,
      List.foldl_cons, List.foldl_nil, PROGRESS_INSTR, hao, hmo, hfin, if_true, h1, h2, h3,
      Dbl.fin_add_fin, bind_pure]
    have he : Dbl.eq (Dbl.fin (0 + (0 + ao + ai + aj))) (Dbl.fin 0) = false := by
      simp only [Dbl.eq, decide_eq_false_iff_not]; exact hx2
    rw [he]
    simp only [Bool.false_eq_true, if_false]
    show some (Dbl.div (Dbl.fin _) (Dbl.fin _)) = _
    simp only [Dbl.div, hx2, if_false, div_self hx2]

theorem C16_nest_loop_of_leaves_witness :
    (find_pipelines exNestLoopScenario heap_outer_done 4 (fun _ => 9)).2.no_pipelines = 1 ∧
    compute_estimate (find_planner_estimates exNestLoopScenario
        (find_pipelines exNestLoopScenario heap_outer_done 4 (fun _ => 9)).1)
      exNestLoopScenario
      (find_pipelines exNestLoopScenario heap_outer_done 4 (fun _ => 9)).2.no_pipelines
      (fun _ => pdata_zero) = some (Dbl.fin 1) := by
  have h := C16_nest_loop_of_leaves ⟨0, .NestLoop, .fin 1000, .fin 40, .fin 0, none⟩
    ⟨1, .SeqScan, .fin 10, .fin 10, .fin 0, none⟩ ⟨2, .IndexScan, .fin 100, .fin 40, .fin 0, none⟩
    heap_outer_done 4 (fun _ => 9) (fun _ => pdata_zero) rfl (by decide) (by decide)
    (by decide) rfl
  exact ⟨h.1, h.2.2.2.2.2.2 rfl 10 40 40 (by with_unfolding_all decide)
    (by with_unfolding_all decide) (by with_unfolding_all decide) (by norm_num)⟩

theorem cstring_no_nul (b : List Nat) : ∀ c ∈ cstring b, c ≠ 0 := by
  intro c hc
  have := List.mem_takeWhile_imp hc
  simpa using this

theorem cstring_append_nul (t r : List Nat) (ht : ∀ c ∈ t, c ≠ 0) :
    cstring (t ++ 0 :: r) = t := by
  unfold cstring
  induction t with
  | nil => simp
  | cons c t ih =>
    have hc : c ≠ 0 := ht c (List.mem_cons_self _ _)
    simp only [List.cons_append, List.takeWhile_cons, bne_iff_ne, ne_eq, hc, not_false_eq_true,
      if_true]
    rw [ih (fun x hx => ht x (List.mem_cons_of_mem _ hx))]

theorem cstring_cstring (b : List Nat) : cstring (cstring b) = cstring b := by
  unfold cstring
  induction b with
  | nil => rfl
  | cons c b ih =>
    by_cases hc : c = 0
    · simp [hc]
    · simp only [List.takeWhile_cons, bne_iff_ne, ne_eq, hc, not_false_eq_true, if_true]
      rw [ih]

/-- The buffer after `strncpy(dst, src, n); dst[n - 1] = 0;` for `n > 0`: the
string of `src` padded with NUL bytes when it is shorter than `n`, and its
first `n - 1` characters followed by one NUL byte otherwise. -/
theorem copy_terminated_eq (b : List Nat) (n : Nat) (hn : 0 < n) :
    copy_terminated b n =
      if (cstring b).length < n then cstring b ++ List.replicate (n - (cstring b).length) 0
      else (cstring b).take (n - 1) ++ [0] := by
  unfold copy_terminated strncpy
  by_cases h : (cstring b).length < n
  · rw [if_pos h, List.take_of_length_le (le_of_lt h), List.set_append]
    have h2 : ¬ (n - 1 < (cstring b).length) := by omega
    rw [if_neg h2]
    congr 1
    apply List.ext_getElem
    · simp
    · intro k h1 h2
      simp [List.getElem_set]
  · rw [if_neg h]
    have hz : n - (cstring b).length = 0 := by omega
    rw [hz, List.replicate_zero, List.append_nil]
    have hlen : ((cstring b).take n).length = n := by
      rw [List.length_take]; omega
    apply List.ext_getElem
    · simp only [List.length_set, hlen, List.length_append, List.length_take,
        List.length_singleton]
      omega
    · intro k h1 h2
      rw [List.getElem_set]
      by_cases hk : n - 1 = k
      · rw [if_pos hk]
        rw [List.getElem_append_right (by rw [List.length_take]; omega)]
        simp
      · rw [if_neg hk]
        have hk2 : k < n - 1 := by
          rw [List.length_set, hlen] at h1; omega
        rw [List.getElem_append_left (by rw [List.length_take]; omega)]
        simp [List.getElem_take]

/-- Length, terminator and text of the buffer after the bounded copy. -/
theorem copy_terminated_spec (b : List Nat) (n : Nat) (hn : 0 < n) :
    (copy_terminated b n).length = n ∧
    (copy_terminated b n)[n - 1]? = some 0 ∧
    cstring (copy_terminated b n) =
      (if (cstring b).length < n then cstring b else (cstring b).take (n - 1)) ∧
    (cstring (copy_terminated b n)).length ≤ n - 1 := by
  have hcs : cstring (copy_terminated b n) =
      (if (cstring b).length < n then cstring b else (cstring b).take (n - 1)) := by
    rw [copy_terminated_eq b n hn]
    by_cases h : (cstring b).length < n
    · simp only [if_pos h]
      have : n - (cstring b).length = (n - (cstring b).length - 1) + 1 := by omega
      rw [this, List.replicate_succ]
      exact cstring_append_nul _ _ (cstring_no_nul b)
    · simp only [if_neg h]
      exact cstring_append_nul _ _
        (fun c hc => cstring_no_nul b c (List.mem_of_mem_take hc))
  refine ⟨?_, ?_, hcs, ?_⟩
  · unfold copy_terminated strncpy
    simp only [List.length_set, List.length_append, List.length_take, List.length_replicate]
    omega
  · unfold copy_terminated
    rw [List.getElem?_set_self]
    unfold strncpy
    simp only [List.length_append, List.length_take, List.length_replicate]
    omega
  · rw [hcs]
    by_cases h : (cstring b).length < n
    · rw [if_pos h]; omega
    · rw [if_neg h, List.length_take]; omega

/-- C17: for every rendered diagnostic text and `N = PROGRESS_DOT_DUMP_SIZE`,
after a pass of `calculate_progress` that ran to its end the published buffer
has `N` bytes, its last byte is the terminator, the text in it is the rendered
text when that has fewer than `N` characters and its first `N - 1` characters
otherwise, so it has at most `N - 1` characters, and `pg_progress_dot` reads
the same text back. -/
theorem C17_published_text_is_bounded (s : Instrs) (queryDesc : QueryDesc)
    (beyond : Nat → PipelineData) (si_data : List Nat) (shared : ProgressSharedState)
    (hrun : (calculate_progress s queryDesc beyond si_data shared).1 = true) :
    (calculate_progress s queryDesc beyond si_data shared).2.dot_dump.length
      = PROGRESS_DOT_DUMP_SIZE ∧
    (calculate_progress s queryDesc beyond si_data shared).2.dot_dump[
      PROGRESS_DOT_DUMP_SIZE - 1]? = some 0 ∧
    cstring (calculate_progress s queryDesc beyond si_data shared).2.dot_dump =
      (if (cstring si_data).length < PROGRESS_DOT_DUMP_SIZE then cstring si_data
       else (cstring si_data).take (PROGRESS_DOT_DUMP_SIZE - 1)) ∧
    (cstring (calculate_progress s queryDesc beyond si_data shared).2.dot_dump).length
      ≤ PROGRESS_DOT_DUMP_SIZE - 1 ∧
    pg_progress_dot (some (calculate_progress s queryDesc beyond si_data shared).2) =
      .ok (if (cstring si_data).length < PROGRESS_DOT_DUMP_SIZE then cstring si_data
           else (cstring si_data).take (PROGRESS_DOT_DUMP_SIZE - 1)) := by
  have hN : 0 < PROGRESS_DOT_DUMP_SIZE := by unfold PROGRESS_DOT_DUMP_SIZE; omega
  have hdump : (calculate_progress s queryDesc beyond si_data shared).2.dot_dump =
      copy_terminated si_data PROGRESS_DOT_DUMP_SIZE := by
    unfold calculate_progress at hrun ⊢
    cases hc : compute_estimate s queryDesc.planstate queryDesc.es_private.no_pipelines beyond with
    | none => rw [hc] at hrun; exact absurd hrun (by simp)
    | some e => rfl
  obtain ⟨h1, h2, h3, h4⟩ := copy_terminated_spec si_data PROGRESS_DOT_DUMP_SIZE hN
  rw [hdump]
  refine ⟨h1, h2, h3, h4, ?_⟩
  unfold pg_progress_dot
  simp only [hdump]
  congr 1
  obtain ⟨-, -, k3, -⟩ := copy_terminated_spec (copy_terminated si_data PROGRESS_DOT_DUMP_SIZE)
    PROGRESS_DOT_DUMP_SIZE hN
  rw [k3, if_pos (by omega), h3]

theorem C17_published_text_is_bounded_witness :
    pg_progress_dot (some (calculate_progress
      (find_planner_estimates exOvershoot
        (find_pipelines exOvershoot heap_init 0 (fun _ => 0)).1)
      ⟨exOvershoot, ⟨1⟩⟩ (fun _ => pdata_zero) [100, 105, 103] ⟨Dbl.fin 0, []⟩).2) =
      .ok [100, 105, 103] := by
  have h := (C17_published_text_is_bounded
    (find_planner_estimates exOvershoot
      (find_pipelines exOvershoot heap_init 0 (fun _ => 0)).1)
    ⟨exOvershoot, ⟨1⟩⟩ (fun _ => pdata_zero) [100, 105, 103] ⟨Dbl.fin 0, []⟩
    (by with_unfolding_all decide)).2.2.2.2
  have hlt : (cstring [100, 105, 103]).length < PROGRESS_DOT_DUMP_SIZE := by decide
  rw [if_pos hlt] at h
  exact h

theorem cstring_replicate_zero (n : Nat) : cstring (List.replicate n 0) = [] := by
  cases n with
  | zero => rfl
  | succ n => simp [cstring, List.replicate_succ]

/-- C18: `pg_progress` and `pg_progress_dot` fail with an error when the store
pointer is unset, and a requested recomputation leaves it unset; on the store
that `progress_shmem_startup_hook` initialises they return 0.0 and the empty
text; on any store `pg_progress` returns the stored fraction; and after a
recomputation that ran to its end they return the fraction and the (bounded)
text which that recomputation published. -/
theorem C18_reads_fail_without_store :
    pg_progress none = .error .should_be_preloaded ∧
    pg_progress_dot none = .error .should_be_preloaded ∧
    (∀ (s : Instrs) (q : Option QueryDesc) (beyond : Nat → PipelineData) (si_data : List Nat),
      pg_progress (progress_procsignal_handler_hook s q beyond si_data none) =
        .error .should_be_preloaded ∧
      pg_progress_dot (progress_procsignal_handler_hook s q beyond si_data none) =
        .error .should_be_preloaded) ∧
    pg_progress (progress_shmem_startup_hook none) = .ok (Dbl.fin 0) ∧
    pg_progress_dot (progress_shmem_startup_hook none) = .ok [] ∧
    (∀ shared : ProgressSharedState, pg_progress (some shared) = .ok shared.estimate) ∧
    (∀ (s : Instrs) (queryDesc : QueryDesc) (beyond : Nat → PipelineData) (si_data : List Nat)
      (shared : ProgressSharedState) (e : Dbl),
      compute_estimate s queryDesc.planstate queryDesc.es_private.no_pipelines beyond = some e →
      pg_progress (progress_procsignal_handler_hook s (some queryDesc) beyond si_data
        (some shared)) = .ok e ∧
      pg_progress_dot (progress_procsignal_handler_hook s (some queryDesc) beyond si_data
        (some shared)) =
        .ok (if (cstring si_data).length < PROGRESS_DOT_DUMP_SIZE then cstring si_data
             else (cstring si_data).take (PROGRESS_DOT_DUMP_SIZE - 1))) := by
  have hN : 0 < PROGRESS_DOT_DUMP_SIZE := by unfold PROGRESS_DOT_DUMP_SIZE; omega
  refine ⟨rfl, rfl, ?_, rfl, ?_, fun _ => rfl, ?_⟩
  · intro s q beyond si_data
    cases q <;> exact ⟨rfl, rfl⟩
  · show Except.ok (cstring (copy_terminated (List.replicate PROGRESS_DOT_DUMP_SIZE 0)
      PROGRESS_DOT_DUMP_SIZE)) = _
    rw [(copy_terminated_spec _ _ hN).2.2.1, cstring_replicate_zero, if_pos]
    exact hN
  · intro s queryDesc beyond si_data shared e he
    have hcp : calculate_progress s queryDesc beyond si_data shared =
        (true, { estimate := e,
                 dot_dump := copy_terminated si_data PROGRESS_DOT_DUMP_SIZE }) := by
      unfold calculate_progress
      rw [he]
    refine ⟨?_, ?_⟩
    · show Except.ok (calculate_progress s queryDesc beyond si_data shared).2.estimate = _
      rw [hcp]
    · show Except.ok (cstring (copy_terminated
        (calculate_progress s queryDesc beyond si_data shared).2.dot_dump
        PROGRESS_DOT_DUMP_SIZE)) = _
      rw [hcp]
      congr 1
      obtain ⟨-, -, h3, h4⟩ := copy_terminated_spec si_data PROGRESS_DOT_DUMP_SIZE hN
      obtain ⟨-, -, k3, -⟩ := copy_terminated_spec
        (copy_terminated si_data PROGRESS_DOT_DUMP_SIZE) PROGRESS_DOT_DUMP_SIZE hN
      rw [k3, if_pos (by omega), h3]

theorem C18_reads_fail_without_store_witness :
    compute_estimate
      (find_planner_estimates exOvershoot
        (find_pipelines exOvershoot heap_init 0 (fun _ => 0)).1)
      exOvershoot 1 (fun _ => pdata_zero) = some (Dbl.fin 5) ∧
    pg_progress (progress_procsignal_handler_hook
      (find_planner_estimates exOvershoot
        (find_pipelines exOvershoot heap_init 0 (fun _ => 0)).1)
      (some ⟨exOvershoot, ⟨1⟩⟩) (fun _ => pdata_zero) [100, 105]
      (progress_shmem_startup_hook none)) = .ok (Dbl.fin 5) :=
  ⟨by with_unfolding_all decide,
    (C18_reads_fail_without_store.2.2.2.2.2.2
      (find_planner_estimates exOvershoot
        (find_pipelines exOvershoot heap_init 0 (fun _ => 0)).1)
      ⟨exOvershoot, ⟨1⟩⟩ (fun _ => pdata_zero) [100, 105]
      { estimate := Dbl.fin 0, dot_dump := List.replicate PROGRESS_DOT_DUMP_SIZE 0 }
      (Dbl.fin 5) (by with_unfolding_all decide)).1⟩

/-- The loop of `estimate_progress` fails when the assertion of
`pipeline_to_process` fails at one of its indices, also after iterations that
succeeded. -/
theorem estimate_foldlM_none (s : Instrs) (pdata : Nat → PipelineData) (L : List Nat)
    (h : ∃ i ∈ L, pipeline_to_process s (pdata i) = none) :
    ∀ acc : Dbl × Dbl, L.foldlM (estimate_step s pdata) acc = none := by
  induction L with
  | nil => obtain ⟨i, hi, _⟩ := h; simp at hi
  | cons j L ih =>
    intro acc
    rw [List.foldlM_cons]
    cases hj : pipeline_to_process s (pdata j) with
    | none =>
      have : estimate_step s pdata acc j = none := by unfold estimate_step; rw [hj]
      rw [this]
      rfl
    | some v =>
      have : estimate_step s pdata acc j =
          some (acc.1 + (pdata j).tup_processed, acc.2 + v) := by
        unfold estimate_step; rw [hj]
      rw [this]
      obtain ⟨i, hi, hnone⟩ := h
      rcases List.mem_cons.mp hi with rfl | hi
      · rw [hj] at hnone; exact absurd hnone (by simp)
      · exact ih ⟨i, hi, hnone⟩ _

/-- With a non-empty driver list the assertion of `pipeline_to_process` holds and
both builds return the same value. -/
theorem pipeline_to_process_agree (s : Instrs) (pd : PipelineData)
    (h : pd.driver_nodes ≠ []) :
    pipeline_to_process s pd = some (pipeline_to_process_noassert s pd) := by
  have hemp : pd.driver_nodes.isEmpty = false := by
    cases hd : pd.driver_nodes with
    | nil => exact absurd hd h
    | cons _ _ => rfl
  unfold pipeline_to_process pipeline_to_process_noassert
  simp only [hemp, Bool.false_eq_true, if_false]
  split
  · rfl
  · split <;> rfl

theorem foldl_pair_totals {α : Type} (L : List α) (g f : α → Dbl) :
    ∀ acc : Dbl × Dbl,
      L.foldl (fun acc i => (acc.1 + g i, acc.2 + f i)) acc =
        (L.foldl (fun a i => a + g i) acc.1, L.foldl (fun a i => a + f i) acc.2) := by
  induction L with
  | nil => intro acc; rfl
  | cons x L ih => intro acc; rw [List.foldl_cons, ih]; rfl

/-- When no driver list below `no_pipelines` is empty, both builds compute the
same estimate. -/
theorem estimate_progress_agree (s : Instrs) (pdata : Nat → PipelineData) (k : Nat)
    (hall : ∀ i, i < k → (pdata i).driver_nodes ≠ []) :
    estimate_progress s pdata k = some (estimate_progress_noassert s pdata k) := by
  obtain ⟨he, -⟩ := estimate_progress_of_totals s pdata k
    (fun i => pipeline_to_process_noassert s (pdata i))
    (fun i hi => pipeline_to_process_agree s (pdata i) (hall i hi))
  rw [he]
  unfold estimate_progress_noassert
  simp only [foldl_pair_totals]

/-- C19, as stated, fails in the default build, where `Assert` is compiled out.
For the scan `exOvershoot` on a heap without marks, pipeline index 0 is below
`no_pipelines = 1` and has an empty driver list after the walk; the pass does
not fail: `pipeline_to_process` returns the accumulated actual output, the
estimate is `50 / 50 = 1`, and the pass overwrites the stored estimate 0.5 and
the stored text. -/
theorem C19_counterexample :
    (collect_pdata heap_init exOvershoot 1 (fun _ => pdata_zero) 0).driver_nodes = [] ∧
    (calculate_progress_noassert heap_init ⟨exOvershoot, ⟨1⟩⟩ (fun _ => pdata_zero)
      [100, 105] ⟨Dbl.fin (1 / 2), [111, 108, 100, 0]⟩).estimate = Dbl.fin 1 ∧
    Dbl.fin 1 ≠ Dbl.fin (1 / 2) ∧
    pg_progress_dot (some (calculate_progress_noassert heap_init ⟨exOvershoot, ⟨1⟩⟩
      (fun _ => pdata_zero) [100, 105] ⟨Dbl.fin (1 / 2), [111, 108, 100, 0]⟩))
      = .ok [100, 105] ∧
    pg_progress_dot (some ⟨Dbl.fin (1 / 2), [111, 108, 100, 0]⟩) = .ok [111, 108, 100] := by
  have hN : 0 < PROGRESS_DOT_DUMP_SIZE := by unfold PROGRESS_DOT_DUMP_SIZE; omega
  refine ⟨rfl, by with_unfolding_all decide, by with_unfolding_all decide, ?_, ?_⟩
  · show Except.ok (cstring (copy_terminated (copy_terminated [100, 105]
      PROGRESS_DOT_DUMP_SIZE) PROGRESS_DOT_DUMP_SIZE)) = _
    have h3 := (copy_terminated_spec [100, 105] PROGRESS_DOT_DUMP_SIZE hN).2.2
    have k3 := (copy_terminated_spec (copy_terminated [100, 105] PROGRESS_DOT_DUMP_SIZE)
      PROGRESS_DOT_DUMP_SIZE hN).2.2.1
    have hlt : (cstring [100, 105]).length < PROGRESS_DOT_DUMP_SIZE := by decide
    rw [k3, if_pos (by have := h3.2; omega), h3.1, if_pos hlt]
    rfl
  · show Except.ok (cstring (copy_terminated [111, 108, 100, 0] PROGRESS_DOT_DUMP_SIZE)) = _
    have h3 := (copy_terminated_spec [111, 108, 100, 0] PROGRESS_DOT_DUMP_SIZE hN).2.2.1
    have hlt : (cstring [111, 108, 100, 0]).length < PROGRESS_DOT_DUMP_SIZE := by decide
    rw [h3, if_pos hlt]
    rfl

/-- C19, amended: in the default build, where `Assert` is compiled out, a
recomputation pass does not fail on a violated structural invariant.  For a
pipeline index with an empty driver list `pipeline_to_process` returns the
accumulated actual output; every pass writes the new estimate and the new text
together, after the estimate has been computed, and both are what the read
functions return afterwards; and when no driver list below `no_pipelines` is
empty, the estimate is the one that the pass with the check computes. -/
theorem C19_pass_without_assertions (s : Instrs) (queryDesc : QueryDesc)
    (beyond : Nat → PipelineData) (si_data : List Nat) (shared : ProgressSharedState) :
    (∀ pd : PipelineData, pd.driver_nodes = [] →
      pipeline_to_process_noassert s pd = pd.tup_processed) ∧
    pg_progress (some (calculate_progress_noassert s queryDesc beyond si_data shared)) =
      .ok (estimate_progress_noassert s
        (collect_pdata s queryDesc.planstate queryDesc.es_private.no_pipelines beyond)
        queryDesc.es_private.no_pipelines) ∧
    pg_progress_dot (some (calculate_progress_noassert s queryDesc beyond si_data shared)) =
      .ok (if (cstring si_data).length < PROGRESS_DOT_DUMP_SIZE then cstring si_data
           else (cstring si_data).take (PROGRESS_DOT_DUMP_SIZE - 1)) ∧
    ((∀ i, i < queryDesc.es_private.no_pipelines →
        (collect_pdata s queryDesc.planstate queryDesc.es_private.no_pipelines beyond
          i).driver_nodes ≠ []) →
      compute_estimate s queryDesc.planstate queryDesc.es_private.no_pipelines beyond =
        some (calculate_progress_noassert s queryDesc beyond si_data shared).estimate ∧
      calculate_progress s queryDesc beyond si_data shared =
        (true, calculate_progress_noassert s queryDesc beyond si_data shared)) := by
  have hN : 0 < PROGRESS_DOT_DUMP_SIZE := by unfold PROGRESS_DOT_DUMP_SIZE; omega
  refine ⟨fun pd hpd => ?_, rfl, ?_, fun hall => ?_⟩
  · unfold pipeline_to_process_noassert
    rw [hpd]
    rfl
  · show Except.ok (cstring (copy_terminated (copy_terminated si_data
      PROGRESS_DOT_DUMP_SIZE) PROGRESS_DOT_DUMP_SIZE)) = _
    obtain ⟨-, -, h3, h4⟩ := copy_terminated_spec si_data PROGRESS_DOT_DUMP_SIZE hN
    obtain ⟨-, -, k3, -⟩ := copy_terminated_spec
      (copy_terminated si_data PROGRESS_DOT_DUMP_SIZE) PROGRESS_DOT_DUMP_SIZE hN
    rw [k3, if_pos (by omega), h3]
  · have he := estimate_progress_agree s
      (collect_pdata s queryDesc.planstate queryDesc.es_private.no_pipelines beyond)
      queryDesc.es_private.no_pipelines hall
    have hc : compute_estimate s queryDesc.planstate queryDesc.es_private.no_pipelines beyond =
        some (calculate_progress_noassert s queryDesc beyond si_data shared).estimate := he
    refine ⟨hc, ?_⟩
    unfold calculate_progress
    rw [hc]
    rfl

theorem C19_pass_without_assertions_witness :
    compute_estimate
      (find_planner_estimates exOvershoot
        (find_pipelines exOvershoot heap_init 0 (fun _ => 0)).1)
      exOvershoot 1 (fun _ => pdata_zero) =
      some (calculate_progress_noassert
        (find_planner_estimates exOvershoot
          (find_pipelines exOvershoot heap_init 0 (fun _ => 0)).1)
        ⟨exOvershoot, ⟨1⟩⟩ (fun _ => pdata_zero) [100, 105]
        ⟨Dbl.fin (1 / 2), [111, 108, 100, 0]⟩).estimate :=
  ((C19_pass_without_assertions
    (find_planner_estimates exOvershoot
      (find_pipelines exOvershoot heap_init 0 (fun _ => 0)).1)
    ⟨exOvershoot, ⟨1⟩⟩ (fun _ => pdata_zero) [100, 105]
    ⟨Dbl.fin (1 / 2), [111, 108, 100, 0]⟩).2.2.2
    (fun _ hi => collect_drivers_ne (by decide) (fun _ => pdata_zero) hi)).1

/-! ## Claims about the whole of `find_pipelines` and the estimation pass -/

/-- The heap that `find_pipelines` returns for a well-formed tree is partitioned
into `no_pipelines` pipelines. -/
theorem find_pipelines_partitioned (t : PlanState) (hwf : WellFormed t) (s : Instrs)
    (current : Nat) (garbage : Nat → Nat) :
    Partitioned t (find_pipelines t s current garbage).1
      (find_pipelines t s current garbage).2.no_pipelines := by
  obtain ⟨f, hf, -, hb, hsurj, -⟩ := find_pipelines_relabel t hwf.1 s current garbage
  have hp : ∀ n ∈ t.nodes, pidOf (find_pipelines t s current garbage).1 n =
      f (pidOf (mark_pipelines t s current).1 n) := by
    intro n hn
    simp only [pidOf, PROGRESS_INSTR, hf n hn]
  refine ⟨hwf.1, fun n hn => by rw [hp n hn]; exact hb n hn, fun p hpk => ?_⟩
  obtain ⟨n, hn, e⟩ := hsurj p hpk
  obtain ⟨d, hd, h1, h2⟩ := (mark_pipelines_spec t hwf s current).cover n hn
  refine ⟨d, hd, ?_, ?_⟩
  · rw [hp d hd, h2]; exact e
  · simp only [drvOf, PROGRESS_INSTR, hf d hd]
    exact h1

/-- A partition is a matter of the pipeline ids and driver flags of the nodes. -/
theorem Partitioned.of_marks {t : PlanState} {s s' : Instrs} {k : Nat}
    (h : Partitioned t s k)
    (hm : ∀ n ∈ t.nodes, pidOf s' n = pidOf s n ∧ drvOf s' n = drvOf s n) :
    Partitioned t s' k := by
  refine ⟨h.1, fun n hn => by rw [(hm n hn).1]; exact h.2.1 n hn, fun p hp => ?_⟩
  obtain ⟨n, hn, h1, h2⟩ := h.2.2 p hp
  exact ⟨n, hn, by rw [(hm n hn).1]; exact h1, by rw [(hm n hn).2]; exact h2⟩

/-- The visits of `estimator_walker` leave the entries of other pipelines as
they are. -/
theorem estimator_untouched (s : Instrs) (L : List PlanState) (i : Nat)
    (h : ∀ n ∈ L, pidOf s n ≠ i) :
    ∀ P0 : Nat → PipelineData,
      (L.foldl (fun c m => estimator_walker s m m.children c) P0) i = P0 i := by
  induction L with
  | nil => intro P0; rfl
  | cons m L ih =>
    intro P0
    rw [List.foldl_cons, ih (fun n hn => h n (List.mem_cons_of_mem _ hn))]
    have hm : ¬ i = (PROGRESS_INSTR s m).pipeline_id :=
      fun e => h m (List.mem_cons_self _ _) e.symm
    simp only [estimator_walker, hm, if_false]

/-- The estimation pass succeeds when no pipeline below `no_pipelines` is left
without a driver. -/
theorem compute_estimate_isSome (s : Instrs) (t : PlanState) (k : Nat)
    (beyond : Nat → PipelineData)
    (hall : ∀ i, i < k → (collect_pdata s t k beyond i).driver_nodes ≠ []) :
    ∃ e, compute_estimate s t k beyond = some e := by
  obtain ⟨he, -⟩ := estimate_progress_of_totals s (collect_pdata s t k beyond) k
    (fun i => (pipeline_to_process s (collect_pdata s t k beyond i)).getD (Dbl.fin 0))
    (fun i hi => by
      obtain ⟨v, hv⟩ := pipeline_to_process_isSome s _ (hall i hi)
      simp only [hv, Option.getD_some])
  exact ⟨_, he⟩

/-- C22: for every well-formed plan tree annotated by `find_pipelines`, in every
heap that carries the pipeline ids and driver flags which `find_pipelines` left
on the nodes (whatever the estimates, finished flags and counters are), the
estimation pass with an array of `no_pipelines` entries does not fail: every
node's pipeline id is an index below `no_pipelines`, the walk leaves the memory
behind the array as it is, every index below `no_pipelines` has a non-empty
driver list, and `calculate_progress` runs to its end. -/
theorem C22_estimation_pass_never_fails (t : PlanState) (hwf : WellFormed t) (s : Instrs)
    (current : Nat) (garbage : Nat → Nat) (s' : Instrs)
    (hmarks : ∀ n ∈ t.nodes,
      pidOf s' n = pidOf (find_pipelines t s current garbage).1 n ∧
      drvOf s' n = drvOf (find_pipelines t s current garbage).1 n)
    (beyond : Nat → PipelineData) (si_data : List Nat) (shared : ProgressSharedState) :
    (∀ n ∈ t.nodes, pidOf s' n < (find_pipelines t s current garbage).2.no_pipelines) ∧
    (∀ i, (find_pipelines t s current garbage).2.no_pipelines ≤ i →
      collect_pdata s' t (find_pipelines t s current garbage).2.no_pipelines beyond i
        = beyond i) ∧
    (∀ i, i < (find_pipelines t s current garbage).2.no_pipelines →
      (collect_pdata s' t (find_pipelines t s current garbage).2.no_pipelines beyond
        i).driver_nodes ≠ []) ∧
    (∃ e, compute_estimate s' t (find_pipelines t s current garbage).2.no_pipelines beyond
      = some e) ∧
    (calculate_progress s' ⟨t, (find_pipelines t s current garbage).2⟩ beyond si_data
      shared).1 = true := by
  have hpart : Partitioned t s' (find_pipelines t s current garbage).2.no_pipelines :=
    (find_pipelines_partitioned t hwf s current garbage).of_marks hmarks
  have hdrv : ∀ i, i < (find_pipelines t s current garbage).2.no_pipelines →
      (collect_pdata s' t (find_pipelines t s current garbage).2.no_pipelines beyond
        i).driver_nodes ≠ [] := fun i hi => collect_drivers_ne hpart beyond hi
  obtain ⟨e, he⟩ := compute_estimate_isSome s' t _ beyond hdrv
  refine ⟨hpart.2.1, fun i hi => ?_, hdrv, ⟨e, he⟩, ?_⟩
  · unfold collect_pdata
    rw [plan_state_walker_eq_foldl, estimator_untouched s' t.postorder i (fun n hn e => by
      have := hpart.2.1 n (mem_postorder_iff.mp hn)
      omega)]
    simp [pdata_alloc, Nat.not_lt.mpr hi]
  · unfold calculate_progress
    simp only [he]

theorem C22_estimation_pass_never_fails_witness :
    WellFormed exJoins ∧
    (calculate_progress
      (find_planner_estimates exJoins (find_pipelines exJoins heap_init 5 (fun _ => 0)).1)
      ⟨exJoins, (find_pipelines exJoins heap_init 5 (fun _ => 0)).2⟩ (fun _ => pdata_zero)
      [100, 105] ⟨Dbl.fin 0, []⟩).1 = true :=
  ⟨by decide,
    (C22_estimation_pass_never_fails exJoins (by decide) heap_init 5 (fun _ => 0)
      (find_planner_estimates exJoins (find_pipelines exJoins heap_init 5 (fun _ => 0)).1)
      (fun n _ =>
        ⟨(find_planner_estimates_marks exJoins _ n.addr).1,
          (find_planner_estimates_marks exJoins _ n.addr).2.1⟩)
      (fun _ => pdata_zero) [100, 105] ⟨Dbl.fin 0, []⟩).2.2.2.2⟩

/-- The rule that `find_pipelines_walker` applies to a node, whatever the state
is, with the change in the number of pipelines the specification attributes to
the node. -/
theorem walker_shape (n : PlanState) (hs : slotsOK n) :
    (pipeline_delta n = 1 ∧
      ∀ st, find_pipelines_walker n n.children st = start_pipeline n st) ∨
    (pipeline_delta n = 0 ∧ ∃ x ∈ n.children,
      ∀ st, find_pipelines_walker n n.children st =
        (st.1.modify n (fun i => { i with pipeline_id := pidOf st.1 x }), st.2)) ∨
    (pipeline_delta n = -1 ∧ ∃ o i, n.lefttree = some o ∧ n.righttree = some i ∧
      ((n.tag = .MergeJoin ∧
          ∀ st, find_pipelines_walker n n.children st = mark_MergeJoin n n.children st) ∨
       (n.tag = .NestLoop ∧
          ∀ st, find_pipelines_walker n n.children st = mark_NestLoop n n.children st))) := by
  unfold find_pipelines_walker
  by_cases hL : n.children.isEmpty = true
  · left
    exact ⟨by simp [pipeline_delta, hL], fun st => by simp [hL]⟩
  · simp only [hL, if_false, Bool.false_eq_true]
    obtain ⟨hj, hh⟩ := hs
    have hL' : n.children.isEmpty = false := by simpa using hL
    by_cases t1 : n.tag = .NestLoop
    · obtain ⟨h1, h2⟩ := hj (Or.inl t1)
      obtain ⟨o, ho⟩ := Option.isSome_iff_exists.mp h1
      obtain ⟨i, hi⟩ := Option.isSome_iff_exists.mp h2
      refine Or.inr (Or.inr ⟨by simp [pipeline_delta, hL', t1], o, i, ho, hi,
        Or.inr ⟨t1, fun st => ?_⟩⟩)
      simp only [t1]
    by_cases t2 : n.tag = .MergeJoin
    · obtain ⟨h1, h2⟩ := hj (Or.inr (Or.inl t2))
      obtain ⟨o, ho⟩ := Option.isSome_iff_exists.mp h1
      obtain ⟨i, hi⟩ := Option.isSome_iff_exists.mp h2
      refine Or.inr (Or.inr ⟨by simp [pipeline_delta, hL', t2], o, i, ho, hi,
        Or.inl ⟨t2, fun st => ?_⟩⟩)
      simp only [t2]
    by_cases t3 : n.tag = .HashJoin
    · obtain ⟨h1, _⟩ := hj (Or.inr (Or.inr t3))
      obtain ⟨o, ho⟩ := Option.isSome_iff_exists.mp h1
      refine Or.inr (Or.inl ⟨by simp [pipeline_delta, hL', t3], o, lefttree_mem_children ho,
        fun st => ?_⟩)
      simp only [t3, mark_HashJoin, ho]; rfl
    by_cases t4 : n.tag = .Hash
    · obtain ⟨o, ho⟩ := Option.isSome_iff_exists.mp (hh t4 hL')
      refine Or.inr (Or.inl ⟨by simp [pipeline_delta, hL', t4], o, lefttree_mem_children ho,
        fun st => ?_⟩)
      simp only [t4, mark_Hash, ho]; rfl
    have hdummy : n.tag.isBlocking = false →
        (pipeline_delta n = 1 ∧ ∀ st, mark_dummy n n.children st = start_pipeline n st) ∨
        (pipeline_delta n = 0 ∧ ∃ x ∈ n.children,
          ∀ st, mark_dummy n n.children st =
            (st.1.modify n (fun i => { i with pipeline_id := pidOf st.1 x }), st.2)) := by
      intro hb
      cases hc : n.children with
      | nil => rw [hc] at hL'; simp at hL'
      | cons x xs =>
        cases xs with
        | nil =>
          right
          exact ⟨by simp [pipeline_delta, hc, t1, t2, t3, t4, hb], x, by simp, fun st => rfl⟩
        | cons y ys =>
          left
          exact ⟨by simp [pipeline_delta, hc, t1, t2, t3, t4, hb], fun st => rfl⟩
    have hblock : n.tag.isBlocking = true → pipeline_delta n = 1 := by
      intro hb
      simp [pipeline_delta, hL', t1, t2, t3, t4, hb]
    cases htag : n.tag <;>
      first
      | exact absurd htag t1
      | exact absurd htag t2
      | exact absurd htag t3
      | exact absurd htag t4
      | exact Or.inl ⟨hblock (by rw [htag]; rfl), fun st => rfl⟩
      | (rcases hdummy (by rw [htag]; rfl) with h | h
         · exact Or.inl h
         · exact Or.inr (Or.inl h))

/-- A write of related pipeline ids into the record of one node keeps two
states related and adds the node to the related addresses. -/
theorem ShiftRel.modify_id {d : Nat} {V : List Nat} {st1 st2 : Instrs × Nat}
    (h : ShiftRel d V st1 st2) (n : PlanState) (b : Bool) (p1 p2 k : Nat)
    (hp : p2 = p1 + d) :
    ShiftRel d (n.addr :: V)
      (st1.1.modify n (fun i =>
        { i with pipeline_id := p1, is_driver := if b then true else i.is_driver }),
        st1.2 + k)
      (st2.1.modify n (fun i =>
        { i with pipeline_id := p2, is_driver := if b then true else i.is_driver }),
        st2.2 + k) := by
  obtain ⟨h1, h2, h3⟩ := h
  refine ⟨by simp only [h1]; omega, fun a => ?_, fun a ha => ?_⟩
  · have := h2 a
    simp only [ProgressInstr.mk.injEq, true_and] at this
    by_cases e : a = n.addr
    · simp only [Instrs.modify_apply, e, if_true, ProgressInstr.mk.injEq, true_and]
      rw [e] at this
      cases b <;> simp [this.1, this.2]
    · simp only [Instrs.modify_apply, e, if_false, ProgressInstr.mk.injEq, true_and]
      exact this
  · by_cases e : a = n.addr
    · simp only [Instrs.modify_apply, e, if_true, hp]
    · simp only [Instrs.modify_apply, e, if_false]
      rcases List.mem_cons.mp ha with ha | ha
      · exact absurd ha e
      · exact h3 a ha

/-- The rewriting of the records of a subtree that carry the raw id of its
root, by functions that respect the relation, keeps two states related. -/
theorem ShiftRel.cond_update {d : Nat} {V : List Nat} {st1 st2 : Instrs × Nat}
    (h : ShiftRel d V st1 st2) (i : PlanState) (hi : ∀ a ∈ i.addrs, a ∈ V)
    (g1 g2 : ProgressInstr → ProgressInstr)
    (hg : ∀ x1 x2 : ProgressInstr,
      ({ x2 with pipeline_id := 0 } : ProgressInstr) = { x1 with pipeline_id := 0 } →
      x2.pipeline_id = x1.pipeline_id + d →
      ({ g2 x2 with pipeline_id := 0 } : ProgressInstr) = { g1 x1 with pipeline_id := 0 } ∧
      (g2 x2).pipeline_id = (g1 x1).pipeline_id + d) :
    ShiftRel d V
      ((fun a => if a ∈ i.addrs ∧ (st1.1 a).pipeline_id = pidOf st1.1 i
        then g1 (st1.1 a) else st1.1 a), st1.2)
      ((fun a => if a ∈ i.addrs ∧ (st2.1 a).pipeline_id = pidOf st2.1 i
        then g2 (st2.1 a) else st2.1 a), st2.2) := by
  obtain ⟨h1, h2, h3⟩ := h
  have hip : pidOf st2.1 i = pidOf st1.1 i + d :=
    h3 _ (hi _ (PlanState.addr_mem_addrs i.self_mem_nodes))
  have hcond : ∀ a, (a ∈ i.addrs ∧ (st2.1 a).pipeline_id = pidOf st2.1 i) ↔
      (a ∈ i.addrs ∧ (st1.1 a).pipeline_id = pidOf st1.1 i) := by
    intro a
    constructor
    · rintro ⟨ha, e⟩
      refine ⟨ha, ?_⟩
      have := h3 a (hi a ha)
      omega
    · rintro ⟨ha, e⟩
      refine ⟨ha, ?_⟩
      have := h3 a (hi a ha)
      omega
  refine ⟨h1, fun a => ?_, fun a ha => ?_⟩
  · by_cases hc : a ∈ i.addrs ∧ (st1.1 a).pipeline_id = pidOf st1.1 i
    · simp only [if_pos hc, if_pos ((hcond a).mpr hc)]
      exact (hg _ _ (h2 a) (h3 a (hi a hc.1))).1
    · simp only [if_neg hc, if_neg (fun h => hc ((hcond a).mp h))]
      exact h2 a
  · by_cases hc : a ∈ i.addrs ∧ (st1.1 a).pipeline_id = pidOf st1.1 i
    · simp only [if_pos hc, if_pos ((hcond a).mpr hc)]
      exact (hg _ _ (h2 a) (h3 a (hi a hc.1))).2
    · simp only [if_neg hc, if_neg (fun h => hc ((hcond a).mp h))]
      exact h3 a ha

theorem ShiftRel.mono {d : Nat} {V V' : List Nat} {st1 st2 : Instrs × Nat}
    (h : ShiftRel d V st1 st2) (hV : ∀ a ∈ V', a ∈ V) : ShiftRel d V' st1 st2 :=
  ⟨h.1, h.2.1, fun a ha => h.2.2 a (hV a ha)⟩

/-- A visit of the marking pass keeps two states related, when the subtrees of
the children of the visited node lie within the related addresses. -/
theorem ShiftRel.visit {d : Nat} {V : List Nat} {st1 st2 : Instrs × Nat}
    (h : ShiftRel d V st1 st2) (n : PlanState) (hs : slotsOK n)
    (hch : ∀ c ∈ n.children, ∀ a ∈ c.addrs, a ∈ V) :
    ShiftRel d (n.addr :: V) (find_pipelines_walker n n.children st1)
      (find_pipelines_walker n n.children st2) := by
  have hsub : ∀ c ∈ n.children, ∀ a ∈ c.addrs, a ∈ n.addr :: V :=
    fun c hc a ha => List.mem_cons_of_mem _ (hch c hc a ha)
  have hself : ∀ c ∈ n.children, c.addr ∈ V :=
    fun c hc => hch c hc _ (PlanState.addr_mem_addrs c.self_mem_nodes)
  rcases walker_shape n hs with ⟨-, hw⟩ | ⟨-, x, hx, hw⟩ | ⟨-, o, i, ho, hi, ⟨-, hw⟩ | ⟨-, hw⟩⟩
  · rw [hw, hw]
    have := h.modify_id n true st1.2 st2.2 1 h.1
    simpa [start_pipeline] using this
  · rw [hw, hw]
    have := h.modify_id n false (pidOf st1.1 x) (pidOf st2.1 x) 0 (h.2.2 _ (hself x hx))
    simpa using this
  · rw [hw, hw]
    have hoc := lefttree_mem_children ho
    have hic := righttree_mem_children hi
    have h1 := h.modify_id n false (pidOf st1.1 o) (pidOf st2.1 o) 0 (h.2.2 _ (hself o hoc))
    simp only [Bool.false_eq_true, if_false, Nat.add_zero] at h1
    have hn := h1.2.2 n.addr (List.mem_cons_self _ _)
    have h2 := h1.cond_update i (hsub i hic)
      (fun r => { r with pipeline_id := pidOf (st1.1.modify n
        (fun i => { i with pipeline_id := pidOf st1.1 o })) n })
      (fun r => { r with pipeline_id := pidOf (st2.1.modify n
        (fun i => { i with pipeline_id := pidOf st2.1 o })) n })
      (fun x1 x2 e _ => ⟨by simpa using e, hn⟩)
    simp only [mark_MergeJoin, ho, hi, change_pipeline_id_eq]
    exact h2
  · rw [hw, hw]
    have hoc := lefttree_mem_children ho
    have hic := righttree_mem_children hi
    have h1 := h.modify_id n false (pidOf st1.1 o) (pidOf st2.1 o) 0 (h.2.2 _ (hself o hoc))
    simp only [Bool.false_eq_true, if_false, Nat.add_zero] at h1
    have hn := h1.2.2 n.addr (List.mem_cons_self _ _)
    have h2 := h1.cond_update i (hsub i hic)
      (fun r => { r with pipeline_id := pidOf (st1.1.modify n
        (fun i => { i with pipeline_id := pidOf st1.1 o })) n })
      (fun r => { r with pipeline_id := pidOf (st2.1.modify n
        (fun i => { i with pipeline_id := pidOf st2.1 o })) n })
      (fun x1 x2 e _ => ⟨by simpa using e, hn⟩)
    have h3 := h2.cond_update i (hsub i hic)
      (fun r => { r with is_driver := false }) (fun r => { r with is_driver := false })
      (fun x1 x2 e e2 => ⟨by
        simp only [ProgressInstr.mk.injEq, true_and] at e ⊢
        exact e.2, e2⟩)
    simp only [mark_NestLoop, ho, hi, change_pipeline_id_eq, unmark_driver_nodes_eq]
    exact h3

/-- The marking pass of a subtree keeps two states related and adds the
addresses of the subtree to the related addresses. -/
theorem ShiftRel.walk {d : Nat} (t : PlanState) : (∀ n ∈ t.nodes, slotsOK n) →
    ∀ (V : List Nat) (st1 st2 : Instrs × Nat), ShiftRel d V st1 st2 →
      ShiftRel d (t.addrs ++ V)
        (plan_state_walker_common find_pipelines_walker true t st1)
        (plan_state_walker_common find_pipelines_walker true t st2) := by
  induction t using PlanState.induction_children with
  | h n ih =>
    intro hs V st1 st2 h
    rw [plan_state_walker_common_eq, plan_state_walker_common_eq]
    simp only [if_true]
    have hfold : ∀ (L : List PlanState), (∀ c ∈ L, c ∈ n.children) →
        ∀ (V : List Nat) (st1 st2 : Instrs × Nat), ShiftRel d V st1 st2 →
          ShiftRel d (L.flatMap PlanState.addrs ++ V)
            (L.foldl (fun c ch =>
              plan_state_walker_common find_pipelines_walker true ch c) st1)
            (L.foldl (fun c ch =>
              plan_state_walker_common find_pipelines_walker true ch c) st2) := by
      intro L
      induction L with
      | nil => intro _ V st1 st2 h; simpa using h
      | cons c L ihL =>
        intro hL V st1 st2 h
        have hc := ih c (hL c (List.mem_cons_self _ _))
          (fun m hm => hs m (PlanState.child_nodes_subset (hL c (List.mem_cons_self _ _)) hm))
          V st1 st2 h
        have := ihL (fun x hx => hL x (List.mem_cons_of_mem _ hx)) _ _ _ hc
        simp only [List.foldl_cons, List.flatMap_cons]
        refine this.mono (fun a ha => ?_)
        simp only [List.mem_append] at ha ⊢
        tauto
    have hchildren := hfold n.children (fun _ hc => hc) V st1 st2 h
    have hv := hchildren.visit n (hs n n.self_mem_nodes) (fun c hc a ha =>
      List.mem_append_left _ (List.mem_flatMap.mpr ⟨c, hc, ha⟩))
    refine hv.mono (fun a ha => ?_)
    rw [PlanState.addrs_eq] at ha
    simpa using ha

/-- Two runs of the marking pass from the same heap, with counter starts `c`
and `c + d`. -/
theorem mark_pipelines_shift (t : PlanState) (hs : ∀ n ∈ t.nodes, slotsOK n) (s : Instrs)
    (c d : Nat) :
    ShiftRel d t.addrs (mark_pipelines t s c) (mark_pipelines t s (c + d)) := by
  have h0 : ShiftRel d [] (s, c) (s, c + d) := ⟨rfl, fun _ => rfl, fun a ha => by simp at ha⟩
  have := ShiftRel.walk t hs [] _ _ h0
  exact this.mono (fun a ha => by simpa using ha)

/-- Two runs of the compaction pass from heaps whose raw ids differ by `d`
build tables that agree up to that shift. -/
theorem renumber_shift {d : Nat} {s1 s2 : Instrs} (L : List PlanState) :
    ∀ (P : List PlanState) (st1 st2 : Instrs × RenumberPipelinesContext),
      RenInv s1 P st1 → RenInv s2 P st2 → ((P ++ L).map PlanState.addr).Nodup →
      (∀ m ∈ P ++ L, pidOf s2 m = pidOf s1 m + d) →
      (∀ r ∈ st1.2.seen, st2.2.pipeline_ids (r + d) = st1.2.pipeline_ids r) →
      ∀ r ∈ (L.foldl (fun c m => renumber_pipelines_walker m m.children c) st1).2.seen,
        (L.foldl (fun c m => renumber_pipelines_walker m m.children c) st2).2.pipeline_ids
            (r + d) =
          (L.foldl (fun c m => renumber_pipelines_walker m m.children c) st1).2.pipeline_ids
            r := by
  induction L with
  | nil => intro P st1 st2 _ _ _ _ hb; exact hb
  | cons m L ih =>
    intro P st1 st2 h1 h2 hnd hpid hb
    have hm : m.addr ∉ P.map PlanState.addr := by
      rw [List.map_append, List.nodup_append] at hnd
      intro hmem
      exact hnd.2.2 hmem (by simp)
    have hraw1 : (PROGRESS_INSTR st1.1 m).pipeline_id = pidOf s1 m := by
      simp only [PROGRESS_INSTR, pidOf, h1.frame _ hm]
    have hraw2 : (PROGRESS_INSTR st2.1 m).pipeline_id = pidOf s1 m + d := by
      rw [← hpid m (by simp)]
      simp only [PROGRESS_INSTR, pidOf, h2.frame _ hm]
    have hseen : ∀ r, r + d ∈ st2.2.seen ↔ r ∈ st1.2.seen := by
      intro r
      rw [h1.seen_eq, h2.seen_eq, List.mem_toFinset, List.mem_toFinset, List.mem_map,
        List.mem_map]
      constructor
      · rintro ⟨x, hx, e⟩
        have := hpid x (List.mem_append_left _ hx)
        exact ⟨x, hx, by omega⟩
      · rintro ⟨x, hx, e⟩
        have := hpid x (List.mem_append_left _ hx)
        exact ⟨x, hx, by omega⟩
    have hcard : st2.2.seen.card = st1.2.seen.card := by
      have himg : st2.2.seen = st1.2.seen.image (fun r => r + d) := by
        ext r
        rw [Finset.mem_image]
        constructor
        · intro hr
          rw [h2.seen_eq, List.mem_toFinset, List.mem_map] at hr
          obtain ⟨x, hx, e⟩ := hr
          have := hpid x (List.mem_append_left _ hx)
          refine ⟨pidOf s1 x, ?_, by omega⟩
          rw [h1.seen_eq]
          exact List.mem_toFinset.mpr (List.mem_map_of_mem _ hx)
        · rintro ⟨r0, hr0, rfl⟩
          exact (hseen r0).mpr hr0
      rw [himg]
      exact Finset.card_image_of_injective _ (fun a b e => by simpa using e)
    rw [List.foldl_cons, List.foldl_cons]
    refine ih (P ++ [m]) _ _ (RenInv_step h1 m hm) (RenInv_step h2 m hm)
      (by simpa using hnd) (fun x hx => hpid x (by simpa using hx)) ?_
    unfold renumber_pipelines_walker
    simp only [hraw1, hraw2]
    by_cases hs : pidOf s1 m ∈ st1.2.seen
    · have hs2 : pidOf s1 m + d ∈ st2.2.seen := (hseen _).mpr hs
      simp only [hs, hs2, if_true]
      exact hb
    · have hs2 : ¬ pidOf s1 m + d ∈ st2.2.seen := fun h => hs ((hseen _).mp h)
      simp only [hs, hs2, if_false]
      intro r hr
      rw [Finset.mem_insert] at hr
      by_cases hrm : r = pidOf s1 m
      · simp [hrm, hcard]
      · have hrm2 : ¬ r + d = pidOf s1 m + d := fun e => hrm (by omega)
        simp only [hrm, hrm2, if_false]
        exact hb r (hr.resolve_left hrm)

/-- The result of `find_pipelines` for the counter starts `c` and `c + d`. -/
theorem find_pipelines_shift (t : PlanState) (hwf : WellFormed t) (s : Instrs) (c d : Nat)
    (g1 g2 : Nat → Nat) :
    (find_pipelines t s c g1).2.no_pipelines = (find_pipelines t s (c + d) g2).2.no_pipelines ∧
    ∀ n ∈ t.nodes,
      (find_pipelines t s c g1).1 n.addr = (find_pipelines t s (c + d) g2).1 n.addr := by
  obtain ⟨-, hmk2, hmk3⟩ := mark_pipelines_shift t hwf.2 s c d
  have hpid : ∀ m ∈ [] ++ t.postorder, pidOf (mark_pipelines t s (c + d)).1 m =
      pidOf (mark_pipelines t s c).1 m + d := by
    intro m hm
    exact hmk3 _ (PlanState.addr_mem_addrs (mem_postorder_iff.mp (by simpa using hm)))
  have hnd : (([] ++ t.postorder).map PlanState.addr).Nodup := by
    simp only [List.nil_append]
    exact ((postorder_perm_nodes t).map _).nodup_iff.mpr hwf.1
  have h1 := renumber_spec t hwf.1 (mark_pipelines t s c).1 g1
  have h2 := renumber_spec t hwf.1 (mark_pipelines t s (c + d)).1 g2
  have h01 : RenInv (mark_pipelines t s c).1 []
      ((mark_pipelines t s c).1, { pipeline_ids := g1, seen := ∅ }) :=
    ⟨fun _ _ => rfl, rfl, fun m hm => by simp at hm, fun r hr => by simp at hr,
      fun r1 hr1 => by simp at hr1, fun k hk => by simp at hk⟩
  have h02 : RenInv (mark_pipelines t s (c + d)).1 []
      ((mark_pipelines t s (c + d)).1, { pipeline_ids := g2, seen := ∅ }) :=
    ⟨fun _ _ => rfl, rfl, fun m hm => by simp at hm, fun r hr => by simp at hr,
      fun r1 hr1 => by simp at hr1, fun k hk => by simp at hk⟩
  have hb := renumber_shift t.postorder [] _ _ h01 h02 hnd hpid (fun r hr => by simp at hr)
  have hb' : ∀ r ∈ (renumber_pipelines t (mark_pipelines t s c).1 g1).2.seen,
      (renumber_pipelines t (mark_pipelines t s (c + d)).1 g2).2.pipeline_ids (r + d) =
        (renumber_pipelines t (mark_pipelines t s c).1 g1).2.pipeline_ids r := by
    unfold renumber_pipelines
    rw [plan_state_walker_eq_foldl, plan_state_walker_eq_foldl]
    exact hb
  constructor
  · show (renumber_pipelines t (mark_pipelines t s c).1 g1).2.seen.card =
      (renumber_pipelines t (mark_pipelines t s (c + d)).1 g2).2.seen.card
    have himg : (renumber_pipelines t (mark_pipelines t s (c + d)).1 g2).2.seen =
        (renumber_pipelines t (mark_pipelines t s c).1 g1).2.seen.image (fun r => r + d) := by
      rw [h1.seen_eq, h2.seen_eq]
      ext r
      simp only [List.mem_toFinset, List.mem_map, Finset.mem_image]
      constructor
      · rintro ⟨x, hx, e⟩
        exact ⟨pidOf (mark_pipelines t s c).1 x, ⟨x, hx, rfl⟩, by
          rw [← e, hpid x (by simpa using hx)]⟩
      · rintro ⟨r0, ⟨x, hx, e⟩, rfl⟩
        exact ⟨x, hx, by rw [hpid x (by simpa using hx), e]⟩
    rw [himg]
    exact (Finset.card_image_of_injective _ (fun a b e => by simpa using e)).symm
  · intro n hn
    have hn' := mem_postorder_iff.mpr hn
    show (renumber_pipelines t (mark_pipelines t s c).1 g1).1 n.addr =
      (renumber_pipelines t (mark_pipelines t s (c + d)).1 g2).1 n.addr
    rw [h1.done n hn', h2.done n hn', hpid n (by simpa using hn'),
      hb' _ (by rw [h1.seen_eq]; exact List.mem_toFinset.mpr (List.mem_map_of_mem _ hn'))]
    have he := hmk2 n.addr
    simp only [ProgressInstr.mk.injEq, true_and] at he ⊢
    exact ⟨he.1.symm, he.2.1.symm, he.2.2.1.symm, he.2.2.2.symm⟩

/-- In the model with an unbounded counter, the result of `find_pipelines` is the
same for every two start values of the raw id counter and every two contents of
the uninitialised `pipeline_ids` array. -/
theorem find_pipelines_start_irrelevant (t : PlanState) (hwf : WellFormed t) (s : Instrs)
    (c1 c2 : Nat) (g1 g2 : Nat → Nat) :
    (find_pipelines t s c1 g1).2.no_pipelines = (find_pipelines t s c2 g2).2.no_pipelines ∧
    ∀ n ∈ t.nodes,
      pidOf (find_pipelines t s c1 g1).1 n = pidOf (find_pipelines t s c2 g2).1 n ∧
      drvOf (find_pipelines t s c1 g1).1 n = drvOf (find_pipelines t s c2 g2).1 n := by
  rcases Nat.le_total c1 c2 with h | h
  · obtain ⟨d, rfl⟩ := Nat.exists_eq_add_of_le h
    obtain ⟨hk, hrec⟩ := find_pipelines_shift t hwf s c1 d g1 g2
    exact ⟨hk, fun n hn => by simp only [pidOf, drvOf, PROGRESS_INSTR, hrec n hn, and_self]⟩
  · obtain ⟨d, rfl⟩ := Nat.exists_eq_add_of_le h
    obtain ⟨hk, hrec⟩ := find_pipelines_shift t hwf s c2 d g2 g1
    exact ⟨hk.symm, fun n hn => by simp only [pidOf, drvOf, PROGRESS_INSTR, hrec n hn, and_self]⟩

/-- C23: the counter `current` is never initialised, and the result of
`find_pipelines` depends on the value it starts from.  For a single scan the run
that starts the counter at 0 returns with one pipeline; the run that starts it
at 300000000, a non-negative value, ends the marking pass with the counter at
300000001 and then requests 1200000008 bytes for the `pipeline_ids` array, more
than `MaxAllocSize`, so `palloc` raises an ERROR and no partition is returned. -/
theorem C23_large_counter_start_fails :
    WellFormed (mkLeaf 0 .SeqScan 10) ∧
    (find_pipelines_checked (mkLeaf 0 .SeqScan 10) heap_init 0 (fun _ => 0)).map
      (fun r => r.2.no_pipelines) = some 1 ∧
    (mark_pipelines (mkLeaf 0 .SeqScan 10) heap_init 300000000).2 = 300000001 ∧
    (300000001 + 1) * 4 = 1200000008 ∧ MaxAllocSize < 1200000008 ∧
    (find_pipelines_checked (mkLeaf 0 .SeqScan 10) heap_init 300000000
      (fun _ => 0)).isSome = false := by
  refine ⟨by decide, by decide, by decide, by decide, by decide, by decide⟩

/-- Among the runs of `find_pipelines` that return, the start value of the raw
id counter and the content of the uninitialised `pipeline_ids` array do not
matter: two such runs record the same `no_pipelines` and leave the same pipeline
id and the same driver flag on every node. -/
theorem find_pipelines_checked_start_irrelevant (t : PlanState) (hwf : WellFormed t)
    (s : Instrs) (c1 c2 : Nat) (g1 g2 : Nat → Nat)
    (r1 r2 : Instrs × ProgressState)
    (h1 : find_pipelines_checked t s c1 g1 = some r1)
    (h2 : find_pipelines_checked t s c2 g2 = some r2) :
    r1.2.no_pipelines = r2.2.no_pipelines ∧
    ∀ n ∈ t.nodes, pidOf r1.1 n = pidOf r2.1 n ∧ drvOf r1.1 n = drvOf r2.1 n := by
  unfold find_pipelines_checked at h1 h2
  split at h1
  · split at h2
    · cases h1
      cases h2
      exact find_pipelines_start_irrelevant t hwf s c1 c2 g1 g2
    · cases h2
  · cases h1

theorem mem_raw_ids {s : Instrs} {L : List PlanState} {r : Nat} :
    r ∈ raw_ids s L ↔ ∃ m ∈ L, pidOf s m = r := by
  simp [raw_ids]

theorem raw_ids_append (s : Instrs) (A B : List PlanState) :
    raw_ids s (A ++ B) = raw_ids s A ∪ raw_ids s B := by
  simp [raw_ids, List.toFinset_append]

theorem raw_ids_congr {s s' : Instrs} {L : List PlanState}
    (h : ∀ m ∈ L, pidOf s' m = pidOf s m) : raw_ids s' L = raw_ids s L := by
  unfold raw_ids
  rw [List.map_congr_left h]

theorem CountOK_local {s s' : Instrs} {t : PlanState}
    (h : ∀ m ∈ t.nodes, pidOf s' m = pidOf s m) (hc : CountOK s t) : CountOK s' t := by
  unfold CountOK at *
  rw [raw_ids_congr h]
  exact hc

/-- Sibling subtrees carry raw ids from consecutive ranges of the counter, so
their numbers of raw ids add up. -/
theorem seq_card {s : Instrs} : ∀ {L : List PlanState} {c c' : Nat}, SeqOK s L c c' →
    (∀ ch ∈ L, CountOK s ch) →
    ((raw_ids s (L.flatMap PlanState.nodes)).card : Int) =
      ((L.flatMap PlanState.nodes).map pipeline_delta).sum
  | [], _, _, _, _ => by simp [raw_ids]
  | ch :: L, c, c', ⟨m, h1, h2⟩, hc => by
    have ih := seq_card h2 (fun x hx => hc x (List.mem_cons_of_mem _ hx))
    have hch := hc ch (List.mem_cons_self _ _)
    unfold CountOK at hch
    have hdisj : Disjoint (raw_ids s ch.nodes) (raw_ids s (L.flatMap PlanState.nodes)) := by
      rw [Finset.disjoint_left]
      intro r hr1 hr2
      obtain ⟨x, hx, rfl⟩ := mem_raw_ids.mp hr1
      obtain ⟨y, hy, e⟩ := mem_raw_ids.mp hr2
      have := (h1.range x hx).2
      have := (SeqOK_range h2 y hy).1
      omega
    rw [List.flatMap_cons, raw_ids_append, Finset.card_union_of_disjoint hdisj, List.map_append,
      List.sum_append]
    push_cast
    rw [hch, ih]

theorem SeqOK_around {s : Instrs} {P Q : List PlanState} {i : PlanState} {c c' : Nat}
    (h : SeqOK s (P ++ i :: Q) c c') :
    ∃ b d, SeqOK s P c b ∧ SubOK s i b d ∧ SeqOK s Q d c' := by
  obtain ⟨b, h1, h2⟩ := SeqOK_append h
  obtain ⟨d, hi, h3⟩ := h2
  exact ⟨b, d, h1, hi, h3⟩

/-- The raw ids of a subtree after a visit that writes the record of the visited
node only. -/
theorem own_record_ids {n : PlanState} (hD : Distinct n) {s s' : Instrs}
    (hne : ∀ a, a ≠ n.addr → s' a = s a) :
    raw_ids s' n.nodes =
      insert (pidOf s' n) (raw_ids s (n.children.flatMap PlanState.nodes)) := by
  rw [PlanState.nodes_eq]
  have : raw_ids s' (n.children.flatMap PlanState.nodes) =
      raw_ids s (n.children.flatMap PlanState.nodes) :=
    raw_ids_congr (fun m hm => pidOf_congr (hne _ (hD.not_self m hm)))
  simp only [raw_ids, List.map_cons, List.toFinset_cons] at this ⊢
  rw [this]

theorem sum_delta_nodes (n : PlanState) :
    (n.nodes.map pipeline_delta).sum =
      pipeline_delta n + ((n.children.flatMap PlanState.nodes).map pipeline_delta).sum := by
  rw [PlanState.nodes_eq, List.map_cons, List.sum_cons]

/-- The raw ids of a subtree after the visit of a merge join or nested loop:
the raw id of the inner child, which occurs in the inner subtree only, has
disappeared, and no other raw id has appeared or disappeared. -/
theorem join_ids {n o i : PlanState} (hD : Distinct n) (ho : n.lefttree = some o)
    (hi : n.righttree = some i) {s s' : Instrs} {c c1 : Nat}
    (hseq : SeqOK s n.children c c1)
    (hn : pidOf s' n = pidOf s o)
    (hip : ∀ m ∈ i.nodes,
      pidOf s' m = if pidOf s m = pidOf s i then pidOf s o else pidOf s m)
    (hother : ∀ a, a ≠ n.addr → a ∉ i.addrs → s' a = s a) :
    raw_ids s' n.nodes =
      (raw_ids s (n.children.flatMap PlanState.nodes)).erase (pidOf s i) ∧
    pidOf s i ∈ raw_ids s (n.children.flatMap PlanState.nodes) := by
  obtain ⟨A, B, hL⟩ := children_split ho hi
  have hoc : o ∈ n.children := lefttree_mem_children ho
  have hic : i ∈ n.children := righttree_mem_children hi
  have hL' : n.children = (A ++ [o]) ++ i :: B := by rw [hL]; simp
  have hseq' := hseq
  rw [hL'] at hseq'
  obtain ⟨b, d, hP, hI, hQ⟩ := SeqOK_around hseq'
  have hpo : pidOf s o < b :=
    (SeqOK_range hP o (List.mem_flatMap.mpr ⟨o, by simp, o.self_mem_nodes⟩)).2
  have hpi := hI.range i i.self_mem_nodes
  have hoi : pidOf s o ≠ pidOf s i := by omega
  have hmemS : ∀ m ∈ n.children.flatMap PlanState.nodes,
      pidOf s m ∈ raw_ids s (n.children.flatMap PlanState.nodes) :=
    fun m hm => mem_raw_ids.mpr ⟨m, hm, rfl⟩
  have hin : ∀ m ∈ i.nodes, m ∈ n.children.flatMap PlanState.nodes :=
    fun m hm => List.mem_flatMap.mpr ⟨i, hic, hm⟩
  have hout : ∀ m ∈ n.children.flatMap PlanState.nodes, m ∉ i.nodes →
      pidOf s m ≠ pidOf s i ∧ pidOf s' m = pidOf s m := by
    intro m hm hmi
    obtain ⟨x, hx, hmx⟩ := List.mem_flatMap.mp hm
    constructor
    · rw [hL', List.mem_append, List.mem_cons] at hx
      rcases hx with hx | rfl | hx
      · have := (SeqOK_range hP m (List.mem_flatMap.mpr ⟨x, hx, hmx⟩)).2
        omega
      · exact absurd hmx hmi
      · have := (SeqOK_range hQ m (List.mem_flatMap.mpr ⟨x, hx, hmx⟩)).1
        omega
    · apply pidOf_congr
      apply hother _ (hD.not_self m hm)
      intro hai
      obtain ⟨m', hm', e⟩ := PlanState.mem_addrs.mp hai
      have h1 : m' ∈ n.nodes := PlanState.child_nodes_subset hic hm'
      have h2 : m ∈ n.nodes := PlanState.child_nodes_subset hx hmx
      have := hD.addr_inj m' h1 m h2 e
      exact hmi (this ▸ hm')
  refine ⟨?_, hmemS i (hin i i.self_mem_nodes)⟩
  ext r
  rw [Finset.mem_erase, mem_raw_ids, mem_raw_ids]
  constructor
  · rintro ⟨m, hm, rfl⟩
    rw [PlanState.nodes_eq, List.mem_cons] at hm
    rcases hm with rfl | hm
    · rw [hn]
      exact ⟨hoi, o, List.mem_flatMap.mpr ⟨o, hoc, o.self_mem_nodes⟩, rfl⟩
    · by_cases hmi : m ∈ i.nodes
      · rw [hip m hmi]
        by_cases e : pidOf s m = pidOf s i
        · rw [if_pos e]
          exact ⟨hoi, o, List.mem_flatMap.mpr ⟨o, hoc, o.self_mem_nodes⟩, rfl⟩
        · rw [if_neg e]
          exact ⟨e, m, hm, rfl⟩
      · obtain ⟨h1, h2⟩ := hout m hm hmi
        rw [h2]
        exact ⟨h1, m, hm, rfl⟩
  · rintro ⟨hr, m, hm, rfl⟩
    refine ⟨m, ?_, ?_⟩
    · rw [PlanState.nodes_eq]; exact List.mem_cons_of_mem _ hm
    · by_cases hmi : m ∈ i.nodes
      · rw [hip m hmi, if_neg hr]
      · exact (hout m hm hmi).2

/-- The visit of a node changes the number of raw ids of its subtree by the
amount that the specification attributes to the node. -/
theorem visit_count {n : PlanState} (hD : Distinct n) (hs : slotsOK n) {s : Instrs}
    {c c1 : Nat} (hseq : SeqOK s n.children c c1) (hc : ∀ ch ∈ n.children, CountOK s ch) :
    CountOK (find_pipelines_walker n n.children (s, c1)).1 n := by
  have hS := seq_card hseq hc
  unfold CountOK
  rw [sum_delta_nodes, ← hS]
  rcases walker_shape n hs with ⟨hd, hw⟩ | ⟨hd, x, hx, hw⟩ |
      ⟨hd, o, i, ho, hi, ⟨ht, hw⟩ | ⟨ht, hw⟩⟩
  · rw [hw, hd, start_pipeline_eq]
    dsimp only
    rw [own_record_ids hD (fun a ha => modify_other _ _ _ ha), pidOf_modify_self]
    have hnot : c1 ∉ raw_ids s (n.children.flatMap PlanState.nodes) := by
      intro h
      obtain ⟨m, hm, e⟩ := mem_raw_ids.mp h
      have := (SeqOK_range hseq m hm).2
      omega
    dsimp only
    rw [Finset.card_insert_of_not_mem hnot]
    push_cast
    ring
  · rw [hw, hd]
    dsimp only
    rw [own_record_ids hD (fun a ha => modify_other _ _ _ ha), pidOf_modify_self]
    have hmem : pidOf s x ∈ raw_ids s (n.children.flatMap PlanState.nodes) :=
      mem_raw_ids.mpr ⟨x, List.mem_flatMap.mpr ⟨x, hx, x.self_mem_nodes⟩, rfl⟩
    dsimp only
    rw [Finset.insert_eq_of_mem hmem]
    ring
  · rw [hw, hd]
    obtain ⟨-, hn, hip, -, hother⟩ := mark_MergeJoin_props hD ho hi s c1
    obtain ⟨he, hmem⟩ := join_ids hD ho hi hseq hn hip hother
    rw [he, Finset.card_erase_of_mem hmem]
    have := Finset.card_pos.mpr ⟨_, hmem⟩
    rw [Nat.cast_sub (by omega)]
    push_cast
    ring
  · rw [hw, hd]
    obtain ⟨A, B, hL⟩ := children_split ho hi
    have hseq' := hseq
    rw [hL] at hseq'
    obtain ⟨a, b, d, _, _, hso, hsi⟩ := SeqOK_split hseq'
    have hto : ∀ m ∈ i.nodes, pidOf s m ≠ pidOf s o := by
      intro m hm
      have h1 := hso.range o o.self_mem_nodes
      have h2 := hsi.range m hm
      omega
    obtain ⟨-, hn, hip, -, hother⟩ := mark_NestLoop_props hD ho hi s c1 hto
    obtain ⟨he, hmem⟩ := join_ids hD ho hi hseq hn hip hother
    rw [he, Finset.card_erase_of_mem hmem]
    have := Finset.card_pos.mpr ⟨_, hmem⟩
    rw [Nat.cast_sub (by omega)]
    push_cast
    ring

/-- Sibling subtrees walked one after the other: each keeps the number of raw
ids its own walk produced. -/
theorem seq_count (L : List PlanState)
    (hwf : ∀ ch ∈ L, Distinct ch ∧ ∀ m ∈ ch.nodes, slotsOK m)
    (ih : ∀ ch ∈ L, ∀ (s : Instrs) (c : Nat),
      CountOK (plan_state_walker_common find_pipelines_walker true ch (s, c)).1 ch) :
    (L.flatMap PlanState.addrs).Nodup → ∀ (s : Instrs) (c : Nat), ∀ ch ∈ L,
      CountOK (L.foldl (fun st ch =>
        plan_state_walker_common find_pipelines_walker true ch st) (s, c)).1 ch := by
  induction L with
  | nil => intro _ s c ch hch; simp at hch
  | cons x L ihL =>
    intro hnd s c ch hch
    rw [List.flatMap_cons, List.nodup_append] at hnd
    obtain ⟨_, hndL, hdisj⟩ := hnd
    rw [List.foldl_cons]
    have hframe := (seq_spec L
      (fun y hy => mark_spec y (hwf y (List.mem_cons_of_mem _ hy)).1
        (hwf y (List.mem_cons_of_mem _ hy)).2) hndL
      (plan_state_walker_common find_pipelines_walker true x (s, c)).1
      (plan_state_walker_common find_pipelines_walker true x (s, c)).2).2
    have hrest := ihL (fun y hy => hwf y (List.mem_cons_of_mem _ hy))
      (fun y hy => ih y (List.mem_cons_of_mem _ hy)) hndL
      (plan_state_walker_common find_pipelines_walker true x (s, c)).1
      (plan_state_walker_common find_pipelines_walker true x (s, c)).2
    simp only [Prod.mk.eta] at hframe hrest
    by_cases hin : ch ∈ L
    · exact hrest ch hin
    · have hx : ch = x := by
        rcases List.mem_cons.mp hch with h | h
        · exact h
        · exact absurd h hin
      subst hx
      refine CountOK_local (fun m hm => pidOf_congr ?_) (ih ch (List.mem_cons_self _ _) s c)
      exact hframe _ (fun hc => hdisj (PlanState.addr_mem_addrs hm) hc)

/-- After the marking pass has walked a well-formed subtree, the number of raw
ids in it is the sum of the changes that the specification attributes to its
nodes. -/
theorem count_spec (t : PlanState) : Distinct t → (∀ n ∈ t.nodes, slotsOK n) →
    ∀ (s : Instrs) (c : Nat),
      CountOK (plan_state_walker_common find_pipelines_walker true t (s, c)).1 t := by
  induction t using PlanState.induction_children with
  | h n ih =>
    intro hD hs s c
    rw [plan_state_walker_common_eq]
    simp only [if_true]
    have hwf : ∀ ch ∈ n.children, Distinct ch ∧ ∀ m ∈ ch.nodes, slotsOK m :=
      fun ch hch => ⟨hD.child hch, fun m hm => hs m (PlanState.child_nodes_subset hch hm)⟩
    obtain ⟨hseq, -⟩ := seq_spec n.children
      (fun ch hch => mark_spec ch (hwf ch hch).1 (hwf ch hch).2) hD.children_nodup s c
    have hcnt := seq_count n.children hwf
      (fun ch hch => ih ch hch (hwf ch hch).1 (hwf ch hch).2) hD.children_nodup s c
    have hv := visit_count hD (hs n n.self_mem_nodes) hseq hcnt
    simp only [Prod.mk.eta] at hv
    exact hv

/-- The sum of the per-node changes is the count that the specification states
in terms of the kinds of the nodes. -/
theorem sum_delta_eq_expected (L : List PlanState) :
    (L.map pipeline_delta).sum =
      (L.countP (fun n => n.children.isEmpty) : Int)
      + (L.countP (fun n => !n.children.isEmpty && n.tag.isBlocking) : Int)
      + (L.countP (fun n => !n.children.isEmpty && !n.tag.isBlocking &&
          decide (n.tag ≠ .NestLoop ∧ n.tag ≠ .MergeJoin ∧ n.tag ≠ .HashJoin ∧ n.tag ≠ .Hash) &&
          decide (2 ≤ n.children.length)) : Int)
      - (L.countP (fun n => !n.children.isEmpty && decide (n.tag = .NestLoop)) : Int)
      - (L.countP (fun n => !n.children.isEmpty && decide (n.tag = .MergeJoin)) : Int) := by
  induction L with
  | nil => simp
  | cons n L ih =>
    rw [List.map_cons, List.sum_cons, ih]
    simp only [List.countP_cons]
    push_cast
    have key : pipeline_delta n =
        (if (n.children.isEmpty) = true then (1 : Int) else 0)
        + (if (!n.children.isEmpty && n.tag.isBlocking) = true then (1 : Int) else 0)
        + (if (!n.children.isEmpty && !n.tag.isBlocking &&
            decide (n.tag ≠ .NestLoop ∧ n.tag ≠ .MergeJoin ∧ n.tag ≠ .HashJoin ∧
              n.tag ≠ .Hash) &&
            decide (2 ≤ n.children.length)) = true then (1 : Int) else 0)
        - (if (!n.children.isEmpty && decide (n.tag = .NestLoop)) = true then (1 : Int) else 0)
        - (if (!n.children.isEmpty && decide (n.tag = .MergeJoin)) = true
            then (1 : Int) else 0) := by
      unfold pipeline_delta
      by_cases hL : n.children.isEmpty = true
      · simp [hL]
      · have hL' : n.children.isEmpty = false := by simpa using hL
        by_cases t1 : n.tag = .NestLoop
        · simp [hL', t1, NodeTag.isBlocking]
        by_cases t2 : n.tag = .MergeJoin
        · simp [hL', t2, NodeTag.isBlocking]
        by_cases t3 : n.tag = .HashJoin
        · simp [hL', t3, NodeTag.isBlocking]
        by_cases t4 : n.tag = .Hash
        · simp [hL', t4, NodeTag.isBlocking]
        by_cases hb : n.tag.isBlocking = true
        · simp [hL', t1, t2, t3, t4, hb]
        · have hb' : n.tag.isBlocking = false := by simpa using hb
          by_cases h2 : 2 ≤ n.children.length
          · simp [hL', t1, t2, t3, t4, hb', h2]
          · simp [hL', t1, t2, t3, t4, hb', h2]
    rw [key]
    ring

/-- C21: for every well-formed plan tree, the pipeline count recorded by
`find_pipelines` is the number of leaf nodes, plus the number of non-leaf
blocking operators, plus the number of non-leaf nodes of any other non-join,
non-hash kind with two or more children, minus the number of non-leaf nested
loops, minus the number of non-leaf merge joins. -/
theorem C21_pipeline_count (t : PlanState) (hwf : WellFormed t) (s : Instrs) (current : Nat)
    (garbage : Nat → Nat) :
    ((find_pipelines t s current garbage).2.no_pipelines : Int) = pipelines_expected t := by
  obtain ⟨f, -, -, -, -, hk⟩ := find_pipelines_relabel t hwf.1 s current garbage
  have hc := count_spec t hwf.1 hwf.2 s current
  unfold CountOK raw_ids at hc
  rw [hk]
  unfold mark_pipelines plan_state_walker
  rw [hc]
  exact sum_delta_eq_expected t.nodes

theorem C21_pipeline_count_witness :
    WellFormed exJoins ∧
    pipelines_expected exJoins = 3 ∧
    ((find_pipelines exJoins heap_init 5 (fun _ => 0)).2.no_pipelines : Int) = 3 := by
  have h := C21_pipeline_count exJoins (by decide) heap_init 5 (fun _ => 0)
  have he : pipelines_expected exJoins = 3 := by decide
  exact ⟨by decide, he, by rw [h, he]⟩
